import Mathlib

/-!
# Verification of llama-zip's predictive arithmetic coder

Shallow embedding of `src/llama_zip.py` (arithmetic coder core, CDF builder,
bit packing, predictive loop, CLI parsing) together with proofs of the
specification's claims about it.

Machine integers are modelled as `Nat` with explicit masking by `2 ^ 64`
exactly where the source masks; Python's unbounded ints make this faithful.
-/

namespace LlamaZip

/-! ## Constants (llama_zip.py lines 13-15 and 18-25) -/

def NUM_STATE_BITS : Nat := 64

def FREQ_SCALE_FACTOR : Nat := 1 <<< 32

/-- `full_range = 1 << NUM_STATE_BITS` (line 20). -/
def FULL : Nat := 1 <<< NUM_STATE_BITS

/-- `self.half_range = full_range >> 1` (line 21). -/
def HALF : Nat := FULL >>> 1

/-- `self.quarter_range = self.half_range >> 1` (line 22). -/
def QUARTER : Nat := HALF >>> 1

/-- `self.state_mask = full_range - 1` (line 23). -/
def MASK : Nat := FULL - 1

theorem FULL_eq : FULL = 18446744073709551616 := by decide
theorem HALF_eq : HALF = 9223372036854775808 := by decide
theorem QUARTER_eq : QUARTER = 4611686018427387904 := by decide
theorem MASK_eq : MASK = 18446744073709551615 := by decide
theorem FULL_pow : FULL = 2 ^ 64 := by decide
theorem HALF_pow : HALF = 2 ^ 63 := by decide
theorem QUARTER_pow : QUARTER = 2 ^ 62 := by decide

/-! ## Bitwise-to-arithmetic characterizations

The coder uses Python's `^`, `&`, `|`, `<<`, `>>` on nonnegative ints; these
lemmas convert each use to plain arithmetic on `Nat` under the range bounds
that hold invariantly in the source. -/

theorem shiftLeft_one (x : Nat) : x <<< 1 = 2 * x := by
  rw [Nat.shiftLeft_eq]
  ring

theorem and_MASK (x : Nat) : x &&& MASK = x % FULL := by
  have h : MASK = 2 ^ 64 - 1 := by decide
  rw [h, Nat.and_pow_two_sub_one_eq_mod, FULL_pow]

theorem lor_one_of_even (x : Nat) (h : x % 2 = 0) : x ||| 1 = x + 1 := by
  obtain ⟨a, rfl⟩ : ∃ a, x = 2 * a := ⟨x / 2, by omega⟩
  have h2 : (1 : Nat) < 2 ^ 1 := by norm_num
  have := Nat.mul_add_lt_is_or (i := 1) h2 a
  simpa [Nat.pow_one] using this.symm

theorem and_two_pow_eq_zero_iff (x k : Nat) : x &&& 2 ^ k = 0 ↔ x.testBit k = false := by
  constructor
  · intro h
    have := congrArg (fun n => n.testBit k) h
    simpa [Nat.testBit_and, Nat.testBit_two_pow_self] using this
  · intro h
    apply Nat.eq_of_testBit_eq
    intro i
    by_cases hik : k = i
    · subst hik
      simp [Nat.testBit_and, h]
    · simp [Nat.testBit_and, Nat.testBit_two_pow_of_ne hik]

theorem testBit63_iff (x : Nat) (hx : x < FULL) : x.testBit 63 = decide (HALF ≤ x) := by
  rw [Nat.testBit_to_div_mod]
  rw [FULL_eq] at hx
  rw [HALF_eq]
  have h63 : (2 : Nat) ^ 63 = 9223372036854775808 := by norm_num
  rw [h63]
  simp only [decide_eq_decide]
  omega

theorem testBit62_div_mod (x : Nat) : x.testBit 62 = decide (x / QUARTER % 2 = 1) := by
  rw [Nat.testBit_to_div_mod]
  have h62 : (2 : Nat) ^ 62 = QUARTER := by decide
  rw [h62]

theorem and_HALF_eq_zero_iff (x : Nat) (hx : x < FULL) : x &&& HALF = 0 ↔ x < HALF := by
  rw [HALF_pow, and_two_pow_eq_zero_iff, ← HALF_pow, testBit63_iff x hx]
  simp only [decide_eq_false_iff_not, Nat.not_le]

theorem and_QUARTER_eq_zero_iff (x : Nat) : x &&& QUARTER = 0 ↔ x / QUARTER % 2 = 0 := by
  rw [QUARTER_pow, and_two_pow_eq_zero_iff, ← QUARTER_pow, testBit62_div_mod]
  simp only [decide_eq_false_iff_not]
  omega

theorem and_QUARTER_low (x : Nat) (hx : x < HALF) :
    (x &&& QUARTER ≠ 0) ↔ QUARTER ≤ x := by
  rw [Ne, and_QUARTER_eq_zero_iff]
  rw [HALF_eq] at hx
  rw [QUARTER_eq]
  omega

theorem and_QUARTER_high (x : Nat) (hx1 : HALF ≤ x) (hx2 : x < FULL) :
    (x &&& QUARTER = 0) ↔ x < HALF + QUARTER := by
  rw [and_QUARTER_eq_zero_iff]
  rw [HALF_eq] at hx1 ⊢
  rw [FULL_eq] at hx2
  rw [QUARTER_eq]
  omega

theorem xor_two_pow_of_lt {x k : Nat} (h : x < 2 ^ k) : x ^^^ 2 ^ k = x + 2 ^ k := by
  apply Nat.eq_of_testBit_eq
  intro i
  have hadd : x + 2 ^ k = 2 ^ k * 1 + x := by ring
  rw [hadd, Nat.testBit_mul_pow_two_add 1 h i]
  by_cases hik : i < k
  · have hne : k ≠ i := by omega
    simp [Nat.testBit_xor, Nat.testBit_two_pow_of_ne hne, hik]
  · by_cases hik2 : i = k
    · subst hik2
      simp [Nat.testBit_xor, Nat.testBit_two_pow_self, Nat.testBit_lt_two_pow h, hik]
    · have hne : k ≠ i := by omega
      have hxi : x.testBit i = false :=
        Nat.testBit_lt_two_pow (lt_of_lt_of_le h (Nat.pow_le_pow_right (by norm_num) (by omega)))
      have h1i : Nat.testBit 1 (i - k) = false := by
        have : i - k ≠ 0 := by omega
        rw [show (1 : Nat) = 2 ^ 0 by norm_num]
        exact Nat.testBit_two_pow_of_ne (by omega)
      simp [Nat.testBit_xor, Nat.testBit_two_pow_of_ne hne, hxi, hik, h1i]

theorem xor_two_pow_of_ge {x k : Nat} (h1 : 2 ^ k ≤ x) (h2 : x < 2 ^ (k + 1)) :
    x ^^^ 2 ^ k = x - 2 ^ k := by
  have hy : x - 2 ^ k < 2 ^ k := by
    have : (2 : Nat) ^ (k + 1) = 2 ^ k + 2 ^ k := by ring
    omega
  have := xor_two_pow_of_lt hy
  have hx : x = (x - 2 ^ k) ^^^ 2 ^ k := by
    rw [this]
    omega
  calc x ^^^ 2 ^ k = ((x - 2 ^ k) ^^^ 2 ^ k) ^^^ 2 ^ k := by rw [← hx]
    _ = x - 2 ^ k := by rw [Nat.xor_assoc, Nat.xor_self, Nat.xor_zero]

theorem xor_HALF_of_lt (x : Nat) (h : x < HALF) : x ^^^ HALF = x + HALF := by
  rw [HALF_pow] at h ⊢
  exact xor_two_pow_of_lt h

theorem xor_HALF_of_ge (x : Nat) (h1 : HALF ≤ x) (h2 : x < FULL) : x ^^^ HALF = x - HALF := by
  rw [HALF_pow] at h1 ⊢
  rw [FULL_pow] at h2
  exact xor_two_pow_of_ge h1 (by norm_num at h2 ⊢; omega)

theorem shiftRight63 (x : Nat) (hx : x < FULL) :
    x >>> (NUM_STATE_BITS - 1) = if HALF ≤ x then 1 else 0 := by
  have : NUM_STATE_BITS - 1 = 63 := by decide
  rw [this, Nat.shiftRight_eq_div_pow]
  rw [FULL_eq] at hx
  rw [HALF_eq]
  have h63 : (2 : Nat) ^ 63 = 9223372036854775808 := by norm_num
  rw [h63]
  by_cases h : 9223372036854775808 ≤ x
  · simp only [h, if_true]
    omega
  · simp only [h, if_false]
    omega

theorem MASK_shiftRight_one : MASK >>> 1 = HALF - 1 := by decide

theorem lor_HALF_of_lt (x : Nat) (h : x < HALF) : x ||| HALF = x + HALF := by
  have h2 : x < 2 ^ 63 := by rw [HALF_pow] at h; exact h
  calc x ||| HALF = HALF ||| x := Nat.or_comm x HALF
    _ = 2 ^ 63 * 1 + x := by rw [HALF_pow, Nat.mul_add_lt_is_or h2 1, Nat.mul_one]
    _ = x + HALF := by rw [HALF_pow]; ring

theorem msb_guard_iff (l h : Nat) (hl : l < FULL) (hh : h < FULL) :
    ((l ^^^ h) &&& HALF = 0) ↔ (l < HALF ↔ h < HALF) := by
  rw [HALF_pow, and_two_pow_eq_zero_iff, Nat.testBit_xor]
  rw [testBit63_iff l hl, testBit63_iff h hh]
  have e : (2 : Nat) ^ 63 = 9223372036854775808 := by norm_num
  rw [HALF_eq, e]
  by_cases h1 : (9223372036854775808 : Nat) ≤ l <;>
    by_cases h2 : (9223372036854775808 : Nat) ≤ h <;> simp [h1, h2] <;> omega

theorem msb_newl (l : Nat) : (l <<< 1) &&& MASK = 2 * l % FULL := by
  rw [shiftLeft_one, and_MASK]

theorem msb_newh (h : Nat) : ((h <<< 1) &&& MASK) ||| 1 = 2 * h % FULL + 1 := by
  rw [shiftLeft_one, and_MASK]
  exact lor_one_of_even _ (by rw [FULL_eq]; omega)

theorem under_newl (l : Nat) (h1 : QUARTER ≤ l) (h2 : l < HALF) :
    (l <<< 1) ^^^ HALF = 2 * l - HALF := by
  rw [shiftLeft_one]
  exact xor_HALF_of_ge _ (by rw [HALF_eq, QUARTER_eq] at *; omega)
    (by rw [FULL_eq, HALF_eq] at *; omega)

theorem under_newh (h : Nat) (h1 : HALF ≤ h) (h2 : h < HALF + QUARTER) :
    (((h ^^^ HALF) <<< 1) ||| HALF) ||| 1 = 2 * h - HALF + 1 := by
  have hx : h ^^^ HALF = h - HALF :=
    xor_HALF_of_ge h h1 (by rw [FULL_eq, HALF_eq, QUARTER_eq] at *; omega)
  rw [hx, shiftLeft_one]
  have hlt : 2 * (h - HALF) < HALF := by rw [HALF_eq, QUARTER_eq] at *; omega
  rw [lor_HALF_of_lt _ hlt]
  rw [lor_one_of_even _ (by rw [HALF_eq]; omega)]
  rw [HALF_eq] at *
  omega

/-! ## Arithmetic coder core (`ArithmeticCoderBase`, lines 18-47)

`update` interleaves the shared `low`/`high` renormalization with the abstract
`shift()`/`underflow()` hooks.  Since neither hook touches `low`/`high` and the
renormalization reads nothing from the subclasses, the embedding factors
`update` into the pure `low`/`high` transformation plus a renormalization
trace (`List ROp`, in execution order); `Encoder.applyOps`/`Decoder.applyOps`
replay the hooks' side effects from the trace.  A `shiftOp` records the bit
`self.low >> (NUM_STATE_BITS - 1)` read by `Encoder.shift` at that moment.

The loop guards carry, besides the source's bit tests, the range bounds that
hold invariantly for every reachable coder state (proved below as
`StateInv`-preservation); they make the recursion well-founded and do not
change the behavior on any reachable state. -/

inductive ROp where
  | shiftOp (bit : Nat) : ROp
  | underOp : ROp
deriving Repr, DecidableEq

/-- First renormalization loop of `update` (lines 34-37):
`while ((low ^ high) & half_range) == 0: shift(); low = (low << 1) & mask;
high = ((high << 1) & mask) | 1`. -/
def msbLoop (l h : Nat) : Nat × Nat × List ROp :=
  if hg : (l ^^^ h) &&& HALF = 0 ∧ l ≤ h ∧ h < FULL then
    let r := msbLoop ((l <<< 1) &&& MASK) (((h <<< 1) &&& MASK) ||| 1)
    (r.1, r.2.1, ROp.shiftOp (l >>> (NUM_STATE_BITS - 1)) :: r.2.2)
  else (l, h, [])
termination_by FULL - (h - l)
decreasing_by
  obtain ⟨hxor, hle, hh⟩ := hg
  have hl : l < FULL := lt_of_le_of_lt hle hh
  have hiff := (msb_guard_iff l h hl hh).mp hxor
  rw [msb_newh h, msb_newl l]
  rw [FULL_eq] at hh hl ⊢
  rw [HALF_eq] at hiff
  omega

/-- Second (near-convergence) renormalization loop of `update` (lines 38-41):
`while (low & ~high & quarter_range) != 0: underflow();
low = (low << 1) ^ half_range; high = ((high ^ half_range) << 1) | half_range | 1`.
Python's `low & ~high & quarter_range != 0` tests bit 62 of `low` set and bit 62
of `high` clear, written here as the two `&&& QUARTER` conjuncts. -/
def underLoop (l h : Nat) : Nat × Nat × List ROp :=
  if hg : l &&& QUARTER ≠ 0 ∧ h &&& QUARTER = 0 ∧
      QUARTER ≤ l ∧ l < HALF ∧ HALF ≤ h ∧ h < HALF + QUARTER then
    let r := underLoop ((l <<< 1) ^^^ HALF) ((((h ^^^ HALF) <<< 1) ||| HALF) ||| 1)
    (r.1, r.2.1, ROp.underOp :: r.2.2)
  else (l, h, [])
termination_by FULL - (h - l)
decreasing_by
  obtain ⟨ha1, ha2, hql, hlh, hhh, hhq⟩ := hg
  rw [under_newl l hql hlh, under_newh h hhh hhq]
  rw [FULL_eq, HALF_eq, QUARTER_eq] at *
  omega

/-- Total mass of a CDF, as read by the coder: `cum_freqs[-1]`, the last
entry (0 for an empty table, unreachable in the source). -/
def cdfTotal (c : List Nat) : Nat := (c.getLast?).getD 0

/-- Narrowing step of `ArithmeticCoderBase.update` (lines 28-33), before
renormalization.  `cum_freqs[-1]` is the last entry, `cum_freqs[symbol - 1]`
guarded by `symbol > 0` exactly as in the source. -/
def narrow (low high : Nat) (cum_freqs : List Nat) (symbol : Nat) : Nat × Nat :=
  let total := cdfTotal cum_freqs
  let range := high - low + 1
  let symhigh := cum_freqs.getD symbol 0
  let high1 := low + symhigh * range / total - 1
  let symlow := if symbol > 0 then cum_freqs.getD (symbol - 1) 0 else 0
  let low1 := low + symlow * range / total
  (low1, high1)

/-- `ArithmeticCoderBase.update` (lines 27-41): narrowing followed by the two
renormalization loops, returning the new `low`, `high` and the trace of
`shift`/`underflow` hook invocations in execution order. -/
def update (low high : Nat) (cum_freqs : List Nat) (symbol : Nat) : Nat × Nat × List ROp :=
  let n := narrow low high cum_freqs symbol
  let m := msbLoop n.1 n.2
  let u := underLoop m.1 m.2.1
  (u.1, u.2.1, m.2.2 ++ u.2.2)

/-! ## Encoder (lines 50-72) -/

structure Encoder where
  low : Nat
  high : Nat
  encoded_data : List Nat
  num_underflow : Nat
deriving Repr, DecidableEq

/-- `Encoder.__init__` (lines 51-54). -/
def Encoder.init : Encoder :=
  { low := 0, high := MASK, encoded_data := [], num_underflow := 0 }

/-- `Encoder.get_encoded` (lines 56-57). -/
def Encoder.get_encoded (e : Encoder) : List Nat := e.encoded_data

/-- Effect of one `Encoder.shift` call (lines 65-69): append the recorded top
bit of `low`, then `num_underflow` copies of its complement. -/
def Encoder.shiftEff (e : Encoder) (bit : Nat) : Encoder :=
  { e with
    encoded_data := e.encoded_data ++ bit :: List.replicate e.num_underflow (bit ^^^ 1),
    num_underflow := 0 }

/-- Effect of one `Encoder.underflow` call (lines 71-72). -/
def Encoder.underflowEff (e : Encoder) : Encoder :=
  { e with num_underflow := e.num_underflow + 1 }

/-- Replay the `shift`/`underflow` side effects of an `update` trace. -/
def Encoder.applyOps (e : Encoder) : List ROp → Encoder
  | [] => e
  | ROp.shiftOp b :: ops => (e.shiftEff b).applyOps ops
  | ROp.underOp :: ops => e.underflowEff.applyOps ops

/-- `Encoder.encode_symbol` (lines 59-60): one `update`. -/
def Encoder.encode_symbol (e : Encoder) (cum_freqs : List Nat) (symbol : Nat) : Encoder :=
  let r := update e.low e.high cum_freqs symbol
  { (e.applyOps r.2.2) with low := r.1, high := r.2.1 }

/-- `Encoder.finish` (lines 62-63): append a single `1` bit. -/
def Encoder.finish (e : Encoder) : Encoder :=
  { e with encoded_data := e.encoded_data ++ [1] }

/-- Encode a list of `(cum_freqs, symbol)` pairs in order. -/
def encodeAll (e : Encoder) : List (List Nat × Nat) → Encoder
  | [] => e
  | p :: ps => encodeAll (e.encode_symbol p.1 p.2) ps

/-! ## Decoder (lines 75-103) -/

structure Decoder where
  low : Nat
  high : Nat
  code : Nat
  input : List Nat
deriving Repr, DecidableEq

/-- `Decoder.read_code_bit` (lines 102-103): pop the next bit, or 0 when the
input is exhausted. -/
def readCodeBit : List Nat → Nat × List Nat
  | [] => (0, [])
  | b :: rest => (b, rest)

/-- The seeding loop of `Decoder.__init__` (lines 79-81): read `k` bits
MSB-first into `code`. -/
def initCode : Nat → List Nat → Nat × List Nat
  | 0, input => (0, input)
  | k + 1, input =>
    let r := readCodeBit input
    let rest := initCode k r.2
    (r.1 <<< k + rest.1, rest.2)

/-- `Decoder.__init__` (lines 76-81). -/
def Decoder.init (encoded_data : List Nat) : Decoder :=
  let r := initCode NUM_STATE_BITS encoded_data
  { low := 0, high := MASK, code := r.1, input := r.2 }

/-- Replay the decoder's `shift` (lines 92-93) and `underflow` (lines 95-100)
side effects of an `update` trace. -/
def Decoder.applyOps (d : Decoder) : List ROp → Decoder
  | [] => d
  | ROp.shiftOp _ :: ops =>
    let r := readCodeBit d.input
    Decoder.applyOps
      { d with code := ((d.code <<< 1) &&& MASK) ||| r.1, input := r.2 } ops
  | ROp.underOp :: ops =>
    let r := readCodeBit d.input
    Decoder.applyOps
      { d with
        code := ((d.code &&& HALF) ||| ((d.code <<< 1) &&& (MASK >>> 1))) ||| r.1,
        input := r.2 } ops

/-- `np.searchsorted(cum_freqs, value, side="right")` on a sorted array:
the number of leading entries that are `≤ value`. -/
def searchsortedRight (cum_freqs : List Nat) (value : Nat) : Nat :=
  (cum_freqs.takeWhile (fun c => decide (c ≤ value))).length

/-- `Decoder.decode_symbol` (lines 83-90). -/
def Decoder.decode_symbol (d : Decoder) (cum_freqs : List Nat) : Nat × Decoder :=
  let total := cdfTotal cum_freqs
  let range := d.high - d.low + 1
  let offset := d.code - d.low
  let value := ((offset + 1) * total - 1) / range
  let symbol := searchsortedRight cum_freqs value
  let r := update d.low d.high cum_freqs symbol
  (symbol, { (d.applyOps r.2.2) with low := r.1, high := r.2.1 })

/-- Decode one symbol per given CDF, in order. -/
def decodeAll (d : Decoder) : List (List Nat) → List Nat × Decoder
  | [] => ([], d)
  | c :: cs =>
    let r := d.decode_symbol c
    let rest := decodeAll r.2 cs
    (r.1 :: rest.1, rest.2)

/-! ## CDF validity (spec §3 invariants) -/

/-- The invariants the spec's §3 places on a frequency table: nonempty,
strictly increasing (hence every symbol has mass ≥ 1), positive first entry,
and total mass at most `QUARTER = 2 ^ 62`. -/
def ValidCdf (c : List Nat) : Prop :=
  c ≠ [] ∧ List.Chain' (· < ·) c ∧ 0 < c.headD 0 ∧ (c.getLast?).getD 0 ≤ QUARTER

def chainLtB : List Nat → Bool
  | [] => true
  | [_] => true
  | a :: b :: t => decide (a < b) && chainLtB (b :: t)

theorem chainLtB_iff : ∀ c : List Nat, chainLtB c = true ↔ List.Chain' (· < ·) c
  | [] => by simp [chainLtB]
  | [a] => by simp [chainLtB]
  | a :: b :: t => by
    rw [chainLtB, Bool.and_eq_true, decide_eq_true_eq, List.chain'_cons,
      chainLtB_iff (b :: t)]

instance : DecidablePred ValidCdf := fun c =>
  decidable_of_iff
    (c ≠ [] ∧ chainLtB c = true ∧ 0 < c.headD 0 ∧ (c.getLast?).getD 0 ≤ QUARTER)
    (by unfold ValidCdf; rw [chainLtB_iff])

theorem cdfTotal_eq_getD (c : List Nat) :
    cdfTotal c = c.getD (c.length - 1) 0 := by
  rw [cdfTotal, List.getLast?_eq_getElem?, List.getD_eq_getElem?_getD]

theorem ValidCdf.mono {c : List Nat} (hc : ValidCdf c) {i j : Nat}
    (hij : i < j) (hj : j < c.length) : c.getD i 0 < c.getD j 0 := by
  obtain ⟨hne, hch, _, _⟩ := hc
  have hp : List.Pairwise (· < ·) c := List.chain'_iff_pairwise.mp hch
  rw [List.pairwise_iff_getElem] at hp
  have hi : i < c.length := lt_trans hij hj
  have := hp i j hi hj hij
  rw [List.getD_eq_getElem?_getD, List.getD_eq_getElem?_getD,
    List.getElem?_eq_getElem hi, List.getElem?_eq_getElem hj]
  simpa using this

theorem ValidCdf.pos {c : List Nat} (hc : ValidCdf c) {i : Nat}
    (hi : i < c.length) : 0 < c.getD i 0 := by
  have h0 : 0 < c.getD 0 0 := by
    obtain ⟨hne, _, hh, _⟩ := hc
    cases c with
    | nil => exact absurd rfl hne
    | cons a t => simpa [List.headD] using hh
  rcases Nat.eq_zero_or_pos i with h | h
  · subst h; exact h0
  · exact lt_trans h0 (hc.mono h hi)

theorem ValidCdf.le_total {c : List Nat} (hc : ValidCdf c) {i : Nat}
    (hi : i < c.length) : c.getD i 0 ≤ cdfTotal c := by
  rw [cdfTotal_eq_getD c]
  rcases Nat.lt_or_ge i (c.length - 1) with h | h
  · exact le_of_lt (hc.mono h (by omega))
  · have : i = c.length - 1 := by omega
    subst this
    exact le_refl _

theorem ValidCdf.total_pos {c : List Nat} (hc : ValidCdf c) : 0 < cdfTotal c := by
  have hne := hc.1
  have hlen : 0 < c.length := List.length_pos.mpr hne
  rw [cdfTotal_eq_getD c]
  exact hc.pos (by omega)

theorem ValidCdf.total_le {c : List Nat} (hc : ValidCdf c) : cdfTotal c ≤ QUARTER := hc.2.2.2

/-! ## Coder state invariant

`StateInv` is the normal form every reachable `(low, high)` pair satisfies
after `__init__` or any completed `update` with a valid CDF: the top bits
differ (exit of the first loop) and the near-convergence condition fails
(exit of the second), which together bound the interval width from below. -/

def StateInv (low high : Nat) : Prop :=
  low < HALF ∧ HALF ≤ high ∧ high < FULL ∧ (low < QUARTER ∨ HALF + QUARTER ≤ high)

theorem StateInv_init : StateInv 0 MASK := by
  rw [StateInv, HALF_eq, FULL_eq, QUARTER_eq, MASK_eq]
  omega

theorem StateInv.low_le_high {l h : Nat} (hi : StateInv l h) : l ≤ h := by
  obtain ⟨h1, h2, _, _⟩ := hi
  omega

theorem StateInv.range_gt {l h : Nat} (hi : StateInv l h) : QUARTER < h - l + 1 := by
  obtain ⟨h1, h2, h3, h4⟩ := hi
  rw [HALF_eq, FULL_eq, QUARTER_eq] at *
  omega

/-- Exit state of the MSB-match loop: the top bits of `low` and `high` differ,
and the basic ordering is preserved. -/
theorem msbLoop_bounds : ∀ l h : Nat, l ≤ h → h < FULL →
    (msbLoop l h).1 < HALF ∧ HALF ≤ (msbLoop l h).2.1 ∧ (msbLoop l h).2.1 < FULL ∧
    (msbLoop l h).1 ≤ (msbLoop l h).2.1 := by
  intro l h
  induction l, h using msbLoop.induct with
  | case1 l h hg ih =>
    intro hle hh
    rw [msbLoop, dif_pos hg]
    obtain ⟨hx, -, -⟩ := hg
    have hl : l < FULL := lt_of_le_of_lt hle hh
    have hiff := (msb_guard_iff l h hl hh).mp hx
    have h1 := msb_newl l
    have h2 := msb_newh h
    have hle2 : (l <<< 1) &&& MASK ≤ ((h <<< 1) &&& MASK) ||| 1 := by
      rw [h1, h2]
      rw [FULL_eq] at *
      rw [HALF_eq] at hiff
      omega
    have hh2 : ((h <<< 1) &&& MASK) ||| 1 < FULL := by
      rw [h2]
      rw [FULL_eq] at *
      omega
    exact ih hle2 hh2
  | case2 l h hg =>
    intro hle hh
    rw [msbLoop, dif_neg hg]
    dsimp only
    have hl : l < FULL := lt_of_le_of_lt hle hh
    simp only [not_and] at hg
    by_cases hx : (l ^^^ h) &&& HALF = 0
    · exact absurd hh (hg hx hle)
    · have hiff := (msb_guard_iff l h hl hh).not.mp hx
      by_cases hL : l < HALF <;> by_cases hH : h < HALF
      · exact absurd (iff_of_true hL hH) hiff
      · exact ⟨hL, by omega, hh, hle⟩
      · omega
      · exact absurd (iff_of_false hL hH) hiff

/-- Exit state of the near-convergence loop: full `StateInv`. -/
theorem underLoop_bounds : ∀ l h : Nat, l < HALF → HALF ≤ h → h < FULL →
    StateInv (underLoop l h).1 (underLoop l h).2.1 := by
  intro l h
  induction l, h using underLoop.induct with
  | case1 l h hg ih =>
    intro hl hh1 hh2
    rw [underLoop, dif_pos hg]
    obtain ⟨-, -, hql, hlh, hhh, hhq⟩ := hg
    have e1 := under_newl l hql hlh
    have e2 := under_newh h hhh hhq
    have hH := HALF_eq
    have hQ := QUARTER_eq
    have hF := FULL_eq
    have c1 : (l <<< 1) ^^^ HALF < HALF := by rw [e1]; omega
    have c2 : HALF ≤ (((h ^^^ HALF) <<< 1) ||| HALF) ||| 1 := by rw [e2]; omega
    have c3 : (((h ^^^ HALF) <<< 1) ||| HALF) ||| 1 < FULL := by rw [e2]; omega
    exact ih c1 c2 c3
  | case2 l h hg =>
    intro hl hh1 hh2
    rw [underLoop, dif_neg hg]
    dsimp only
    simp only [not_and] at hg
    refine ⟨hl, hh1, hh2, ?_⟩
    by_cases hq1 : QUARTER ≤ l
    · by_cases hq2 : h < HALF + QUARTER
      · exfalso
        have ha1 : l &&& QUARTER ≠ 0 := (and_QUARTER_low l hl).mpr hq1
        have ha2 : h &&& QUARTER = 0 := (and_QUARTER_high h hh1 hh2).mpr hq2
        exact hg ha1 ha2 hq1 hl hh1 hq2
      · right
        omega
    · left
      omega

/-- Unfolded form of `narrow`'s low component. -/
theorem narrow_fst (low high : Nat) (c : List Nat) (s : Nat) :
    (narrow low high c s).1 =
      low + (if s > 0 then c.getD (s - 1) 0 else 0) * (high - low + 1) / cdfTotal c := rfl

/-- Unfolded form of `narrow`'s high component. -/
theorem narrow_snd (low high : Nat) (c : List Nat) (s : Nat) :
    (narrow low high c s).2 =
      low + c.getD s 0 * (high - low + 1) / cdfTotal c - 1 := rfl

/-- Narrowing preserves the interval ordering and shrinks it. -/
theorem narrow_bounds (low high : Nat) (c : List Nat) (s : Nat)
    (hc : ValidCdf c) (hs : s < c.length)
    (hlh : low ≤ high) (hT : cdfTotal c ≤ high - low + 1) :
    low ≤ (narrow low high c s).1 ∧
    (narrow low high c s).1 ≤ (narrow low high c s).2 ∧
    (narrow low high c s).2 ≤ high := by
  have hTpos := hc.total_pos
  rw [narrow_fst, narrow_snd]
  set T := cdfTotal c with hTdef
  set R := high - low + 1 with hRdef
  set sh := c.getD s 0 with hshdef
  set sl := (if s > 0 then c.getD (s - 1) 0 else 0) with hsldef
  have hsh_le : sh ≤ T := hc.le_total hs
  have hsh_pos : 0 < sh := hc.pos hs
  have hsl_lt : sl < sh := by
    rw [hsldef]
    by_cases h0 : s > 0
    · simp only [h0, if_true]
      exact hc.mono (by omega) hs
    · simp only [h0, if_false]
      exact hsh_pos
  have hsuper : sl * R / T + R / T ≤ (sl * R + R) / T := by
    rw [Nat.le_div_iff_mul_le hTpos]
    calc (sl * R / T + R / T) * T = sl * R / T * T + R / T * T := by ring
      _ ≤ sl * R + R := Nat.add_le_add (Nat.div_mul_le_self _ T) (Nat.div_mul_le_self _ T)
  have hdiv : sl * R / T + R / T ≤ sh * R / T := by
    calc sl * R / T + R / T ≤ (sl * R + R) / T := hsuper
      _ = ((sl + 1) * R) / T := by rw [Nat.succ_mul]
      _ ≤ sh * R / T := Nat.div_le_div_right (Nat.mul_le_mul_right R (by omega))
  have hRT : 1 ≤ R / T := (Nat.one_le_div_iff hTpos).mpr hT
  have hhigh : sh * R / T ≤ R := by
    calc sh * R / T ≤ T * R / T := Nat.div_le_div_right (Nat.mul_le_mul_right R hsh_le)
      _ = R := by rw [Nat.mul_div_cancel_left R hTpos]
  clear hsuper
  generalize hA : sl * R / T = qlow at hdiv ⊢
  generalize hB : sh * R / T = qhigh at hdiv hhigh ⊢
  generalize hC : R / T = qone at hdiv hRT ⊢
  refine ⟨?_, ?_, ?_⟩ <;> omega

/-! ## Value bookkeeping for the coder correctness proof

A bit stream denotes the rational `val01 bs = Σ bs[i] / 2 ^ (i+1)`.  Each
renormalization op acts on scaled positions as the affine map
`y ↦ 2*y - w(op)` (`w = bit·FULL` for a shift, `HALF` for an underflow);
`opsAffine` is the composite over a trace.  `encC e` is the value of the
bits the encoder has committed so far, counting the pending underflow bits
at the value they will necessarily denote once released. -/

def Bits01 (bs : List Nat) : Prop := ∀ b ∈ bs, b ≤ 1

instance : DecidablePred Bits01 := fun bs =>
  inferInstanceAs (Decidable (∀ b ∈ bs, b ≤ 1))

def val01 : List Nat → ℚ
  | [] => 0
  | b :: rest => ((b : ℚ) + val01 rest) / 2

theorem val01_nil : val01 [] = 0 := rfl

theorem val01_cons (b : Nat) (rest : List Nat) :
    val01 (b :: rest) = ((b : ℚ) + val01 rest) / 2 := rfl

theorem val01_nonneg (bs : List Nat) : 0 ≤ val01 bs := by
  induction bs with
  | nil => simp [val01]
  | cons b rest ih =>
    rw [val01_cons]
    positivity

theorem val01_lt_one (bs : List Nat) (h : Bits01 bs) : val01 bs < 1 := by
  induction bs with
  | nil => simp [val01]
  | cons b rest ih =>
    rw [val01_cons]
    have hb : (b : ℚ) ≤ 1 := by
      have := h b (List.mem_cons_self b rest)
      exact_mod_cast this
    have hr : val01 rest < 1 := ih (fun x hx => h x (List.mem_cons_of_mem b hx))
    linarith

theorem val01_append (a b : List Nat) :
    val01 (a ++ b) = val01 a + val01 b / 2 ^ a.length := by
  induction a with
  | nil => simp [val01]
  | cons x rest ih =>
    rw [List.cons_append, val01_cons, val01_cons, ih, List.length_cons]
    rw [pow_succ]
    field_simp
    ring

theorem val01_replicate (u : Nat) (c : Nat) :
    val01 (List.replicate u c) = (c : ℚ) * (1 - 1 / 2 ^ u) := by
  induction u with
  | zero => simp [val01]
  | succ n ih =>
    rw [List.replicate_succ, val01_cons, ih, pow_succ]
    field_simp
    ring

def ROp.weight : ROp → ℚ
  | .shiftOp b => (b : ℚ) * (FULL : ℚ)
  | .underOp => (HALF : ℚ)

def opsAffine (ops : List ROp) (y : ℚ) : ℚ :=
  ops.foldl (fun z op => 2 * z - op.weight) y

theorem opsAffine_nil (y : ℚ) : opsAffine [] y = y := rfl

theorem opsAffine_cons (op : ROp) (ops : List ROp) (y : ℚ) :
    opsAffine (op :: ops) y = opsAffine ops (2 * y - op.weight) := rfl

theorem opsAffine_append (o1 o2 : List ROp) (y : ℚ) :
    opsAffine (o1 ++ o2) y = opsAffine o2 (opsAffine o1 y) := by
  rw [opsAffine, opsAffine, opsAffine, List.foldl_append]

theorem opsAffine_mono (ops : List ROp) {y z : ℚ} (h : y ≤ z) :
    opsAffine ops y ≤ opsAffine ops z := by
  induction ops generalizing y z with
  | nil => simpa [opsAffine_nil] using h
  | cons op rest ih =>
    rw [opsAffine_cons, opsAffine_cons]
    exact ih (by linarith)

theorem opsAffine_strict_mono (ops : List ROp) {y z : ℚ} (h : y < z) :
    opsAffine ops y < opsAffine ops z := by
  induction ops generalizing y z with
  | nil => simpa [opsAffine_nil] using h
  | cons op rest ih =>
    rw [opsAffine_cons, opsAffine_cons]
    exact ih (by linarith)

/-- Number of renormalizations reflected in an encoder state: emitted bits
plus pending underflow bits. -/
def encM (e : Encoder) : Nat := e.encoded_data.length + e.num_underflow

/-- Accumulated value of the renormalizations an encoder has performed. -/
def encC (e : Encoder) : ℚ :=
  val01 e.encoded_data + 1 / 2 ^ (e.encoded_data.length + 1) - 1 / 2 ^ (encM e + 1)

theorem xor_one_of_le_one (b : Nat) (hb : b ≤ 1) : b ^^^ 1 = 1 - b := by
  interval_cases b <;> decide

theorem encC_shiftEff (e : Encoder) (b : Nat) (hb : b ≤ 1) :
    encM (e.shiftEff b) = encM e + 1 ∧
    encC (e.shiftEff b) = encC e + (b : ℚ) / 2 ^ (encM e + 1) := by
  have hdata : (e.shiftEff b).encoded_data
      = e.encoded_data ++ b :: List.replicate e.num_underflow (b ^^^ 1) := rfl
  have hund : (e.shiftEff b).num_underflow = 0 := rfl
  constructor
  · rw [encM, encM, hdata, hund]
    simp [List.length_append]
    omega
  · rw [encC, encC, encM, encM, hdata, hund, val01_append, val01_cons, val01_replicate,
      xor_one_of_le_one b hb]
    have hcast : ((1 - b : Nat) : ℚ) = 1 - (b : ℚ) := by interval_cases b <;> norm_num
    rw [hcast]
    simp only [List.length_append, List.length_cons, List.length_replicate]
    set L := e.encoded_data.length
    set u := e.num_underflow
    field_simp
    ring

theorem encC_underflowEff (e : Encoder) :
    encM e.underflowEff = encM e + 1 ∧
    encC e.underflowEff = encC e + (1 / 2 : ℚ) / 2 ^ (encM e + 1) := by
  have hdata : e.underflowEff.encoded_data = e.encoded_data := rfl
  have hund : e.underflowEff.num_underflow = e.num_underflow + 1 := rfl
  constructor
  · rw [encM, encM, hdata, hund]
    omega
  · rw [encC, encC, encM, encM, hdata, hund]
    have h2 : (2 : ℚ) ≠ 0 := by norm_num
    rw [show e.encoded_data.length + (e.num_underflow + 1) + 1
        = (e.encoded_data.length + e.num_underflow + 1) + 1 by omega]
    rw [pow_succ]
    field_simp
    ring

theorem shiftEff_low (e : Encoder) (b : Nat) : (e.shiftEff b).low = e.low := rfl
theorem underflowEff_low (e : Encoder) : e.underflowEff.low = e.low := rfl

theorem readCodeBit_le_one (input : List Nat) (h : Bits01 input) :
    (readCodeBit input).1 ≤ 1 := by
  cases input with
  | nil => exact Nat.zero_le 1
  | cons b rest => exact h b (List.mem_cons_self b rest)

theorem readCodeBit_bits (input : List Nat) (h : Bits01 input) :
    Bits01 (readCodeBit input).2 := by
  cases input with
  | nil => exact h
  | cons b rest => exact fun x hx => h x (List.mem_cons_of_mem b hx)

theorem readCodeBit_drop (input : List Nat) :
    (readCodeBit input).2 = input.drop 1 := by
  cases input <;> rfl

theorem readCodeBit_val (input : List Nat) :
    val01 input = (((readCodeBit input).1 : ℚ) + val01 (readCodeBit input).2) / 2 := by
  cases input with
  | nil => simp [readCodeBit, val01]
  | cons b rest => rfl

theorem lor_bit_of_even (x bit : Nat) (hx : x % 2 = 0) (hb : bit ≤ 1) :
    x ||| bit = x + bit := by
  interval_cases bit
  · simp
  · exact lor_one_of_even x hx

theorem and_HALF_val (x : Nat) (hx : x < FULL) :
    x &&& HALF = if HALF ≤ x then HALF else 0 := by
  by_cases h : HALF ≤ x
  · rw [if_pos h]
    have ht : x.testBit 63 = true := by
      rw [testBit63_iff x hx]
      simpa using h
    rw [HALF_pow]
    apply Nat.eq_of_testBit_eq
    intro i
    by_cases hik : i = 63
    · subst hik
      simp [Nat.testBit_and, ht, Nat.testBit_two_pow_self]
    · simp [Nat.testBit_and, Nat.testBit_two_pow_of_ne (fun hh => hik hh.symm)]
  · rw [if_neg h]
    have ht : x.testBit 63 = false := by
      rw [testBit63_iff x hx]
      simpa using h
    rw [HALF_pow]
    exact (and_two_pow_eq_zero_iff x 63).mpr ht

/-- Decoder `shift` register update (line 93) in arithmetic form. -/
theorem dec_shift_char (code bit : Nat) (hc : code < FULL) (hb : bit ≤ 1) :
    ((code <<< 1) &&& MASK) ||| bit = 2 * code % FULL + bit := by
  rw [shiftLeft_one, and_MASK]
  exact lor_bit_of_even _ _ (by rw [FULL_eq]; omega) hb

/-- Decoder `underflow` register update (lines 96-100) in arithmetic form. -/
theorem dec_under_char (code bit : Nat) (h1 : QUARTER ≤ code) (h2 : code < HALF + QUARTER)
    (hb : bit ≤ 1) :
    ((code &&& HALF) ||| ((code <<< 1) &&& (MASK >>> 1))) ||| bit
      = 2 * code - HALF + bit := by
  have hcF : code < FULL := by rw [FULL_eq, HALF_eq, QUARTER_eq] at *; omega
  rw [MASK_shiftRight_one, shiftLeft_one]
  have hmod : 2 * code &&& (HALF - 1) = 2 * code % HALF := by
    have : HALF - 1 = 2 ^ 63 - 1 := by decide
    rw [this, Nat.and_pow_two_sub_one_eq_mod, HALF_pow]
  rw [hmod, and_HALF_val code hcF]
  by_cases h : HALF ≤ code
  · rw [if_pos h]
    have hr : 2 * code % HALF = 2 * code - FULL := by
      rw [FULL_eq, HALF_eq, QUARTER_eq] at *; omega
    rw [hr]
    have hlt : 2 * code - FULL < HALF := by rw [FULL_eq, HALF_eq, QUARTER_eq] at *; omega
    rw [Nat.or_comm HALF (2 * code - FULL), lor_HALF_of_lt _ hlt]
    rw [lor_bit_of_even _ _ (by rw [FULL_eq, HALF_eq] at *; omega) hb]
    rw [FULL_eq, HALF_eq, QUARTER_eq] at *
    omega
  · rw [if_neg h]
    have hr : 2 * code % HALF = 2 * code - HALF := by
      rw [HALF_eq, QUARTER_eq] at *; omega
    rw [hr, Nat.zero_or]
    rw [lor_bit_of_even _ _ (by rw [HALF_eq] at *; omega) hb]

theorem HALF_q : (HALF : ℚ) = (FULL : ℚ) / 2 := by
  rw [FULL_eq, HALF_eq]
  norm_num

/-! ## Unfolding and replay helper lemmas -/

theorem msbLoop_eq_pos {l h : Nat} (hg : (l ^^^ h) &&& HALF = 0 ∧ l ≤ h ∧ h < FULL) :
    msbLoop l h = ((msbLoop ((l <<< 1) &&& MASK) (((h <<< 1) &&& MASK) ||| 1)).1,
      (msbLoop ((l <<< 1) &&& MASK) (((h <<< 1) &&& MASK) ||| 1)).2.1,
      ROp.shiftOp (l >>> (NUM_STATE_BITS - 1))
        :: (msbLoop ((l <<< 1) &&& MASK) (((h <<< 1) &&& MASK) ||| 1)).2.2) := by
  rw [msbLoop, dif_pos hg]

theorem msbLoop_eq_neg {l h : Nat} (hg : ¬((l ^^^ h) &&& HALF = 0 ∧ l ≤ h ∧ h < FULL)) :
    msbLoop l h = (l, h, []) := by
  rw [msbLoop, dif_neg hg]

theorem underLoop_eq_pos {l h : Nat}
    (hg : l &&& QUARTER ≠ 0 ∧ h &&& QUARTER = 0 ∧
      QUARTER ≤ l ∧ l < HALF ∧ HALF ≤ h ∧ h < HALF + QUARTER) :
    underLoop l h
      = ((underLoop ((l <<< 1) ^^^ HALF) ((((h ^^^ HALF) <<< 1) ||| HALF) ||| 1)).1,
        (underLoop ((l <<< 1) ^^^ HALF) ((((h ^^^ HALF) <<< 1) ||| HALF) ||| 1)).2.1,
        ROp.underOp
          :: (underLoop ((l <<< 1) ^^^ HALF) ((((h ^^^ HALF) <<< 1) ||| HALF) ||| 1)).2.2) := by
  rw [underLoop, dif_pos hg]

theorem underLoop_eq_neg {l h : Nat}
    (hg : ¬(l &&& QUARTER ≠ 0 ∧ h &&& QUARTER = 0 ∧
      QUARTER ≤ l ∧ l < HALF ∧ HALF ≤ h ∧ h < HALF + QUARTER)) :
    underLoop l h = (l, h, []) := by
  rw [underLoop, dif_neg hg]

theorem encoder_applyOps_nil (e : Encoder) : e.applyOps [] = e := rfl

theorem encoder_applyOps_shift (e : Encoder) (b : Nat) (ops : List ROp) :
    e.applyOps (ROp.shiftOp b :: ops) = (e.shiftEff b).applyOps ops := rfl

theorem encoder_applyOps_under (e : Encoder) (ops : List ROp) :
    e.applyOps (ROp.underOp :: ops) = e.underflowEff.applyOps ops := rfl

theorem decoder_applyOps_nil (d : Decoder) : d.applyOps [] = d := rfl

theorem decoder_applyOps_shift (d : Decoder) (b : Nat) (ops : List ROp) :
    d.applyOps (ROp.shiftOp b :: ops)
      = Decoder.applyOps
          { d with code := ((d.code <<< 1) &&& MASK) ||| (readCodeBit d.input).1,
                   input := (readCodeBit d.input).2 } ops := rfl

theorem decoder_applyOps_under (d : Decoder) (ops : List ROp) :
    d.applyOps (ROp.underOp :: ops)
      = Decoder.applyOps
          { d with code := ((d.code &&& HALF) ||| ((d.code <<< 1) &&& (MASK >>> 1)))
                     ||| (readCodeBit d.input).1,
                   input := (readCodeBit d.input).2 } ops := rfl

/-! ## Per-loop simulation lemmas

For each renormalization loop: how the emitted trace acts on the encoder's
bit accounting (`_enc`), that the final `low`/`high` are the `opsAffine`
image of the initial ones (`_affine`), and how the decoder replays the
trace (`_dec`). -/

theorem msbLoop_enc : ∀ l h : Nat, l ≤ h → h < FULL → ∀ e : Encoder,
    (e.applyOps (msbLoop l h).2.2).low = e.low ∧
    (e.applyOps (msbLoop l h).2.2).high = e.high ∧
    encM (e.applyOps (msbLoop l h).2.2) = encM e + (msbLoop l h).2.2.length ∧
    (∀ x : ℚ, (x - encC (e.applyOps (msbLoop l h).2.2))
        * 2 ^ encM (e.applyOps (msbLoop l h).2.2) * (FULL : ℚ)
        = opsAffine (msbLoop l h).2.2 ((x - encC e) * 2 ^ encM e * (FULL : ℚ))) ∧
    (Bits01 e.encoded_data → Bits01 (e.applyOps (msbLoop l h).2.2).encoded_data) := by
  intro l h
  induction l, h using msbLoop.induct with
  | case1 l h hg ih =>
    intro hle hh e
    rw [msbLoop_eq_pos hg]
    dsimp only
    obtain ⟨hx, -, -⟩ := hg
    have hl : l < FULL := lt_of_le_of_lt hle hh
    have hiff := (msb_guard_iff l h hl hh).mp hx
    have hle2 : (l <<< 1) &&& MASK ≤ ((h <<< 1) &&& MASK) ||| 1 := by
      rw [msb_newh h, msb_newl l]
      rw [FULL_eq] at *
      rw [HALF_eq] at hiff
      omega
    have hh2 : ((h <<< 1) &&& MASK) ||| 1 < FULL := by
      rw [msb_newh h]
      rw [FULL_eq] at *
      omega
    have hbit : l >>> (NUM_STATE_BITS - 1) ≤ 1 := by
      rw [shiftRight63 l hl]
      split <;> omega
    rw [encoder_applyOps_shift]
    obtain ⟨ihl, ihh, ihm, ihv, ihb⟩ :=
      ih hle2 hh2 (e.shiftEff (l >>> (NUM_STATE_BITS - 1)))
    obtain ⟨hm1, hc1⟩ := encC_shiftEff e (l >>> (NUM_STATE_BITS - 1)) hbit
    refine ⟨by rw [ihl]; rfl, by rw [ihh]; rfl, ?_, ?_, ?_⟩
    · rw [ihm, hm1, List.length_cons]
      omega
    · intro x
      rw [ihv x, opsAffine_cons]
      congr 1
      rw [hc1, hm1]
      have hw : (ROp.shiftOp (l >>> (NUM_STATE_BITS - 1))).weight
          = ((l >>> (NUM_STATE_BITS - 1) : Nat) : ℚ) * (FULL : ℚ) := rfl
      rw [hw, pow_succ]
      have hF : (FULL : ℚ) ≠ 0 := by rw [FULL_eq]; norm_num
      field_simp
      ring
    · intro hbits
      refine ihb ?_
      intro y hy
      have hd : (e.shiftEff (l >>> (NUM_STATE_BITS - 1))).encoded_data
          = e.encoded_data ++ (l >>> (NUM_STATE_BITS - 1))
              :: List.replicate e.num_underflow ((l >>> (NUM_STATE_BITS - 1)) ^^^ 1) := rfl
      rw [hd] at hy
      rcases List.mem_append.mp hy with hy1 | hy2
      · exact hbits y hy1
      · rcases List.mem_cons.mp hy2 with rfl | hy3
        · exact hbit
        · have := List.eq_of_mem_replicate hy3
          subst this
          rw [xor_one_of_le_one _ hbit]
          exact Nat.sub_le 1 _
  | case2 l h hg =>
    intro hle hh e
    rw [msbLoop_eq_neg hg]
    dsimp only
    rw [encoder_applyOps_nil]
    refine ⟨rfl, rfl, by simp, ?_, fun hb => hb⟩
    intro x
    rw [opsAffine_nil]

theorem underLoop_enc : ∀ l h : Nat, ∀ e : Encoder,
    (e.applyOps (underLoop l h).2.2).low = e.low ∧
    (e.applyOps (underLoop l h).2.2).high = e.high ∧
    encM (e.applyOps (underLoop l h).2.2) = encM e + (underLoop l h).2.2.length ∧
    (∀ x : ℚ, (x - encC (e.applyOps (underLoop l h).2.2))
        * 2 ^ encM (e.applyOps (underLoop l h).2.2) * (FULL : ℚ)
        = opsAffine (underLoop l h).2.2 ((x - encC e) * 2 ^ encM e * (FULL : ℚ))) ∧
    (Bits01 e.encoded_data → Bits01 (e.applyOps (underLoop l h).2.2).encoded_data) := by
  intro l h
  induction l, h using underLoop.induct with
  | case1 l h hg ih =>
    intro e
    rw [underLoop_eq_pos hg]
    dsimp only
    rw [encoder_applyOps_under]
    obtain ⟨ihl, ihh, ihm, ihv, ihb⟩ := ih e.underflowEff
    obtain ⟨hm1, hc1⟩ := encC_underflowEff e
    refine ⟨by rw [ihl]; rfl, by rw [ihh]; rfl, ?_, ?_, ?_⟩
    · rw [ihm, hm1, List.length_cons]
      omega
    · intro x
      rw [ihv x, opsAffine_cons]
      congr 1
      rw [hc1, hm1]
      have hw : ROp.underOp.weight = ((HALF : Nat) : ℚ) := rfl
      rw [hw, pow_succ, HALF_q]
      have hF : (FULL : ℚ) ≠ 0 := by rw [FULL_eq]; norm_num
      field_simp
      ring
    · intro hbits
      exact ihb hbits
  | case2 l h hg =>
    intro e
    rw [underLoop_eq_neg hg]
    dsimp only
    rw [encoder_applyOps_nil]
    refine ⟨rfl, rfl, by simp, ?_, fun hb => hb⟩
    intro x
    rw [opsAffine_nil]

theorem msbLoop_dec : ∀ l h : Nat, l ≤ h → h < FULL → ∀ d : Decoder,
    l ≤ d.code → d.code ≤ h → Bits01 d.input →
    (d.applyOps (msbLoop l h).2.2).low = d.low ∧
    (d.applyOps (msbLoop l h).2.2).high = d.high ∧
    (msbLoop l h).1 ≤ (d.applyOps (msbLoop l h).2.2).code ∧
    (d.applyOps (msbLoop l h).2.2).code ≤ (msbLoop l h).2.1 ∧
    Bits01 (d.applyOps (msbLoop l h).2.2).input ∧
    (d.applyOps (msbLoop l h).2.2).input = d.input.drop (msbLoop l h).2.2.length ∧
    ((d.applyOps (msbLoop l h).2.2).code : ℚ) + val01 (d.applyOps (msbLoop l h).2.2).input
      = opsAffine (msbLoop l h).2.2 ((d.code : ℚ) + val01 d.input) := by
  intro l h
  induction l, h using msbLoop.induct with
  | case1 l h hg ih =>
    intro hle hh d hcl hch hbits
    rw [msbLoop_eq_pos hg]
    dsimp only
    rw [decoder_applyOps_shift]
    obtain ⟨hx, -, -⟩ := hg
    have hl : l < FULL := lt_of_le_of_lt hle hh
    have hiff := (msb_guard_iff l h hl hh).mp hx
    have hcF : d.code < FULL := lt_of_le_of_lt hch hh
    have hbit : (readCodeBit d.input).1 ≤ 1 := readCodeBit_le_one _ hbits
    have hchar := dec_shift_char d.code (readCodeBit d.input).1 hcF hbit
    set d1 : Decoder :=
      { d with code := ((d.code <<< 1) &&& MASK) ||| (readCodeBit d.input).1,
               input := (readCodeBit d.input).2 } with hd1
    have hd1code : d1.code = 2 * d.code % FULL + (readCodeBit d.input).1 := hchar
    have hd1input : d1.input = (readCodeBit d.input).2 := rfl
    have hle2 : (l <<< 1) &&& MASK ≤ ((h <<< 1) &&& MASK) ||| 1 := by
      rw [msb_newh h, msb_newl l]
      rw [FULL_eq] at *
      rw [HALF_eq] at hiff
      omega
    have hh2 : ((h <<< 1) &&& MASK) ||| 1 < FULL := by
      rw [msb_newh h]
      rw [FULL_eq] at *
      omega
    have hd1lo : (l <<< 1) &&& MASK ≤ d1.code := by
      rw [hd1code, msb_newl l]
      rw [FULL_eq] at *
      rw [HALF_eq] at hiff
      omega
    have hd1hi : d1.code ≤ ((h <<< 1) &&& MASK) ||| 1 := by
      rw [hd1code, msb_newh h]
      rw [FULL_eq] at *
      rw [HALF_eq] at hiff
      omega
    have hd1bits : Bits01 d1.input := by
      rw [hd1input]
      exact readCodeBit_bits _ hbits
    obtain ⟨ihL, ihH, ihlo, ihhi, ihbits2, ihdrop, ihval⟩ := ih hle2 hh2 d1 hd1lo hd1hi hd1bits
    refine ⟨by rw [ihL], by rw [ihH], ihlo, ihhi, ihbits2, ?_, ?_⟩
    · rw [ihdrop, hd1input, readCodeBit_drop, List.drop_drop, List.length_cons,
        Nat.add_comm]
    · rw [ihval, opsAffine_cons]
      congr 1
      have hw : (ROp.shiftOp (l >>> (NUM_STATE_BITS - 1))).weight
          = ((l >>> (NUM_STATE_BITS - 1) : Nat) : ℚ) * (FULL : ℚ) := rfl
      rw [hw, shiftRight63 l hl, readCodeBit_val d.input, hd1code, hd1input]
      by_cases hLH : HALF ≤ l
      · rw [if_pos hLH]
        have hmod : 2 * d.code % FULL = 2 * d.code - FULL := by
          rw [FULL_eq, HALF_eq] at *
          omega
        rw [hmod]
        have hFle : FULL ≤ 2 * d.code := by
          rw [FULL_eq, HALF_eq] at *
          omega
        push_cast [hFle]
        ring
      · rw [if_neg hLH]
        have hmod : 2 * d.code % FULL = 2 * d.code := by
          rw [FULL_eq, HALF_eq] at *
          omega
        rw [hmod]
        push_cast
        ring
  | case2 l h hg =>
    intro hle hh d hcl hch hbits
    rw [msbLoop_eq_neg hg]
    dsimp only
    rw [decoder_applyOps_nil]
    exact ⟨rfl, rfl, hcl, hch, hbits, by simp, by rw [opsAffine_nil]⟩

theorem underLoop_dec : ∀ l h : Nat, ∀ d : Decoder,
    l ≤ d.code → d.code ≤ h → Bits01 d.input →
    (d.applyOps (underLoop l h).2.2).low = d.low ∧
    (d.applyOps (underLoop l h).2.2).high = d.high ∧
    (underLoop l h).1 ≤ (d.applyOps (underLoop l h).2.2).code ∧
    (d.applyOps (underLoop l h).2.2).code ≤ (underLoop l h).2.1 ∧
    Bits01 (d.applyOps (underLoop l h).2.2).input ∧
    (d.applyOps (underLoop l h).2.2).input = d.input.drop (underLoop l h).2.2.length ∧
    ((d.applyOps (underLoop l h).2.2).code : ℚ)
        + val01 (d.applyOps (underLoop l h).2.2).input
      = opsAffine (underLoop l h).2.2 ((d.code : ℚ) + val01 d.input) := by
  intro l h
  induction l, h using underLoop.induct with
  | case1 l h hg ih =>
    intro d hcl hch hbits
    rw [underLoop_eq_pos hg]
    dsimp only
    rw [decoder_applyOps_under]
    obtain ⟨-, -, hql, hlh, hhh, hhq⟩ := hg
    have hbit : (readCodeBit d.input).1 ≤ 1 := readCodeBit_le_one _ hbits
    have hchar := dec_under_char d.code (readCodeBit d.input).1
      (le_trans hql hcl) (lt_of_le_of_lt hch hhq) hbit
    set d1 : Decoder :=
      { d with code := ((d.code &&& HALF) ||| ((d.code <<< 1) &&& (MASK >>> 1)))
                 ||| (readCodeBit d.input).1,
               input := (readCodeBit d.input).2 } with hd1
    have hd1code : d1.code = 2 * d.code - HALF + (readCodeBit d.input).1 := hchar
    have hd1input : d1.input = (readCodeBit d.input).2 := rfl
    have e1 := under_newl l hql hlh
    have e2 := under_newh h hhh hhq
    have hH := HALF_eq
    have hQ := QUARTER_eq
    have hd1lo : (l <<< 1) ^^^ HALF ≤ d1.code := by
      rw [hd1code, e1]
      omega
    have hd1hi : d1.code ≤ (((h ^^^ HALF) <<< 1) ||| HALF) ||| 1 := by
      rw [hd1code, e2]
      omega
    have hd1bits : Bits01 d1.input := by
      rw [hd1input]
      exact readCodeBit_bits _ hbits
    obtain ⟨ihL, ihH, ihlo, ihhi, ihbits2, ihdrop, ihval⟩ := ih d1 hd1lo hd1hi hd1bits
    refine ⟨by rw [ihL], by rw [ihH], ihlo, ihhi, ihbits2, ?_, ?_⟩
    · rw [ihdrop, hd1input, readCodeBit_drop, List.drop_drop, List.length_cons,
        Nat.add_comm]
    · rw [ihval, opsAffine_cons]
      congr 1
      have hw : ROp.underOp.weight = ((HALF : Nat) : ℚ) := rfl
      rw [hw, readCodeBit_val d.input, hd1code, hd1input]
      have hHle : HALF ≤ 2 * d.code := by omega
      push_cast [hHle]
      ring
  | case2 l h hg =>
    intro d hcl hch hbits
    rw [underLoop_eq_neg hg]
    dsimp only
    rw [decoder_applyOps_nil]
    exact ⟨rfl, rfl, hcl, hch, hbits, by simp, by rw [opsAffine_nil]⟩

theorem opsAffine_le_iff (ops : List ROp) (y z : ℚ) :
    opsAffine ops y ≤ opsAffine ops z ↔ y ≤ z := by
  constructor
  · intro hle
    by_contra hcon
    push_neg at hcon
    exact absurd (opsAffine_strict_mono ops hcon) (not_lt.mpr hle)
  · exact opsAffine_mono ops

theorem opsAffine_lt_iff (ops : List ROp) (y z : ℚ) :
    opsAffine ops y < opsAffine ops z ↔ y < z := by
  constructor
  · intro hlt
    by_contra hcon
    push_neg at hcon
    exact absurd (opsAffine_mono ops hcon) (not_le.mpr hlt)
  · exact opsAffine_strict_mono ops

theorem encoder_applyOps_append (e : Encoder) (o1 o2 : List ROp) :
    e.applyOps (o1 ++ o2) = (e.applyOps o1).applyOps o2 := by
  induction o1 generalizing e with
  | nil => rw [List.nil_append, encoder_applyOps_nil]
  | cons op rest ih =>
    cases op with
    | shiftOp b => rw [List.cons_append, encoder_applyOps_shift, encoder_applyOps_shift, ih]
    | underOp => rw [List.cons_append, encoder_applyOps_under, encoder_applyOps_under, ih]

theorem decoder_applyOps_append (d : Decoder) (o1 o2 : List ROp) :
    d.applyOps (o1 ++ o2) = (d.applyOps o1).applyOps o2 := by
  induction o1 generalizing d with
  | nil => rw [List.nil_append, decoder_applyOps_nil]
  | cons op rest ih =>
    cases op with
    | shiftOp b => rw [List.cons_append, decoder_applyOps_shift, decoder_applyOps_shift, ih]
    | underOp => rw [List.cons_append, decoder_applyOps_under, decoder_applyOps_under, ih]

theorem msbLoop_affine : ∀ l h : Nat, l ≤ h → h < FULL →
    ((msbLoop l h).1 : ℚ) = opsAffine (msbLoop l h).2.2 (l : ℚ) ∧
    ((msbLoop l h).2.1 : ℚ) + 1 = opsAffine (msbLoop l h).2.2 ((h : ℚ) + 1) := by
  intro l h
  induction l, h using msbLoop.induct with
  | case1 l h hg ih =>
    intro hle hh
    rw [msbLoop_eq_pos hg]
    dsimp only
    obtain ⟨hx, -, -⟩ := hg
    have hl : l < FULL := lt_of_le_of_lt hle hh
    have hiff := (msb_guard_iff l h hl hh).mp hx
    have hle2 : (l <<< 1) &&& MASK ≤ ((h <<< 1) &&& MASK) ||| 1 := by
      rw [msb_newh h, msb_newl l]
      rw [FULL_eq] at *
      rw [HALF_eq] at hiff
      omega
    have hh2 : ((h <<< 1) &&& MASK) ||| 1 < FULL := by
      rw [msb_newh h]
      rw [FULL_eq] at *
      omega
    obtain ⟨ihl, ihh⟩ := ih hle2 hh2
    rw [opsAffine_cons, opsAffine_cons]
    have hw : (ROp.shiftOp (l >>> (NUM_STATE_BITS - 1))).weight
        = ((l >>> (NUM_STATE_BITS - 1) : Nat) : ℚ) * (FULL : ℚ) := rfl
    constructor
    · rw [ihl]
      congr 1
      rw [hw, shiftRight63 l hl, msb_newl l]
      by_cases hLH : HALF ≤ l
      · rw [if_pos hLH]
        have hmod : 2 * l % FULL = 2 * l - FULL := by rw [FULL_eq, HALF_eq] at *; omega
        rw [hmod]
        have : FULL ≤ 2 * l := by rw [FULL_eq, HALF_eq] at *; omega
        push_cast [this]
        ring
      · rw [if_neg hLH]
        have hmod : 2 * l % FULL = 2 * l := by rw [FULL_eq, HALF_eq] at *; omega
        rw [hmod]
        push_cast
        ring
    · rw [ihh]
      congr 1
      rw [hw, shiftRight63 l hl, msb_newh h]
      by_cases hLH : HALF ≤ l
      · rw [if_pos hLH]
        have hHh : HALF ≤ h := by
          rw [HALF_eq] at *
          omega
        have hmod : 2 * h % FULL = 2 * h - FULL := by rw [FULL_eq, HALF_eq] at *; omega
        rw [hmod]
        have : FULL ≤ 2 * h := by rw [FULL_eq, HALF_eq] at *; omega
        push_cast [this]
        ring
      · rw [if_neg hLH]
        have hHh : h < HALF := by
          rw [HALF_eq] at *
          omega
        have hmod : 2 * h % FULL = 2 * h := by rw [FULL_eq, HALF_eq] at *; omega
        rw [hmod]
        push_cast
        ring
  | case2 l h hg =>
    intro hle hh
    rw [msbLoop_eq_neg hg]
    dsimp only
    rw [opsAffine_nil, opsAffine_nil]
    exact ⟨rfl, rfl⟩

theorem underLoop_affine : ∀ l h : Nat,
    ((underLoop l h).1 : ℚ) = opsAffine (underLoop l h).2.2 (l : ℚ) ∧
    ((underLoop l h).2.1 : ℚ) + 1 = opsAffine (underLoop l h).2.2 ((h : ℚ) + 1) := by
  intro l h
  induction l, h using underLoop.induct with
  | case1 l h hg ih =>
    rw [underLoop_eq_pos hg]
    dsimp only
    obtain ⟨-, -, hql, hlh, hhh, hhq⟩ := hg
    have e1 := under_newl l hql hlh
    have e2 := under_newh h hhh hhq
    have hH := HALF_eq
    have hQ := QUARTER_eq
    obtain ⟨ihl, ihh⟩ := ih
    rw [opsAffine_cons, opsAffine_cons]
    have hw : ROp.underOp.weight = ((HALF : Nat) : ℚ) := rfl
    constructor
    · rw [ihl]
      congr 1
      rw [hw, e1]
      have : HALF ≤ 2 * l := by omega
      push_cast [this]
      ring
    · rw [ihh]
      congr 1
      rw [hw, e2]
      have : HALF ≤ 2 * h := by omega
      push_cast [this]
      ring
  | case2 l h hg =>
    rw [underLoop_eq_neg hg]
    dsimp only
    rw [opsAffine_nil, opsAffine_nil]
    exact ⟨rfl, rfl⟩

/-! ## Per-symbol (one `update`) simulation -/

theorem update_eq (low high : Nat) (c : List Nat) (s : Nat) :
    update low high c s
      = ((underLoop (msbLoop (narrow low high c s).1 (narrow low high c s).2).1
            (msbLoop (narrow low high c s).1 (narrow low high c s).2).2.1).1,
        (underLoop (msbLoop (narrow low high c s).1 (narrow low high c s).2).1
            (msbLoop (narrow low high c s).1 (narrow low high c s).2).2.1).2.1,
        (msbLoop (narrow low high c s).1 (narrow low high c s).2).2.2
          ++ (underLoop (msbLoop (narrow low high c s).1 (narrow low high c s).2).1
              (msbLoop (narrow low high c s).1 (narrow low high c s).2).2.1).2.2) := rfl

theorem encode_symbol_low (e : Encoder) (c : List Nat) (s : Nat) :
    (e.encode_symbol c s).low = (update e.low e.high c s).1 := rfl

theorem encode_symbol_high (e : Encoder) (c : List Nat) (s : Nat) :
    (e.encode_symbol c s).high = (update e.low e.high c s).2.1 := rfl

theorem encode_symbol_data (e : Encoder) (c : List Nat) (s : Nat) :
    (e.encode_symbol c s).encoded_data
      = (e.applyOps (update e.low e.high c s).2.2).encoded_data := rfl

theorem encode_symbol_encM (e : Encoder) (c : List Nat) (s : Nat) :
    encM (e.encode_symbol c s) = encM (e.applyOps (update e.low e.high c s).2.2) := rfl

theorem encode_symbol_encC (e : Encoder) (c : List Nat) (s : Nat) :
    encC (e.encode_symbol c s) = encC (e.applyOps (update e.low e.high c s).2.2) := rfl

/-- Combined per-symbol encoder step: state invariant, bit validity, affine
endpoints and value accounting, all relative to the pre-state. -/
theorem encode_symbol_sim (e : Encoder) (c : List Nat) (s : Nat)
    (hi : StateInv e.low e.high) (hc : ValidCdf c) (hs : s < c.length) :
    StateInv (e.encode_symbol c s).low (e.encode_symbol c s).high ∧
    (Bits01 e.encoded_data → Bits01 (e.encode_symbol c s).encoded_data) ∧
    ((e.encode_symbol c s).low : ℚ)
      = opsAffine (update e.low e.high c s).2.2 ((narrow e.low e.high c s).1 : ℚ) ∧
    ((e.encode_symbol c s).high : ℚ) + 1
      = opsAffine (update e.low e.high c s).2.2 (((narrow e.low e.high c s).2 : ℚ) + 1) ∧
    (∀ x : ℚ, (x - encC (e.encode_symbol c s)) * 2 ^ encM (e.encode_symbol c s) * (FULL : ℚ)
      = opsAffine (update e.low e.high c s).2.2 ((x - encC e) * 2 ^ encM e * (FULL : ℚ))) ∧
    encM (e.encode_symbol c s) = encM e + (update e.low e.high c s).2.2.length := by
  have hT : cdfTotal c ≤ e.high - e.low + 1 := le_trans hc.total_le (le_of_lt hi.range_gt)
  obtain ⟨hn1, hn2, hn3⟩ := narrow_bounds e.low e.high c s hc hs hi.low_le_high hT
  have hnhF : (narrow e.low e.high c s).2 < FULL := lt_of_le_of_lt hn3 hi.2.2.1
  obtain ⟨hm1, hm2, hm3, hm4⟩ := msbLoop_bounds (narrow e.low e.high c s).1
    (narrow e.low e.high c s).2 hn2 hnhF
  have hui := underLoop_bounds (msbLoop (narrow e.low e.high c s).1
    (narrow e.low e.high c s).2).1 _ hm1 hm2 hm3
  obtain ⟨hma, hmb⟩ := msbLoop_affine (narrow e.low e.high c s).1
    (narrow e.low e.high c s).2 hn2 hnhF
  obtain ⟨hua, hub⟩ := underLoop_affine (msbLoop (narrow e.low e.high c s).1
    (narrow e.low e.high c s).2).1 (msbLoop (narrow e.low e.high c s).1
    (narrow e.low e.high c s).2).2.1
  obtain ⟨hel, heh, hem, hev, heb⟩ := msbLoop_enc (narrow e.low e.high c s).1
    (narrow e.low e.high c s).2 hn2 hnhF e
  obtain ⟨hel2, heh2, hem2, hev2, heb2⟩ := underLoop_enc
    (msbLoop (narrow e.low e.high c s).1 (narrow e.low e.high c s).2).1
    (msbLoop (narrow e.low e.high c s).1 (narrow e.low e.high c s).2).2.1
    (e.applyOps (msbLoop (narrow e.low e.high c s).1 (narrow e.low e.high c s).2).2.2)
  refine ⟨?_, ?_, ?_, ?_, ?_, ?_⟩
  · rw [encode_symbol_low, encode_symbol_high, update_eq]
    exact hui
  · intro hb
    rw [encode_symbol_data, update_eq]
    dsimp only
    rw [encoder_applyOps_append]
    exact heb2 (heb hb)
  · rw [encode_symbol_low, update_eq]
    dsimp only
    rw [opsAffine_append, ← hma]
    exact hua
  · rw [encode_symbol_high, update_eq]
    dsimp only
    rw [opsAffine_append, ← hmb]
    exact hub
  · intro x
    rw [encode_symbol_encM, encode_symbol_encC, update_eq]
    dsimp only
    rw [encoder_applyOps_append, opsAffine_append, ← hev x]
    exact hev2 x
  · rw [encode_symbol_encM, update_eq]
    dsimp only
    rw [encoder_applyOps_append, hem2, hem, List.length_append]
    omega

/-! ## Run-level lemmas -/

theorem encodeAll_nil (e : Encoder) : encodeAll e [] = e := rfl

theorem encodeAll_cons (e : Encoder) (p : List Nat × Nat) (ps : List (List Nat × Nat)) :
    encodeAll e (p :: ps) = encodeAll (e.encode_symbol p.1 p.2) ps := rfl

/-- The §3 invariants for every CDF/symbol pair of a sequence. -/
def ValidPairs (ps : List (List Nat × Nat)) : Prop :=
  ∀ p ∈ ps, ValidCdf p.1 ∧ p.2 < p.1.length

instance : DecidablePred ValidPairs := fun ps =>
  inferInstanceAs (Decidable (∀ p ∈ ps, ValidCdf p.1 ∧ p.2 < p.1.length))

theorem encodeAll_inv : ∀ (ps : List (List Nat × Nat)) (e : Encoder),
    StateInv e.low e.high → ValidPairs ps →
    StateInv (encodeAll e ps).low (encodeAll e ps).high ∧
    (Bits01 e.encoded_data → Bits01 (encodeAll e ps).encoded_data) := by
  intro ps
  induction ps with
  | nil => exact fun e hi _ => ⟨hi, fun hb => hb⟩
  | cons p ps ih =>
    intro e hi hv
    rw [encodeAll_cons]
    obtain ⟨hc, hs⟩ := hv p (List.mem_cons_self p ps)
    obtain ⟨hi1, hb1, -, -, -, -⟩ := encode_symbol_sim e p.1 p.2 hi hc hs
    obtain ⟨hi2, hb2⟩ := ih (e.encode_symbol p.1 p.2) hi1
      (fun q hq => hv q (List.mem_cons_of_mem p hq))
    exact ⟨hi2, fun hb => hb2 (hb1 hb)⟩

/-- Location of the final terminated stream value within the current
interval: the heart of the `finish()` correctness argument.  `val01` of the
full emitted stream (the run's remaining output plus the terminator bit),
scaled to the current state's frame, lies inside `[low, high + 1)`. -/
theorem encodeAll_loc : ∀ (ps : List (List Nat × Nat)) (e : Encoder),
    StateInv e.low e.high → ValidPairs ps →
    ((e.low : ℚ)
        ≤ (val01 ((encodeAll e ps).encoded_data ++ [1]) - encC e)
          * 2 ^ encM e * (FULL : ℚ)) ∧
    ((val01 ((encodeAll e ps).encoded_data ++ [1]) - encC e)
          * 2 ^ encM e * (FULL : ℚ) < (e.high : ℚ) + 1) := by
  intro ps
  induction ps with
  | nil =>
    intro e hi _
    rw [encodeAll_nil]
    have hx : val01 (e.encoded_data ++ [1]) - encC e = 1 / 2 ^ (encM e + 1) := by
      rw [val01_append, encC, encM]
      have h1 : val01 [1] = 1 / 2 := by
        rw [val01_cons, val01_nil]
        norm_num
      rw [h1]
      have h2 : (2 : ℚ) ≠ 0 := by norm_num
      field_simp
      ring
    rw [hx]
    have hval : 1 / 2 ^ (encM e + 1) * 2 ^ encM e * (FULL : ℚ) = (FULL : ℚ) / 2 := by
      rw [pow_succ]
      have h2 : (2 : ℚ) ^ encM e ≠ 0 := by positivity
      field_simp
      ring
    rw [hval]
    obtain ⟨h1, h2, h3, -⟩ := hi
    constructor
    · rw [← HALF_q]
      have : (e.low : ℚ) ≤ (HALF : ℚ) := by
        exact_mod_cast le_of_lt h1
      exact this
    · rw [← HALF_q]
      have : (HALF : ℚ) ≤ (e.high : ℚ) := by exact_mod_cast h2
      linarith
  | cons p ps ih =>
    intro e hi hv
    rw [encodeAll_cons]
    obtain ⟨hc, hs⟩ := hv p (List.mem_cons_self p ps)
    obtain ⟨hi1, -, hlo, hhi, hval, -⟩ := encode_symbol_sim e p.1 p.2 hi hc hs
    obtain ⟨ih1, ih2⟩ := ih (e.encode_symbol p.1 p.2) hi1
      (fun q hq => hv q (List.mem_cons_of_mem p hq))
    set x := val01 ((encodeAll (e.encode_symbol p.1 p.2) ps).encoded_data ++ [1]) with hxdef
    rw [hlo] at ih1
    rw [hhi] at ih2
    rw [hval x] at ih1 ih2
    rw [opsAffine_le_iff] at ih1
    rw [opsAffine_lt_iff] at ih2
    have hT : cdfTotal p.1 ≤ e.high - e.low + 1 :=
      le_trans hc.total_le (le_of_lt hi.range_gt)
    obtain ⟨hn1, hn2, hn3⟩ := narrow_bounds e.low e.high p.1 p.2 hc hs hi.low_le_high hT
    constructor
    · refine le_trans ?_ ih1
      exact_mod_cast hn1
    · refine lt_of_lt_of_le ih2 ?_
      have : ((narrow e.low e.high p.1 p.2).2 : ℚ) ≤ (e.high : ℚ) := by exact_mod_cast hn3
      linarith

theorem Bits01_drop (B : List Nat) (n : Nat) (h : Bits01 B) : Bits01 (B.drop n) :=
  fun b hb => h b (List.drop_subset n B hb)

theorem takeWhile_length_eq : ∀ (c : List Nat) (v s : Nat), s < c.length →
    (∀ i, i < s → c.getD i 0 ≤ v) → v < c.getD s 0 →
    (c.takeWhile (fun x => decide (x ≤ v))).length = s := by
  intro c
  induction c with
  | nil =>
    intro v s hs _ _
    simp at hs
  | cons a t ih =>
    intro v s hs hbelow habove
    cases s with
    | zero =>
      have ha : ¬(a ≤ v) := by simpa using habove
      simp [List.takeWhile, ha]
    | succ s2 =>
      have ha : a ≤ v := by simpa using hbelow 0 (Nat.succ_pos s2)
      have hstep : (a :: t).takeWhile (fun x => decide (x ≤ v))
          = a :: t.takeWhile (fun x => decide (x ≤ v)) := by
        simp [List.takeWhile, ha]
      rw [hstep, List.length_cons]
      have hret := ih v s2 (by simpa using hs)
        (fun i hi => by simpa using hbelow (i + 1) (by omega))
        (by simpa using habove)
      omega

/-- The decoder's `np.searchsorted(..., side="right")` picks exactly the
symbol whose sub-interval the register lies in. -/
theorem decode_value_symbol (low high : Nat) (c : List Nat) (s : Nat) (code : Nat)
    (hc : ValidCdf c) (hs : s < c.length) (hlh : low ≤ high)
    (hT : cdfTotal c ≤ high - low + 1)
    (h1 : (narrow low high c s).1 ≤ code) (h2 : code ≤ (narrow low high c s).2) :
    searchsortedRight c (((code - low + 1) * cdfTotal c - 1) / (high - low + 1)) = s := by
  have hTpos := hc.total_pos
  rw [narrow_fst] at h1
  rw [narrow_snd] at h2
  set T := cdfTotal c with hTdef
  set R := high - low + 1 with hRdef
  set sh := c.getD s 0 with hshdef
  set sl := (if s > 0 then c.getD (s - 1) 0 else 0) with hsldef
  have hRpos : 0 < R := by omega
  have hsh_pos : 0 < sh := hc.pos hs
  have hsh_le : sh ≤ T := hc.le_total hs
  have hshR1 : 1 ≤ sh * R / T := by
    rw [Nat.one_le_div_iff hTpos]
    calc T = 1 * T := by ring
      _ ≤ sh * R := Nat.mul_le_mul (by omega) hT
  have hcode_low : low ≤ code := le_trans (Nat.le_add_right low _) h1
  have hlt : sl * R < (code - low + 1) * T := by
    rw [← Nat.div_lt_iff_lt_mul hTpos]
    generalize hq : sl * R / T = q at h1 ⊢
    omega
  have hle : (code - low + 1) * T ≤ sh * R := by
    have hstep : code - low + 1 ≤ sh * R / T := by
      generalize hq : sh * R / T = q at h2 hshR1 ⊢
      omega
    calc (code - low + 1) * T ≤ sh * R / T * T := Nat.mul_le_mul_right T hstep
      _ ≤ sh * R := Nat.div_mul_le_self _ T
  set value := ((code - low + 1) * T - 1) / R with hvdef
  have hv2 : value < sh := by
    rw [hvdef, Nat.div_lt_iff_lt_mul hRpos]
    have hpos : 0 < (code - low + 1) * T := by positivity
    omega
  have hv1 : sl ≤ value := by
    rw [hvdef, Nat.le_div_iff_mul_le hRpos]
    omega
  rw [searchsortedRight]
  refine takeWhile_length_eq c value s hs ?_ hv2
  intro i hi
  have hsl_ge : c.getD i 0 ≤ sl := by
    rw [hsldef]
    have hspos : s > 0 := by omega
    simp only [hspos, if_true]
    rcases Nat.lt_or_ge i (s - 1) with hlt2 | hge
    · exact le_of_lt (hc.mono hlt2 (by omega))
    · have : i = s - 1 := by omega
      subst this
      exact le_refl _
  exact le_trans hsl_ge hv1

theorem initCode_drop : ∀ (k : Nat) (input : List Nat),
    (initCode k input).2 = input.drop k := by
  intro k
  induction k with
  | zero => intro input; rfl
  | succ k2 ih =>
    intro input
    rw [initCode]
    dsimp only
    rw [ih, readCodeBit_drop, List.drop_drop, Nat.add_comm]

theorem initCode_val : ∀ (k : Nat) (input : List Nat),
    (((initCode k input).1 : ℚ)) + val01 (input.drop k) = val01 input * 2 ^ k := by
  intro k
  induction k with
  | zero =>
    intro input
    simp [initCode, val01]
  | succ k2 ih =>
    intro input
    rw [initCode]
    dsimp only
    have hdrop : input.drop (k2 + 1) = (readCodeBit input).2.drop k2 := by
      rw [readCodeBit_drop, List.drop_drop, Nat.add_comm]
    rw [hdrop]
    have hsh : (readCodeBit input).1 <<< k2 = (readCodeBit input).1 * 2 ^ k2 :=
      Nat.shiftLeft_eq _ k2
    rw [hsh]
    push_cast
    have := ih (readCodeBit input).2
    rw [readCodeBit_val input]
    have h2 : (2 : ℚ) ^ (k2 + 1) = 2 ^ k2 * 2 := by rw [pow_succ]
    rw [h2]
    nlinarith [this]

/-- Synchronization between an encoder mid-run and the decoder that has
consumed the corresponding prefix of the final stream `B`. -/
def SyncRel (e : Encoder) (d : Decoder) (B : List Nat) : Prop :=
  d.low = e.low ∧ d.high = e.high ∧
  d.input = B.drop (NUM_STATE_BITS + encM e) ∧
  ((d.code : ℚ) + val01 d.input
    = (val01 B - encC e) * 2 ^ encM e * (FULL : ℚ))

theorem SyncRel_init (B : List Nat) : SyncRel Encoder.init (Decoder.init B) B := by
  refine ⟨rfl, rfl, ?_, ?_⟩
  · show (initCode NUM_STATE_BITS B).2 = B.drop (NUM_STATE_BITS + encM Encoder.init)
    rw [initCode_drop]
    rfl
  · show ((initCode NUM_STATE_BITS B).1 : ℚ) + val01 (initCode NUM_STATE_BITS B).2
      = (val01 B - encC Encoder.init) * 2 ^ encM Encoder.init * (FULL : ℚ)
    rw [initCode_drop]
    have hC : encC Encoder.init = 0 := by
      rw [encC, Encoder.init]
      dsimp only
      rw [val01_nil, encM]
      norm_num
    have hM : encM Encoder.init = 0 := rfl
    rw [hC, hM]
    have := initCode_val NUM_STATE_BITS B
    rw [this]
    have hF : ((FULL : Nat) : ℚ) = 2 ^ NUM_STATE_BITS := by
      rw [FULL_eq]
      norm_num [NUM_STATE_BITS]
    rw [hF]
    ring

theorem decode_symbol_fst (d : Decoder) (c : List Nat) :
    (d.decode_symbol c).1
      = searchsortedRight c (((d.code - d.low + 1) * cdfTotal c - 1)
          / (d.high - d.low + 1)) := rfl

theorem decode_symbol_snd (d : Decoder) (c : List Nat) :
    (d.decode_symbol c).2
      = { d.applyOps (update d.low d.high c ((d.decode_symbol c).1)).2.2 with
          low := (update d.low d.high c ((d.decode_symbol c).1)).1,
          high := (update d.low d.high c ((d.decode_symbol c).1)).2.1 } := rfl

/-- One synchronized coding step: if the final stream value lies in the
narrowed sub-interval for symbol `s`, the decoder decodes exactly `s` and the
synchronization relation is preserved through the identical `update`. -/
theorem decode_symbol_sim (e : Encoder) (d : Decoder) (B : List Nat) (c : List Nat) (s : Nat)
    (hi : StateInv e.low e.high) (hc : ValidCdf c) (hs : s < c.length)
    (hB : Bits01 B) (hsync : SyncRel e d B)
    (hloc1 : ((narrow e.low e.high c s).1 : ℚ)
        ≤ (val01 B - encC e) * 2 ^ encM e * (FULL : ℚ))
    (hloc2 : (val01 B - encC e) * 2 ^ encM e * (FULL : ℚ)
        < ((narrow e.low e.high c s).2 : ℚ) + 1) :
    (d.decode_symbol c).1 = s ∧ SyncRel (e.encode_symbol c s) (d.decode_symbol c).2 B := by
  obtain ⟨hdl, hdh, hdin, hdval⟩ := hsync
  have hbitsIn : Bits01 d.input := by
    rw [hdin]
    exact Bits01_drop B _ hB
  have hv0 : 0 ≤ val01 d.input := val01_nonneg _
  have hv1 : val01 d.input < 1 := val01_lt_one _ hbitsIn
  rw [← hdval] at hloc1 hloc2
  have hcode_lo : (narrow e.low e.high c s).1 ≤ d.code := by
    by_contra hcon
    push_neg at hcon
    have hq : (d.code : ℚ) + 1 ≤ ((narrow e.low e.high c s).1 : ℚ) := by
      exact_mod_cast hcon
    linarith
  have hcode_hi : d.code ≤ (narrow e.low e.high c s).2 := by
    by_contra hcon
    push_neg at hcon
    have hq : ((narrow e.low e.high c s).2 : ℚ) + 1 ≤ (d.code : ℚ) := by
      exact_mod_cast hcon
    linarith
  have hT : cdfTotal c ≤ e.high - e.low + 1 := le_trans hc.total_le (le_of_lt hi.range_gt)
  have hsym : (d.decode_symbol c).1 = s := by
    rw [decode_symbol_fst, hdl, hdh]
    exact decode_value_symbol e.low e.high c s d.code hc hs hi.low_le_high hT
      hcode_lo hcode_hi
  refine ⟨hsym, ?_⟩
  have hd2 : (d.decode_symbol c).2
      = { d.applyOps (update e.low e.high c s).2.2 with
          low := (update e.low e.high c s).1,
          high := (update e.low e.high c s).2.1 } := by
    rw [decode_symbol_snd, hsym, hdl, hdh]
  obtain ⟨hn1, hn2, hn3⟩ := narrow_bounds e.low e.high c s hc hs hi.low_le_high hT
  have hnhF : (narrow e.low e.high c s).2 < FULL := lt_of_le_of_lt hn3 hi.2.2.1
  obtain ⟨mL, mH, mlo, mhi, mbits, mdrop, mval⟩ :=
    msbLoop_dec (narrow e.low e.high c s).1 (narrow e.low e.high c s).2 hn2 hnhF d
      hcode_lo hcode_hi hbitsIn
  obtain ⟨uL, uH, ulo, uhi, ubits, udrop, uval⟩ :=
    underLoop_dec (msbLoop (narrow e.low e.high c s).1 (narrow e.low e.high c s).2).1
      (msbLoop (narrow e.low e.high c s).1 (narrow e.low e.high c s).2).2.1
      (d.applyOps (msbLoop (narrow e.low e.high c s).1 (narrow e.low e.high c s).2).2.2)
      mlo mhi mbits
  obtain ⟨hei, -, -, -, hev, hem⟩ := encode_symbol_sim e c s hi hc hs
  have hops : (update e.low e.high c s).2.2
      = (msbLoop (narrow e.low e.high c s).1 (narrow e.low e.high c s).2).2.2
        ++ (underLoop (msbLoop (narrow e.low e.high c s).1 (narrow e.low e.high c s).2).1
            (msbLoop (narrow e.low e.high c s).1 (narrow e.low e.high c s).2).2.1).2.2 := rfl
  rw [hd2]
  refine ⟨?_, ?_, ?_, ?_⟩
  · show (update e.low e.high c s).1 = (e.encode_symbol c s).low
    rw [encode_symbol_low]
  · show (update e.low e.high c s).2.1 = (e.encode_symbol c s).high
    rw [encode_symbol_high]
  · show (d.applyOps (update e.low e.high c s).2.2).input
      = B.drop (NUM_STATE_BITS + encM (e.encode_symbol c s))
    rw [hops, decoder_applyOps_append, udrop, mdrop, hdin, List.drop_drop, List.drop_drop]
    congr 1
    rw [hem, hops, List.length_append]
    omega
  · show ((d.applyOps (update e.low e.high c s).2.2).code : ℚ)
        + val01 (d.applyOps (update e.low e.high c s).2.2).input
      = (val01 B - encC (e.encode_symbol c s)) * 2 ^ encM (e.encode_symbol c s) * (FULL : ℚ)
    rw [hops, decoder_applyOps_append, uval, mval, hdval, ← opsAffine_append, ← hops]
    exact (hev (val01 B)).symm

theorem decodeAll_nil (d : Decoder) : decodeAll d [] = ([], d) := rfl

theorem decodeAll_cons (d : Decoder) (c : List Nat) (cs : List (List Nat)) :
    decodeAll d (c :: cs)
      = ((d.decode_symbol c).1 :: (decodeAll (d.decode_symbol c).2 cs).1,
        (decodeAll (d.decode_symbol c).2 cs).2) := rfl

/-- Full-run simulation: a decoder synchronized with an encoder mid-run and
fed the same CDFs decodes exactly the encoded symbols. -/
theorem decodeAll_sim : ∀ (ps : List (List Nat × Nat)) (e : Encoder) (d : Decoder),
    StateInv e.low e.high → ValidPairs ps →
    Bits01 ((encodeAll e ps).encoded_data ++ [1]) →
    SyncRel e d ((encodeAll e ps).encoded_data ++ [1]) →
    (decodeAll d (ps.map Prod.fst)).1 = ps.map Prod.snd := by
  intro ps
  induction ps with
  | nil =>
    intro e d _ _ _ _
    rfl
  | cons p ps ih =>
    intro e d hi hv hB hsync
    obtain ⟨hc, hs⟩ := hv p (List.mem_cons_self p ps)
    have hvtail : ValidPairs ps := fun q hq => hv q (List.mem_cons_of_mem p hq)
    obtain ⟨hi1, -, hlo, hhi, hev, -⟩ := encode_symbol_sim e p.1 p.2 hi hc hs
    have hBeq : (encodeAll e (p :: ps)).encoded_data
        = (encodeAll (e.encode_symbol p.1 p.2) ps).encoded_data := rfl
    rw [hBeq] at hB hsync
    set B := (encodeAll (e.encode_symbol p.1 p.2) ps).encoded_data ++ [1] with hBdef
    obtain ⟨hl1, hl2⟩ := encodeAll_loc ps (e.encode_symbol p.1 p.2) hi1 hvtail
    rw [hlo] at hl1
    rw [hhi] at hl2
    rw [hev (val01 B)] at hl1 hl2
    rw [opsAffine_le_iff] at hl1
    rw [opsAffine_lt_iff] at hl2
    obtain ⟨hsym, hsync2⟩ := decode_symbol_sim e d B p.1 p.2 hi hc hs hB hsync hl1 hl2
    show ((d.decode_symbol p.1).1
        :: (decodeAll (d.decode_symbol p.1).2 (ps.map Prod.fst)).1) = p.2 :: ps.map Prod.snd
    rw [hsym, ih (e.encode_symbol p.1 p.2) (d.decode_symbol p.1).2 hi1 hvtail hB hsync2]

theorem finish_get_encoded (e : Encoder) :
    e.finish.get_encoded = e.encoded_data ++ [1] := rfl

/-- Coder closure: encode a valid `(cdf, symbol)` sequence, `finish()`, then
decode over the same CDF stream — the original symbols come back. -/
theorem coder_closure (ps : List (List Nat × Nat)) (hv : ValidPairs ps) :
    (decodeAll (Decoder.init ((encodeAll Encoder.init ps).finish.get_encoded))
        (ps.map Prod.fst)).1 = ps.map Prod.snd := by
  have hinit : StateInv Encoder.init.low Encoder.init.high := StateInv_init
  have hbits0 : Bits01 Encoder.init.encoded_data := fun b hb => absurd hb (List.not_mem_nil b)
  obtain ⟨-, hbits⟩ := encodeAll_inv ps Encoder.init hinit hv
  have hB : Bits01 ((encodeAll Encoder.init ps).encoded_data ++ [1]) := by
    intro b hb
    rcases List.mem_append.mp hb with h1 | h2
    · exact hbits hbits0 b h1
    · rcases List.mem_cons.mp h2 with rfl | h3
      · exact le_refl 1
      · exact absurd h3 (List.not_mem_nil b)
  rw [finish_get_encoded]
  exact decodeAll_sim ps Encoder.init _ hinit hv hB
    (SyncRel_init ((encodeAll Encoder.init ps).encoded_data ++ [1]))

/-! ## Decoder-alone invariants (arbitrary input stream) -/

theorem update_StateInv (low high : Nat) (c : List Nat) (s : Nat)
    (hi : StateInv low high) (hc : ValidCdf c) (hs : s < c.length) :
    StateInv (update low high c s).1 (update low high c s).2.1 := by
  have hT : cdfTotal c ≤ high - low + 1 := le_trans hc.total_le (le_of_lt hi.range_gt)
  obtain ⟨hn1, hn2, hn3⟩ := narrow_bounds low high c s hc hs hi.low_le_high hT
  have hnhF : (narrow low high c s).2 < FULL := lt_of_le_of_lt hn3 hi.2.2.1
  obtain ⟨hm1, hm2, hm3, hm4⟩ := msbLoop_bounds (narrow low high c s).1
    (narrow low high c s).2 hn2 hnhF
  have hui := underLoop_bounds (msbLoop (narrow low high c s).1
    (narrow low high c s).2).1 _ hm1 hm2 hm3
  rw [update_eq]
  exact hui

theorem searchsortedRight_le_length (c : List Nat) (v : Nat) :
    searchsortedRight c v ≤ c.length := by
  rw [searchsortedRight]
  exact (List.takeWhile_prefix _).length_le

theorem searchsortedRight_lt_length (c : List Nat) (hc : ValidCdf c) (v : Nat)
    (hv : v < cdfTotal c) : searchsortedRight c v < c.length := by
  rcases Nat.lt_or_ge (searchsortedRight c v) c.length with h | h
  · exact h
  · exfalso
    have heq : searchsortedRight c v = c.length :=
      le_antisymm (searchsortedRight_le_length c v) h
    rw [searchsortedRight] at heq
    have hself : c.takeWhile (fun x => decide (x ≤ v)) = c :=
      (List.takeWhile_prefix _).eq_of_length heq
    have hall := List.takeWhile_eq_self_iff.mp hself
    have hlen : 0 < c.length := List.length_pos.mpr hc.1
    have hmem : c.getD (c.length - 1) 0 ∈ c := by
      rw [List.getD_eq_getElem?_getD, List.getElem?_eq_getElem (by omega)]
      exact List.getElem_mem _
    have := hall _ hmem
    rw [← cdfTotal_eq_getD] at this
    simp at this
    omega

theorem searchsorted_above : ∀ (c : List Nat) (v : Nat),
    searchsortedRight c v < c.length → v < c.getD (searchsortedRight c v) 0 := by
  intro c
  induction c with
  | nil =>
    intro v h
    simp at h
  | cons a t ih =>
    intro v h
    by_cases ha : a ≤ v
    · have hstep : searchsortedRight (a :: t) v = searchsortedRight t v + 1 := by
        rw [searchsortedRight, searchsortedRight, List.takeWhile_cons]
        simp [ha, Nat.add_comm]
      rw [hstep]
      rw [hstep, List.length_cons] at h
      have := ih v (by omega)
      simpa using this
    · have hstep : searchsortedRight (a :: t) v = 0 := by
        rw [searchsortedRight, List.takeWhile_cons]
        simp [ha]
      rw [hstep]
      simpa using lt_of_not_ge ha

theorem searchsorted_below : ∀ (c : List Nat) (v : Nat),
    0 < searchsortedRight c v → c.getD (searchsortedRight c v - 1) 0 ≤ v := by
  intro c
  induction c with
  | nil =>
    intro v h
    simp [searchsortedRight, List.takeWhile] at h
  | cons a t ih =>
    intro v h
    by_cases ha : a ≤ v
    · have hstep : searchsortedRight (a :: t) v = searchsortedRight t v + 1 := by
        rw [searchsortedRight, searchsortedRight, List.takeWhile_cons]
        simp [ha, Nat.add_comm]
      rw [hstep]
      rcases Nat.eq_zero_or_pos (searchsortedRight t v) with h0 | hpos
      · rw [h0]
        simpa using ha
      · have := ih v hpos
        have hidx : searchsortedRight t v + 1 - 1 = (searchsortedRight t v - 1) + 1 := by
          omega
        rw [hidx]
        simpa using this
    · have hstep : searchsortedRight (a :: t) v = 0 := by
        rw [searchsortedRight, List.takeWhile_cons]
        simp [ha]
      rw [hstep] at h
      omega

theorem decode_value_lt_total (low high code T : Nat) (hT : 0 < T)
    (hlow : low ≤ code) (hhigh : code ≤ high) :
    ((code - low + 1) * T - 1) / (high - low + 1) < T := by
  set R := high - low + 1 with hR
  have hRpos : 0 < R := by omega
  rw [Nat.div_lt_iff_lt_mul hRpos]
  have h1 : code - low + 1 ≤ R := by omega
  have h2 : (code - low + 1) * T ≤ R * T := Nat.mul_le_mul_right T h1
  have h3 : 0 < (code - low + 1) * T := by positivity
  have h4 : R * T = T * R := by ring
  omega

/-- Whatever symbol the decoder's `searchsorted` picks, the register lies in
that symbol's narrowed sub-interval. -/
theorem value_symbol_in_narrow (low high : Nat) (c : List Nat) (code : Nat)
    (hc : ValidCdf c) (hlh : low ≤ high) (hT : cdfTotal c ≤ high - low + 1)
    (hlow : low ≤ code) (hhigh : code ≤ high) :
    (narrow low high c
        (searchsortedRight c (((code - low + 1) * cdfTotal c - 1) / (high - low + 1)))).1
      ≤ code ∧
    code ≤ (narrow low high c
        (searchsortedRight c (((code - low + 1) * cdfTotal c - 1) / (high - low + 1)))).2 := by
  have hTpos := hc.total_pos
  set T := cdfTotal c with hTdef
  set R := high - low + 1 with hRdef
  have hRpos : 0 < R := by omega
  set v := ((code - low + 1) * T - 1) / R with hvdef
  have hvT : v < T := decode_value_lt_total low high code T hTpos hlow hhigh
  set s := searchsortedRight c v with hsdef
  have hs : s < c.length := searchsortedRight_lt_length c hc v hvT
  have habove : v < c.getD s 0 := searchsorted_above c v hs
  rw [narrow_fst, narrow_snd, ← hTdef, ← hRdef]
  set sh := c.getD s 0 with hshdef
  set sl := (if s > 0 then c.getD (s - 1) 0 else 0) with hsldef
  have hsh_le : sh ≤ T := hc.le_total hs
  have hv_sl : sl ≤ v := by
    rw [hsldef]
    by_cases h0 : s > 0
    · simp only [h0, if_true]
      exact searchsorted_below c v h0
    · simp only [h0, if_false]
      exact Nat.zero_le v
  constructor
  · have hlt : sl * R < (code - low + 1) * T := by
      have h1 : sl * R ≤ v * R := Nat.mul_le_mul_right R hv_sl
      have h2 : v * R ≤ (code - low + 1) * T - 1 := by
        rw [hvdef]
        rw [← Nat.le_div_iff_mul_le hRpos]
      have h3 : 0 < (code - low + 1) * T := by positivity
      omega
    have hstep := (Nat.div_lt_iff_lt_mul hTpos).mpr hlt
    generalize hq : sl * R / T = q at hstep ⊢
    omega
  · have hlt : (code - low + 1) * T - 1 < sh * R := by
      rw [hvdef] at habove
      exact (Nat.div_lt_iff_lt_mul hRpos).mp habove
    have hstep : code - low + 1 ≤ sh * R / T := by
      rw [Nat.le_div_iff_mul_le hTpos]
      have h3 : 0 < (code - low + 1) * T := by positivity
      omega
    have hge1 : 1 ≤ sh * R / T := le_trans (by omega) hstep
    generalize hq : sh * R / T = q at hstep hge1 ⊢
    omega

theorem initCode_lt : ∀ (k : Nat) (input : List Nat), Bits01 input →
    (initCode k input).1 < 2 ^ k := by
  intro k
  induction k with
  | zero =>
    intro input _
    norm_num [initCode]
  | succ k2 ih =>
    intro input hb
    rw [initCode]
    dsimp only
    have h1 : (readCodeBit input).1 ≤ 1 := readCodeBit_le_one input hb
    have h2 := ih (readCodeBit input).2 (readCodeBit_bits input hb)
    rw [Nat.shiftLeft_eq]
    have : (2 : Nat) ^ (k2 + 1) = 2 ^ k2 + 2 ^ k2 := by ring
    have hm : (readCodeBit input).1 * 2 ^ k2 ≤ 2 ^ k2 := by
      calc (readCodeBit input).1 * 2 ^ k2 ≤ 1 * 2 ^ k2 := Nat.mul_le_mul_right _ h1
        _ = 2 ^ k2 := by ring
    omega

/-- Invariant of a decoder running on an arbitrary 0/1 input stream. -/
def DecInv (d : Decoder) : Prop :=
  StateInv d.low d.high ∧ d.low ≤ d.code ∧ d.code ≤ d.high ∧ Bits01 d.input

theorem DecInv_init (bits : List Nat) (hb : Bits01 bits) : DecInv (Decoder.init bits) := by
  refine ⟨StateInv_init, Nat.zero_le _, ?_, ?_⟩
  · show (initCode NUM_STATE_BITS bits).1 ≤ MASK
    have := initCode_lt NUM_STATE_BITS bits hb
    have he : (2 : Nat) ^ NUM_STATE_BITS = FULL := by decide
    rw [he] at this
    rw [MASK_eq, FULL_eq] at *
    omega
  · show Bits01 (initCode NUM_STATE_BITS bits).2
    rw [initCode_drop]
    exact Bits01_drop bits _ hb

theorem decode_symbol_DecInv (d : Decoder) (c : List Nat)
    (hd : DecInv d) (hc : ValidCdf c) :
    DecInv (d.decode_symbol c).2 ∧ (d.decode_symbol c).1 < c.length := by
  obtain ⟨hi, hcl, hch, hbits⟩ := hd
  have hT : cdfTotal c ≤ d.high - d.low + 1 := le_trans hc.total_le (le_of_lt hi.range_gt)
  have hvT : ((d.code - d.low + 1) * cdfTotal c - 1) / (d.high - d.low + 1) < cdfTotal c :=
    decode_value_lt_total d.low d.high d.code (cdfTotal c) hc.total_pos hcl hch
  have hs : (d.decode_symbol c).1 < c.length := by
    rw [decode_symbol_fst]
    exact searchsortedRight_lt_length c hc _ hvT
  obtain ⟨hin1, hin2⟩ := value_symbol_in_narrow d.low d.high c d.code hc
    hi.low_le_high hT hcl hch
  rw [← decode_symbol_fst] at hin1 hin2
  obtain ⟨hn1, hn2, hn3⟩ := narrow_bounds d.low d.high c (d.decode_symbol c).1 hc hs
    hi.low_le_high hT
  have hnhF : (narrow d.low d.high c (d.decode_symbol c).1).2 < FULL :=
    lt_of_le_of_lt hn3 hi.2.2.1
  obtain ⟨mL, mH, mlo, mhi, mbits, mdrop, mval⟩ :=
    msbLoop_dec (narrow d.low d.high c (d.decode_symbol c).1).1
      (narrow d.low d.high c (d.decode_symbol c).1).2 hn2 hnhF d hin1 hin2 hbits
  obtain ⟨uL, uH, ulo, uhi, ubits, udrop, uval⟩ :=
    underLoop_dec
      (msbLoop (narrow d.low d.high c (d.decode_symbol c).1).1
        (narrow d.low d.high c (d.decode_symbol c).1).2).1
      (msbLoop (narrow d.low d.high c (d.decode_symbol c).1).1
        (narrow d.low d.high c (d.decode_symbol c).1).2).2.1
      (d.applyOps (msbLoop (narrow d.low d.high c (d.decode_symbol c).1).1
        (narrow d.low d.high c (d.decode_symbol c).1).2).2.2)
      mlo mhi mbits
  have hops : (update d.low d.high c (d.decode_symbol c).1).2.2
      = (msbLoop (narrow d.low d.high c (d.decode_symbol c).1).1
          (narrow d.low d.high c (d.decode_symbol c).1).2).2.2
        ++ (underLoop (msbLoop (narrow d.low d.high c (d.decode_symbol c).1).1
            (narrow d.low d.high c (d.decode_symbol c).1).2).1
          (msbLoop (narrow d.low d.high c (d.decode_symbol c).1).1
            (narrow d.low d.high c (d.decode_symbol c).1).2).2.1).2.2 := rfl
  have hupd := update_StateInv d.low d.high c (d.decode_symbol c).1 hi hc hs
  refine ⟨⟨?_, ?_, ?_, ?_⟩, hs⟩
  · rw [decode_symbol_snd]
    exact hupd
  · rw [decode_symbol_snd]
    show (update d.low d.high c (d.decode_symbol c).1).1
      ≤ (d.applyOps (update d.low d.high c (d.decode_symbol c).1).2.2).code
    rw [hops, decoder_applyOps_append, update_eq]
    exact ulo
  · rw [decode_symbol_snd]
    show (d.applyOps (update d.low d.high c (d.decode_symbol c).1).2.2).code
      ≤ (update d.low d.high c (d.decode_symbol c).1).2.1
    rw [hops, decoder_applyOps_append, update_eq]
    exact uhi
  · rw [decode_symbol_snd]
    show Bits01 (d.applyOps (update d.low d.high c (d.decode_symbol c).1).2.2).input
    rw [hops, decoder_applyOps_append]
    exact ubits

theorem decodeAll_DecInv : ∀ (cs : List (List Nat)) (d : Decoder),
    DecInv d → (∀ c ∈ cs, ValidCdf c) → DecInv (decodeAll d cs).2 := by
  intro cs
  induction cs with
  | nil => exact fun d hd _ => hd
  | cons c cs ih =>
    intro d hd hv
    rw [decodeAll_cons]
    exact ih (d.decode_symbol c).2
      (decode_symbol_DecInv d c hd (hv c (List.mem_cons_self c cs))).1
      (fun q hq => hv q (List.mem_cons_of_mem c hq))

/-! ## The near-convergence loop body, as code and as spec (claim C3) -/

/-- Body of the near-convergence renormalization as the code performs it
(lines 40-41): `low = (low << 1) ^ half_range;
high = ((high ^ half_range) << 1) | half_range | 1`. -/
def underBody (low high : Nat) : Nat × Nat :=
  ((low <<< 1) ^^^ HALF, (((high ^^^ HALF) <<< 1) ||| HALF) ||| 1)

/-- Modelled from the spec: §4.1's (and claim C3's) wording of the same body:
`low = (low XOR HALF) << 1`; `high = ((high XOR HALF) << 1) | 1`, with both
results masked to `B = 64` bits. -/
def underBodySpec (low high : Nat) : Nat × Nat :=
  (((low ^^^ HALF) <<< 1) &&& MASK, (((high ^^^ HALF) <<< 1) ||| 1) &&& MASK)

/-! ## CDF builder (`compute_cdf`, lines 137-142)

`np.cumsum` over `np.maximum(1, np.round(FREQ_SCALE_FACTOR * probs))`.
The probabilities `probs = exp(logits_to_logprobs(logits))` come from the
external backend's log-softmax; they are modelled as an exact rational
vector, and `np.round` (round half to even) is abstracted as any rounding
`rnd` with `|rnd x - x| ≤ 1/2`, a property bankers' rounding satisfies. -/

def cumsumFrom (acc : ℤ) : List ℤ → List ℤ
  | [] => []
  | x :: xs => (acc + x) :: cumsumFrom (acc + x) xs

/-- `np.cumsum` (line 141). -/
def cumsum (l : List ℤ) : List ℤ := cumsumFrom 0 l

/-- `LlamaZip.compute_cdf` (lines 137-142) over exact rationals. -/
def compute_cdf (rnd : ℚ → ℤ) (probs : List ℚ) : List ℤ :=
  cumsum (probs.map (fun p => max 1 (rnd ((FREQ_SCALE_FACTOR : ℚ) * p))))

/-! ## Bit packing (`bits_to_base64` lines 145-153, `base64_to_bits` lines 226-228) -/

/-- `BASE64 = string.ascii_uppercase + string.ascii_lowercase + string.digits + "+/"`
(line 15), as a character list. -/
def BASE64 : List Char :=
  ("ABCDEFGHIJKLMNOPQRSTUVWXYZabcdefghijklmnopqrstuvwxyz0123456789+/").toList

/-- The strip loop of `bits_to_base64` (lines 146-147):
`while bits and bits[-1] == 0: bits.pop()`. -/
def stripTrailingZeros (bits : List Nat) : List Nat :=
  (bits.reverse.dropWhile (fun b => decide (b = 0))).reverse

/-- The pad loop of `bits_to_base64` (lines 148-149):
`while len(bits) % 6 != 0: bits.append(0)`, in closed form. -/
def padToSix (bits : List Nat) : List Nat :=
  bits ++ List.replicate ((6 - bits.length % 6) % 6) 0

/-- `int("".join(str(bit) for bit in bits), 2)`: MSB-first binary value. -/
def bitsVal (bits : List Nat) : Nat := bits.foldl (fun acc b => 2 * acc + b) 0

/-- The chunked character emission of `bits_to_base64` (lines 150-153); after
padding, the length is a multiple of six, so the catch-all is unreachable. -/
def encodeChunks : List Nat → List Char
  | b1 :: b2 :: b3 :: b4 :: b5 :: b6 :: rest =>
    BASE64.getD (bitsVal [b1, b2, b3, b4, b5, b6]) 'A' :: encodeChunks rest
  | _ => []

/-- `bits_to_base64` (lines 145-153). -/
def bits_to_base64 (bits : List Nat) : List Char :=
  encodeChunks (padToSix (stripTrailingZeros bits))

/-- `f"{BASE64.index(char):06b}"`: the six bits of an index, MSB first. -/
def bitsOfIdx (n : Nat) : List Nat :=
  [n / 32 % 2, n / 16 % 2, n / 8 % 2, n / 4 % 2, n / 2 % 2, n % 2]

/-- `base64_to_bits` (lines 226-228). -/
def base64_to_bits (s : List Char) : List Nat :=
  (s.map (fun ch => bitsOfIdx (List.indexOf ch BASE64))).flatten

/-! ## CLI overlap parsing (`main`, lines 343-360) and interactive dispatch
(lines 373-383) -/

/-- The `--window-overlap` argument after Python's `float`/`int` parsing:
either a percentage (trailing `%`), a token count, or a parse failure
(`ValueError`). -/
inductive OverlapArg where
  | percentArg (q : ℚ) : OverlapArg
  | intArg (z : ℤ) : OverlapArg
  | malformed : OverlapArg

/-- Overlap normalization of `main` (lines 343-360).  `W` is
`compressor.model.n_ctx()`.  `int(percent / 100 * (n_ctx - 1))` truncates
toward zero, which equals `⌊·⌋` for the nonnegative values that reach it;
`parser.error` exits with an argument error, modelled as `Except.error`. -/
def parseOverlap (W : ℤ) : OverlapArg → Except String ℤ
  | OverlapArg.percentArg q =>
    if 0 ≤ q ∧ q ≤ 100 then Except.ok ⌊q / 100 * ((W : ℚ) - 1)⌋
    else Except.error "window overlap out of percentage range"
  | OverlapArg.intArg z =>
    if 0 ≤ (if z < 0 then z + W else z) ∧ (if z < 0 then z + W else z) < W then
      Except.ok (if z < 0 then z + W else z)
    else Except.error "window overlap out of range"
  | OverlapArg.malformed => Except.error "window overlap must be an integer or a percentage"

inductive IAction where
  | doDecompress : IAction
  | doCompress : IAction
deriving DecidableEq

/-- The interactive-mode dispatch of `main` (lines 374-382):
`if string and all(char in BASE64 for char in string): decompress else
compress`. -/
def interactiveAction (line : List Char) : IAction :=
  if line ≠ [] ∧ ∀ ch ∈ line, ch ∈ BASE64 then IAction.doDecompress else IAction.doCompress

/-! ## Properties of the CDF builder -/

theorem cumsumFrom_length : ∀ (l : List ℤ) (acc : ℤ), (cumsumFrom acc l).length = l.length := by
  intro l
  induction l with
  | nil => intro acc; rfl
  | cons x xs ih =>
    intro acc
    rw [cumsumFrom, List.length_cons, List.length_cons, ih]

theorem cumsumFrom_adj : ∀ (l : List ℤ) (acc : ℤ) (i : Nat), i + 1 < l.length →
    (cumsumFrom acc l).getD (i + 1) 0
      = (cumsumFrom acc l).getD i 0 + l.getD (i + 1) 0 := by
  intro l
  induction l with
  | nil =>
    intro acc i h
    simp at h
  | cons x xs ih =>
    intro acc i h
    cases i with
    | zero =>
      cases xs with
      | nil => simp at h
      | cons y ys =>
        show (cumsumFrom (acc + x) (y :: ys)).getD 0 0 = acc + x + (y :: ys).getD 0 0
        rw [cumsumFrom]
        rfl
    | succ j =>
      show (cumsumFrom (acc + x) xs).getD (j + 1) 0
        = (cumsumFrom (acc + x) xs).getD j 0 + xs.getD (j + 1) 0
      exact ih (acc + x) j (by simpa using h)

theorem cumsumFrom_getLast : ∀ (l : List ℤ) (acc : ℤ), l ≠ [] →
    ((cumsumFrom acc l).getLast?).getD 0 = acc + l.sum := by
  intro l
  induction l with
  | nil => intro acc h; exact absurd rfl h
  | cons x xs ih =>
    intro acc h
    cases xs with
    | nil => simp [cumsumFrom]
    | cons y ys =>
      have hne : (y :: ys) ≠ ([] : List ℤ) := by simp
      show (((acc + x) :: cumsumFrom (acc + x) (y :: ys)).getLast?).getD 0
        = acc + (x :: y :: ys).sum
      have hcl : cumsumFrom (acc + x) (y :: ys)
          = (acc + x + y) :: cumsumFrom (acc + x + y) ys := rfl
      rw [hcl, List.getLast?_cons_cons, ← hcl, ih (acc + x) hne]
      rw [List.sum_cons, List.sum_cons, List.sum_cons]
      ring

theorem FREQ_SCALE_FACTOR_eq : FREQ_SCALE_FACTOR = 4294967296 := by decide

theorem freqs_one_le (rnd : ℚ → ℤ) (probs : List ℚ) {z : ℤ}
    (hz : z ∈ probs.map (fun p => max 1 (rnd ((FREQ_SCALE_FACTOR : ℚ) * p)))) : 1 ≤ z := by
  obtain ⟨p, -, rfl⟩ := List.mem_map.mp hz
  exact le_max_left 1 _

theorem freqs_sum_le (rnd : ℚ → ℤ) (hrnd : ∀ x : ℚ, |((rnd x : ℚ)) - x| ≤ 1 / 2) :
    ∀ probs : List ℚ, (∀ p ∈ probs, 0 ≤ p) →
    (((probs.map (fun p => max 1 (rnd ((FREQ_SCALE_FACTOR : ℚ) * p)))).sum : ℚ)
      ≤ probs.length + (FREQ_SCALE_FACTOR : ℚ) * probs.sum) := by
  intro probs
  induction probs with
  | nil => intro _; simp
  | cons p ps ih =>
    intro hpos
    have hp : 0 ≤ p := hpos p (List.mem_cons_self p ps)
    have hS : (0 : ℚ) ≤ (FREQ_SCALE_FACTOR : ℚ) := by
      rw [FREQ_SCALE_FACTOR_eq]
      norm_num
    have hterm : ((max 1 (rnd ((FREQ_SCALE_FACTOR : ℚ) * p)) : ℤ) : ℚ)
        ≤ 1 + (FREQ_SCALE_FACTOR : ℚ) * p := by
      push_cast
      have habs := hrnd ((FREQ_SCALE_FACTOR : ℚ) * p)
      rw [abs_le] at habs
      have hSp : 0 ≤ (FREQ_SCALE_FACTOR : ℚ) * p := mul_nonneg hS hp
      rcases le_total ((rnd ((FREQ_SCALE_FACTOR : ℚ) * p) : ℚ)) 1 with hc | hc
      · rw [max_eq_left hc]
        linarith
      · rw [max_eq_right hc]
        linarith
    have htail := ih (fun q hq => hpos q (List.mem_cons_of_mem p hq))
    rw [List.map_cons, List.sum_cons, List.sum_cons, List.length_cons]
    push_cast at htail ⊢
    push_cast at hterm
    linarith

/-! ## Properties of the bit packing -/

theorem base64_to_bits_nil : base64_to_bits [] = [] := rfl

theorem base64_to_bits_cons (c : Char) (t : List Char) :
    base64_to_bits (c :: t) = bitsOfIdx (List.indexOf c BASE64) ++ base64_to_bits t := rfl

theorem base64_to_bits_append (s t : List Char) :
    base64_to_bits (s ++ t) = base64_to_bits s ++ base64_to_bits t := by
  rw [base64_to_bits, base64_to_bits, base64_to_bits, List.map_append, List.flatten_append]

theorem bitsOfIdx_length (n : Nat) : (bitsOfIdx n).length = 6 := rfl

theorem base64_to_bits_length (s : List Char) : (base64_to_bits s).length = 6 * s.length := by
  induction s with
  | nil => rfl
  | cons c t ih =>
    rw [base64_to_bits_cons, List.length_append, bitsOfIdx_length, ih, List.length_cons]
    ring

theorem stripTrailingZeros_append_of_any (X chunk : List Nat)
    (h : ∃ b ∈ chunk, b ≠ 0) :
    stripTrailingZeros (X ++ chunk) = X ++ stripTrailingZeros chunk := by
  have hne : (chunk.reverse.dropWhile (fun b => decide (b = 0))).isEmpty = false := by
    rw [List.isEmpty_eq_false_iff_exists_mem]
    by_contra hcon
    push_neg at hcon
    have hnil : chunk.reverse.dropWhile (fun b => decide (b = 0)) = [] :=
      List.eq_nil_iff_forall_not_mem.mpr hcon
    obtain ⟨b, hb, hb0⟩ := h
    have := List.dropWhile_eq_nil_iff.mp hnil b (List.mem_reverse.mpr hb)
    simp at this
    exact hb0 this
  rw [stripTrailingZeros, stripTrailingZeros, List.reverse_append, List.dropWhile_append,
    hne]
  simp only [Bool.false_eq_true, if_false]
  rw [List.reverse_append, List.reverse_reverse]

theorem stripTrailingZeros_concat_replicate (l : List Nat) :
    stripTrailingZeros l
      ++ List.replicate (l.length - (stripTrailingZeros l).length) 0 = l := by
  have hsplit := List.takeWhile_append_dropWhile (fun b => decide (b = 0)) l.reverse
  have hrep : l.reverse.takeWhile (fun b => decide (b = 0))
      = List.replicate (l.reverse.takeWhile (fun b => decide (b = 0))).length 0 := by
    apply List.eq_replicate_of_mem
    intro b hb
    have := List.mem_takeWhile_imp hb
    simpa using this
  have hlen : (stripTrailingZeros l).length
      = (l.reverse.dropWhile (fun b => decide (b = 0))).length := by
    rw [stripTrailingZeros, List.length_reverse]
  have hlen2 : l.length = (l.reverse.takeWhile (fun b => decide (b = 0))).length
      + (l.reverse.dropWhile (fun b => decide (b = 0))).length := by
    conv_lhs => rw [← List.length_reverse l, ← hsplit]
    rw [List.length_append]
  calc stripTrailingZeros l ++ List.replicate (l.length - (stripTrailingZeros l).length) 0
      = (l.reverse.dropWhile (fun b => decide (b = 0))).reverse
        ++ (List.replicate (l.reverse.takeWhile (fun b => decide (b = 0))).length 0).reverse := by
        rw [stripTrailingZeros, List.reverse_replicate, List.length_reverse]
        have he : l.length - (List.dropWhile (fun b => decide (b = 0)) l.reverse).length
            = (List.takeWhile (fun b => decide (b = 0)) l.reverse).length := by omega
        rw [he]
    _ = ((l.reverse.takeWhile (fun b => decide (b = 0)))
        ++ l.reverse.dropWhile (fun b => decide (b = 0))).reverse := by
        rw [List.reverse_append, ← hrep]
    _ = l := by rw [hsplit, List.reverse_reverse]

theorem stripTrailingZeros_length_le (l : List Nat) :
    (stripTrailingZeros l).length ≤ l.length := by
  rw [stripTrailingZeros, List.length_reverse]
  calc (l.reverse.dropWhile (fun b => decide (b = 0))).length ≤ l.reverse.length :=
        (List.dropWhile_sublist _).length_le
    _ = l.length := List.length_reverse l

theorem stripTrailingZeros_pos (l : List Nat) (h : ∃ b ∈ l, b ≠ 0) :
    1 ≤ (stripTrailingZeros l).length := by
  rw [stripTrailingZeros, List.length_reverse]
  rcases Nat.eq_zero_or_pos (l.reverse.dropWhile (fun b => decide (b = 0))).length with h0 | hp
  · exfalso
    have hnil : l.reverse.dropWhile (fun b => decide (b = 0)) = [] :=
      List.eq_nil_of_length_eq_zero h0
    obtain ⟨b, hb, hb0⟩ := h
    have := List.dropWhile_eq_nil_iff.mp hnil b (List.mem_reverse.mpr hb)
    simp at this
    exact hb0 this
  · exact hp

theorem padToSix_strip_chunk (X chunk : List Nat) (hX : X.length % 6 = 0)
    (hlen : chunk.length = 6) (hnz : ∃ b ∈ chunk, b ≠ 0) :
    padToSix (stripTrailingZeros (X ++ chunk)) = X ++ chunk := by
  rw [stripTrailingZeros_append_of_any X chunk hnz]
  have hle := stripTrailingZeros_length_le chunk
  have hpos := stripTrailingZeros_pos chunk hnz
  have hrep := stripTrailingZeros_concat_replicate chunk
  rw [padToSix, List.length_append, List.append_assoc]
  congr 1
  rw [hlen] at hrep hle
  have harith : (6 - (X.length + (stripTrailingZeros chunk).length) % 6) % 6
      = 6 - (stripTrailingZeros chunk).length := by
    omega
  rw [harith]
  exact hrep

theorem getD_base64_of_mem : ∀ ch ∈ BASE64,
    BASE64.getD (bitsVal (bitsOfIdx (List.indexOf ch BASE64))) 'A' = ch := by
  decide

theorem bitsOfIdx_any_of_ne : ∀ ch ∈ BASE64, ch ≠ 'A' →
    ∃ b ∈ bitsOfIdx (List.indexOf ch BASE64), b ≠ 0 := by
  decide

theorem encodeChunks_chunk (ch : Char) (hch : ch ∈ BASE64) (rest : List Nat) :
    encodeChunks (bitsOfIdx (List.indexOf ch BASE64) ++ rest) = ch :: encodeChunks rest := by
  have hgd := getD_base64_of_mem ch hch
  rw [bitsOfIdx] at *
  rw [List.cons_append, List.cons_append, List.cons_append, List.cons_append,
    List.cons_append, List.cons_append, List.nil_append, encodeChunks]
  rw [hgd]

theorem encodeChunks_base64 : ∀ s : List Char, (∀ c ∈ s, c ∈ BASE64) →
    encodeChunks (base64_to_bits s) = s := by
  intro s
  induction s with
  | nil => intro _; rfl
  | cons c t ih =>
    intro hall
    rw [base64_to_bits_cons,
      encodeChunks_chunk c (hall c (List.mem_cons_self c t)) (base64_to_bits t),
      ih (fun x hx => hall x (List.mem_cons_of_mem c hx))]

/-! ## Predictive loop (`compress` lines 155-217, `decompress` lines 230-272)

`llama_cpp.Llama.generate` is not part of this repository.  Modelled from the
spec: generation is deterministic (`temp=0.0`); before each sample the logits
processor runs and forces the chosen token by setting its logit to infinity,
so the greedy sample is that token; the stopping criterion is then consulted
with the processed logits (whose argmax is the forced token) and the
evaluated context `tokens_so_far`, and generation stops when that argmax is
the EOS token or the evaluated context length reaches `n_ctx`.  The logits at
each step are a deterministic function of the evaluated context, abstracted
below as `cdfOf : List Nat → List Nat` mapping a context to the cdf that
`compute_cdf` produces from its logits. -/

/-- Number of symbols one `generate` call of `compress` processes when
started at position `v` (prompt `[bos] ++ tokens[start:v]`,
`start = v - min v O`): the context-length stop fires after `W - min v O`
symbols, the EOS stop after `N - v` symbols (the appended EOS is encoded),
whichever comes first; if the prompt already exceeds `n_ctx`
(`min v O ≥ W`, impossible for overlaps accepted by `main`) only the EOS
stop remains. -/
def winSteps (W O N v : Nat) : Nat :=
  if min v O < W then min (W - min v O) (N - v) else N - v

/-- One compress window's `(context, token)` encode steps (lines 159-171):
the `k`-th step encodes `tokens[v+k]` against the logits of
`[bos] ++ tokens[start : v+k]`. -/
def winPairs (W O bos : Nat) (tokens : List Nat) (v : Nat) : List (List Nat × Nat) :=
  (List.range (winSteps W O tokens.length v)).map (fun k =>
    (bos :: ((tokens.take (v + k)).drop (v - min v O)), tokens.getD (v + k) 0))

theorem winSteps_pos (W O N v : Nat) (h : v < N) : 1 ≤ winSteps W O N v := by
  rw [winSteps]
  split <;> omega

/-- The outer `while next_token_idx < len(tokens)` loop of `compress`
(lines 198-207): every `(context, token)` encode step from position `v` on. -/
def windowPairs (W O bos : Nat) (tokens : List Nat) (v : Nat) : List (List Nat × Nat) :=
  if h : v < tokens.length then
    winPairs W O bos tokens v
      ++ windowPairs W O bos tokens (v + winSteps W O tokens.length v)
  else []
termination_by tokens.length - v
decreasing_by
  have := winSteps_pos W O tokens.length v h
  omega

/-- The interrupted compress run (lines 155-157, 161-164): the SIGINT flag is
observed by `process_logits` at global encode step `k`; since
`next_token_idx < len(tokens) - 1` there, the index jumps to the final
(EOS) token, EOS is encoded against the current context, and generation
stops (the forced argmax is EOS).  Steps before `k` proceed normally. -/
def windowPairsInt (W O bos : Nat) (tokens : List Nat) (v k : Nat) :
    List (List Nat × Nat) :=
  if h : v < tokens.length then
    if k < winSteps W O tokens.length v ∧ v + k < tokens.length - 1 then
      ((List.range k).map (fun j =>
        (bos :: ((tokens.take (v + j)).drop (v - min v O)), tokens.getD (v + j) 0)))
        ++ [(bos :: ((tokens.take (v + k)).drop (v - min v O)),
            tokens.getD (tokens.length - 1) 0)]
    else
      winPairs W O bos tokens v
        ++ windowPairsInt W O bos tokens (v + winSteps W O tokens.length v)
          (k - winSteps W O tokens.length v)
  else []
termination_by tokens.length - v
decreasing_by
  have := winSteps_pos W O tokens.length v h
  omega

/-- `compress` (lines 144-217) at token level: append EOS (line 181), run
the window loop encoding every `(cdf, token)` pair. -/
def compressPairs (cdfOf : List Nat → List Nat) (W O bos eos : Nat)
    (tokens0 : List Nat) : List (List Nat × Nat) :=
  (windowPairs W O bos (tokens0 ++ [eos]) 0).map (fun p => (cdfOf p.1, p.2))

/-- `compress` output (lines 210-217): `finish()`, then pack the bits. -/
def compress (cdfOf : List Nat → List Nat) (W O bos eos : Nat)
    (tokens0 : List Nat) : List Char :=
  bits_to_base64
    ((encodeAll Encoder.init (compressPairs cdfOf W O bos eos tokens0)).finish.get_encoded)

/-- One `generate` call of `decompress` (lines 230-254): decode a symbol
with the cdf of the current context; on EOS set `done` and stop without
appending; otherwise append and stop when the evaluated context length
(`toks.length + 1 - start`) reaches `n_ctx`.  `fuel` bounds the steps and is
chosen ample by the caller. -/
def winDecode (cdfOf : List Nat → List Nat) (eos bos start W : Nat) :
    Nat → List Nat → Decoder → List Nat × Decoder × Bool
  | 0, toks, d => (toks, d, false)
  | fuel + 1, toks, d =>
    let r := d.decode_symbol (cdfOf (bos :: toks.drop start))
    if r.1 = eos then (toks, r.2, true)
    else if toks.length + 1 - start = W then (toks ++ [r.1], r.2, false)
    else winDecode cdfOf eos bos start W fuel (toks ++ [r.1]) r.2

/-- The outer `while not done` loop of `decompress` (lines 262-271): `wfuel`
bounds the number of window iterations (`none` means the bound was reached
with `done` still false — the real loop would still be running). -/
def decompressLoop (cdfOf : List Nat → List Nat) (eos bos W O : Nat) :
    Nat → List Nat → Decoder → Option (List Nat)
  | 0, _, _ => none
  | wfuel + 1, toks, d =>
    let r := winDecode cdfOf eos bos (toks.length - min toks.length O) W (W + 1) toks d
    if r.2.2 then some r.1
    else decompressLoop cdfOf eos bos W O wfuel r.1 r.2.1

/-- `decompress` (lines 225-272) at token level: unpack the string, seed the
decoder, run the window loop until `done`. -/
def decompressToks (cdfOf : List Nat → List Nat) (eos bos W O wfuel : Nat)
    (compressed : List Char) : Option (List Nat) :=
  decompressLoop cdfOf eos bos W O wfuel [] (Decoder.init (base64_to_bits compressed))

/-- The byte accumulation of `decompress` (lines 236-244) over the final
token list: concatenate each token's detokenization, dropping the leading
space byte of the first token when the tokenizer adds a space prefix
(`tokenizer_adds_space_prefix`, lines 219-223, abstracted as the Boolean
`spacePrefix`). -/
def renderBytes (detok : Nat → List Nat) (spacePrefix : Bool) : List Nat → List Nat
  | [] => []
  | t :: rest =>
    (if spacePrefix && decide ((detok t).headD 0 = 32) && !(detok t).isEmpty
      then (detok t).tail else detok t) ++ (rest.map detok).flatten

/-! ## Predictive-loop lemmas -/

theorem encodeAll_append : ∀ (a b : List (List Nat × Nat)) (e : Encoder),
    encodeAll e (a ++ b) = encodeAll (encodeAll e a) b := by
  intro a
  induction a with
  | nil => intro b e; rfl
  | cons p a ih =>
    intro b e
    rw [List.cons_append, encodeAll_cons, encodeAll_cons, ih]

/-- One synchronized decode step: the decoder recovers the encoded symbol
and stays synchronized (the step of `decodeAll_sim`, factored out). -/
theorem decode_step (e : Encoder) (d : Decoder) (p : List Nat × Nat)
    (rest : List (List Nat × Nat))
    (hi : StateInv e.low e.high) (hc : ValidCdf p.1) (hs : p.2 < p.1.length)
    (hvrest : ValidPairs rest)
    (hB : Bits01 ((encodeAll e (p :: rest)).encoded_data ++ [1]))
    (hsync : SyncRel e d ((encodeAll e (p :: rest)).encoded_data ++ [1])) :
    (d.decode_symbol p.1).1 = p.2 ∧
    SyncRel (e.encode_symbol p.1 p.2) (d.decode_symbol p.1).2
      ((encodeAll e (p :: rest)).encoded_data ++ [1]) ∧
    StateInv (e.encode_symbol p.1 p.2).low (e.encode_symbol p.1 p.2).high ∧
    (encodeAll e (p :: rest)).encoded_data ++ [1]
      = (encodeAll (e.encode_symbol p.1 p.2) rest).encoded_data ++ [1] := by
  obtain ⟨hi1, -, hlo, hhi, hev, -⟩ := encode_symbol_sim e p.1 p.2 hi hc hs
  have hBeq : (encodeAll e (p :: rest)).encoded_data
      = (encodeAll (e.encode_symbol p.1 p.2) rest).encoded_data := rfl
  rw [hBeq] at hB hsync ⊢
  set B := (encodeAll (e.encode_symbol p.1 p.2) rest).encoded_data ++ [1] with hBdef
  obtain ⟨hl1, hl2⟩ := encodeAll_loc rest (e.encode_symbol p.1 p.2) hi1 hvrest
  rw [hlo] at hl1
  rw [hhi] at hl2
  rw [hev (val01 B)] at hl1 hl2
  rw [opsAffine_le_iff] at hl1
  rw [opsAffine_lt_iff] at hl2
  obtain ⟨hsym, hsync2⟩ := decode_symbol_sim e d B p.1 p.2 hi hc hs hB hsync hl1 hl2
  exact ⟨hsym, hsync2, hi1, rfl⟩

theorem winSteps_le (W O N v : Nat) : winSteps W O N v ≤ N - v := by
  rw [winSteps]
  split <;> omega

theorem winPairs_length (W O bos : Nat) (tokens : List Nat) (v : Nat) :
    (winPairs W O bos tokens v).length = winSteps W O tokens.length v := by
  rw [winPairs, List.length_map, List.length_range]

theorem winPairs_getD (W O bos : Nat) (tokens : List Nat) (v i : Nat)
    (hi : i < winSteps W O tokens.length v) :
    (winPairs W O bos tokens v).getD i ([], 0)
      = (bos :: ((tokens.take (v + i)).drop (v - min v O)), tokens.getD (v + i) 0) := by
  rw [winPairs, List.getD_eq_getElem?_getD, List.getElem?_map, List.getElem?_range hi]
  rfl

theorem range_map_getD (tokens : List Nat) : ∀ (m v : Nat), v + m ≤ tokens.length →
    (List.range m).map (fun k => tokens.getD (v + k) 0) = (tokens.drop v).take m := by
  intro m
  induction m with
  | zero => intro v _; rfl
  | succ m ih =>
    intro v hv
    have hvN : v < tokens.length := by omega
    rw [List.range_succ_eq_map, List.map_cons, List.map_map]
    have h1 : ((fun k => tokens.getD (v + k) 0) ∘ Nat.succ)
        = fun k => tokens.getD (v + 1 + k) 0 := by
      funext k
      show tokens.getD (v + (k + 1)) 0 = tokens.getD (v + 1 + k) 0
      have he : v + (k + 1) = v + 1 + k := by omega
      rw [he]
    rw [h1, ih (v + 1) (by omega)]
    rw [List.drop_eq_getElem_cons hvN, List.take_succ_cons]
    have hgd : tokens.getD (v + 0) 0 = tokens[v] := by
      rw [List.getD_eq_getElem?_getD, Nat.add_zero, List.getElem?_eq_getElem hvN]
      rfl
    rw [hgd]

theorem winPairs_snd (W O bos : Nat) (tokens : List Nat) (v : Nat) :
    (winPairs W O bos tokens v).map Prod.snd
      = (tokens.drop v).take (winSteps W O tokens.length v) := by
  by_cases hv : v < tokens.length
  · have hle := winSteps_le W O tokens.length v
    rw [winPairs, List.map_map]
    exact range_map_getD tokens (winSteps W O tokens.length v) v (by omega)
  · have h0 : winSteps W O tokens.length v = 0 := by
      rw [winSteps]
      split <;> omega
    rw [winPairs, h0]
    rfl

theorem windowPairs_eq_pos (W O bos : Nat) (tokens : List Nat) (v : Nat)
    (h : v < tokens.length) :
    windowPairs W O bos tokens v
      = winPairs W O bos tokens v
        ++ windowPairs W O bos tokens (v + winSteps W O tokens.length v) := by
  rw [windowPairs]
  rw [dif_pos h]

theorem windowPairs_eq_neg (W O bos : Nat) (tokens : List Nat) (v : Nat)
    (h : ¬ v < tokens.length) :
    windowPairs W O bos tokens v = [] := by
  rw [windowPairs]
  rw [dif_neg h]

theorem windowPairs_snd (W O bos : Nat) (tokens : List Nat) :
    ∀ v, (windowPairs W O bos tokens v).map Prod.snd = tokens.drop v := by
  intro v
  induction v using windowPairs.induct W O bos tokens with
  | case1 v h ih =>
    rw [windowPairs_eq_pos W O bos tokens v h, List.map_append, winPairs_snd, ih]
    rw [← List.drop_drop]
    exact List.take_append_drop _ _
  | case2 v h =>
    rw [windowPairs_eq_neg W O bos tokens v h]
    rw [List.drop_eq_nil_of_le (Nat.le_of_not_lt h)]
    rfl

/-! ## Trailing-zero invariance of the decoder

`bits_to_base64` strips trailing zero bits and zero-pads to a six-bit
boundary; `read_code_bit` serves 0 once the input is exhausted (line 103),
so the decoder's behaviour only depends on the input stream up to trailing
zeros. -/

theorem readCodeBit_pad (l : List Nat) (j : Nat) :
    (readCodeBit (l ++ List.replicate j 0)).1 = (readCodeBit l).1 ∧
    ∃ j', (readCodeBit (l ++ List.replicate j 0)).2
      = (readCodeBit l).2 ++ List.replicate j' 0 := by
  cases l with
  | nil =>
    cases j with
    | zero => exact ⟨rfl, 0, rfl⟩
    | succ jj => exact ⟨rfl, jj, rfl⟩
  | cons b r => exact ⟨rfl, j, rfl⟩

theorem initCode_pad : ∀ (k : Nat) (l : List Nat) (j : Nat),
    (initCode k (l ++ List.replicate j 0)).1 = (initCode k l).1 ∧
    ∃ j', (initCode k (l ++ List.replicate j 0)).2
      = (initCode k l).2 ++ List.replicate j' 0 := by
  intro k
  induction k with
  | zero => exact fun l j => ⟨rfl, j, rfl⟩
  | succ k ih =>
    intro l j
    obtain ⟨hb, j1, ht⟩ := readCodeBit_pad l j
    obtain ⟨hc, j2, hr⟩ := ih (readCodeBit l).2 j1
    rw [initCode, initCode]
    dsimp only
    rw [ht, hb, hc, hr]
    exact ⟨rfl, j2, rfl⟩

/-- Two decoder states equal except that the second's input carries extra
trailing zeros. -/
def DEq (d1 d2 : Decoder) : Prop :=
  d1.low = d2.low ∧ d1.high = d2.high ∧ d1.code = d2.code ∧
  ∃ j, d2.input = d1.input ++ List.replicate j 0

theorem DEq_init (l : List Nat) (j : Nat) :
    DEq (Decoder.init l) (Decoder.init (l ++ List.replicate j 0)) := by
  obtain ⟨hc, j', ht⟩ := initCode_pad NUM_STATE_BITS l j
  exact ⟨rfl, rfl, hc.symm, j', ht⟩

theorem applyOps_pad : ∀ (ops : List ROp) (d1 d2 : Decoder), DEq d1 d2 →
    DEq (d1.applyOps ops) (d2.applyOps ops) := by
  intro ops
  induction ops with
  | nil => exact fun d1 d2 h => h
  | cons op ops ih =>
    intro d1 d2 h
    obtain ⟨hl, hh, hc, j, hin⟩ := h
    obtain ⟨hb, j', ht⟩ := readCodeBit_pad d1.input j
    cases op with
    | shiftOp b =>
      rw [Decoder.applyOps, Decoder.applyOps]
      apply ih
      rw [hin]
      exact ⟨hl, hh, by rw [hc, hb], j', ht⟩
    | underOp =>
      rw [Decoder.applyOps, Decoder.applyOps]
      apply ih
      rw [hin]
      exact ⟨hl, hh, by rw [hc, hb], j', ht⟩

theorem decode_symbol_pad (d1 d2 : Decoder) (c : List Nat) (h : DEq d1 d2) :
    (d1.decode_symbol c).1 = (d2.decode_symbol c).1 ∧
    DEq (d1.decode_symbol c).2 (d2.decode_symbol c).2 := by
  obtain ⟨hl, hh, hc, j, hin⟩ := h
  rw [Decoder.decode_symbol, Decoder.decode_symbol]
  dsimp only
  rw [← hl, ← hh, ← hc]
  refine ⟨rfl, ?_⟩
  have hops := applyOps_pad (update d1.low d1.high c
    (searchsortedRight c (((d1.code - d1.low + 1) * cdfTotal c - 1) / (d1.high - d1.low + 1)))).2.2
    d1 d2 ⟨hl, hh, hc, j, hin⟩
  obtain ⟨al, ah, ac, j', ain⟩ := hops
  exact ⟨rfl, rfl, ac, j', ain⟩

theorem winDecode_pad (cdfOf : List Nat → List Nat) (eos bos start W : Nat) :
    ∀ (fuel : Nat) (toks : List Nat) (d1 d2 : Decoder), DEq d1 d2 →
    (winDecode cdfOf eos bos start W fuel toks d1).1
      = (winDecode cdfOf eos bos start W fuel toks d2).1 ∧
    DEq (winDecode cdfOf eos bos start W fuel toks d1).2.1
      (winDecode cdfOf eos bos start W fuel toks d2).2.1 ∧
    (winDecode cdfOf eos bos start W fuel toks d1).2.2
      = (winDecode cdfOf eos bos start W fuel toks d2).2.2 := by
  intro fuel
  induction fuel with
  | zero => exact fun toks d1 d2 h => ⟨rfl, h, rfl⟩
  | succ fuel ih =>
    intro toks d1 d2 h
    obtain ⟨hs, hd⟩ := decode_symbol_pad d1 d2 (cdfOf (bos :: toks.drop start)) h
    rw [winDecode, winDecode]
    rw [← hs]
    by_cases he : (d1.decode_symbol (cdfOf (bos :: toks.drop start))).1 = eos
    · rw [if_pos he, if_pos he]
      exact ⟨rfl, hd, rfl⟩
    · rw [if_neg he, if_neg he]
      by_cases hw : toks.length + 1 - start = W
      · rw [if_pos hw, if_pos hw]
        exact ⟨rfl, hd, rfl⟩
      · rw [if_neg hw, if_neg hw]
        exact ih _ _ _ hd

theorem decompressLoop_pad (cdfOf : List Nat → List Nat) (eos bos W O : Nat) :
    ∀ (wfuel : Nat) (toks : List Nat) (d1 d2 : Decoder), DEq d1 d2 →
    decompressLoop cdfOf eos bos W O wfuel toks d1
      = decompressLoop cdfOf eos bos W O wfuel toks d2 := by
  intro wfuel
  induction wfuel with
  | zero => exact fun _ _ _ _ => rfl
  | succ wfuel ih =>
    intro toks d1 d2 h
    obtain ⟨h1, h2, h3⟩ := winDecode_pad cdfOf eos bos (toks.length - min toks.length O)
      W (W + 1) toks d1 d2 h
    rw [decompressLoop, decompressLoop]
    rw [← h1, ← h3]
    by_cases hdone : (winDecode cdfOf eos bos (toks.length - min toks.length O)
        W (W + 1) toks d1).2.2 = true
    · rw [if_pos hdone, if_pos hdone]
    · rw [if_neg hdone, if_neg hdone]
      exact ih _ _ _ h2

/-! ## Unpacking the packed stream -/

theorem indexOf_getD_base64 : ∀ v : Nat, v < 64 →
    List.indexOf (BASE64.getD v 'A') BASE64 = v := by
  decide

theorem bitsOfIdx_bitsVal (b1 b2 b3 b4 b5 b6 : Nat)
    (h1 : b1 ≤ 1) (h2 : b2 ≤ 1) (h3 : b3 ≤ 1) (h4 : b4 ≤ 1) (h5 : b5 ≤ 1)
    (h6 : b6 ≤ 1) :
    bitsOfIdx (bitsVal [b1, b2, b3, b4, b5, b6]) = [b1, b2, b3, b4, b5, b6] := by
  rw [bitsVal, bitsOfIdx]
  simp only [List.foldl]
  refine congrArg₂ _ ?_ (congrArg₂ _ ?_ (congrArg₂ _ ?_ (congrArg₂ _ ?_
    (congrArg₂ _ ?_ (congrArg₂ _ ?_ rfl))))) <;> omega

theorem bitsVal_six_lt (b1 b2 b3 b4 b5 b6 : Nat)
    (h1 : b1 ≤ 1) (h2 : b2 ≤ 1) (h3 : b3 ≤ 1) (h4 : b4 ≤ 1) (h5 : b5 ≤ 1)
    (h6 : b6 ≤ 1) :
    bitsVal [b1, b2, b3, b4, b5, b6] < 64 := by
  rw [bitsVal]
  simp only [List.foldl]
  omega

theorem base64_unpack_chunks : ∀ bs : List Nat, bs.length % 6 = 0 → Bits01 bs →
    base64_to_bits (encodeChunks bs) = bs
  | [] => by intro _ _; rfl
  | [_] => by intro h _; simp at h
  | [_, _] => by intro h _; simp at h
  | [_, _, _] => by intro h _; simp at h
  | [_, _, _, _] => by intro h _; simp at h
  | [_, _, _, _, _] => by intro h _; simp at h
  | b1 :: b2 :: b3 :: b4 :: b5 :: b6 :: rest => by
    intro hlen hb
    have g1 : b1 ≤ 1 := hb b1 (by simp)
    have g2 : b2 ≤ 1 := hb b2 (by simp)
    have g3 : b3 ≤ 1 := hb b3 (by simp)
    have g4 : b4 ≤ 1 := hb b4 (by simp)
    have g5 : b5 ≤ 1 := hb b5 (by simp)
    have g6 : b6 ≤ 1 := hb b6 (by simp)
    have hrest : Bits01 rest := fun b hbm => hb b (by simp [hbm])
    have hlen6 : rest.length % 6 = 0 := by
      simp only [List.length_cons] at hlen
      omega
    rw [encodeChunks, base64_to_bits_cons,
      indexOf_getD_base64 _ (bitsVal_six_lt b1 b2 b3 b4 b5 b6 g1 g2 g3 g4 g5 g6),
      bitsOfIdx_bitsVal b1 b2 b3 b4 b5 b6 g1 g2 g3 g4 g5 g6,
      base64_unpack_chunks rest hlen6 hrest]
    rfl

/-- Unpack-of-pack: the decoder-visible content survives, up to trailing
zeros relative to the stripped stream. -/
theorem base64_roundtrip_strip (bits : List Nat) (hb : Bits01 bits) :
    base64_to_bits (bits_to_base64 bits)
      = stripTrailingZeros bits
        ++ List.replicate ((6 - (stripTrailingZeros bits).length % 6) % 6) 0 := by
  have hstrip01 : Bits01 (stripTrailingZeros bits) := by
    intro b hbm
    apply hb
    rw [stripTrailingZeros] at hbm
    have h1 := List.mem_reverse.mp hbm
    have h2 := List.dropWhile_subset (fun b => decide (b = 0)) (l := bits.reverse) h1
    exact List.mem_reverse.mp h2
  have hpad01 : Bits01 (padToSix (stripTrailingZeros bits)) := by
    intro b hbm
    rw [padToSix] at hbm
    rcases List.mem_append.mp hbm with h | h
    · exact hstrip01 b h
    · rw [List.eq_of_mem_replicate h]
      omega
  have hlen : (padToSix (stripTrailingZeros bits)).length % 6 = 0 := by
    rw [padToSix, List.length_append, List.length_replicate]
    omega
  rw [bits_to_base64, base64_unpack_chunks _ hlen hpad01, padToSix]

/-- One `generate` window of `decompress`, synchronized with the encoder:
the decoder replays the window's encode steps `wrem` (stream suffix
`wrem ++ after`), appending each decoded token; the window's last step
either decodes EOS (stopping with `done`) or hits the context-length stop,
leaving the states synchronized for the next window. -/
theorem winDecode_window (cdfOf : List Nat → List Nat) (eos bos start W : Nat)
    (B : List Nat) (hB : Bits01 B) :
    ∀ (wrem : List (List Nat × Nat)), wrem ≠ [] →
    ∀ (after : List (List Nat × Nat)) (toks : List Nat) (e : Encoder) (d : Decoder)
      (fuel : Nat),
    StateInv e.low e.high →
    ValidPairs (wrem ++ after) →
    SyncRel e d B →
    B = (encodeAll e (wrem ++ after)).encoded_data ++ [1] →
    wrem.length ≤ fuel →
    start ≤ toks.length →
    (∀ i, i < wrem.length →
      (wrem.getD i ([], 0)).1
        = cdfOf (bos :: ((toks ++ (wrem.map Prod.snd).take i).drop start))) →
    (∀ i, i + 1 < wrem.length → (wrem.getD i ([], 0)).2 ≠ eos) →
    (∀ i, i + 1 < wrem.length → toks.length + (i + 1) - start ≠ W) →
    ((wrem.getD (wrem.length - 1) ([], 0)).2 = eos ∨
      ((wrem.getD (wrem.length - 1) ([], 0)).2 ≠ eos ∧
        toks.length + wrem.length - start = W)) →
    ∃ d',
      ((wrem.getD (wrem.length - 1) ([], 0)).2 = eos →
        winDecode cdfOf eos bos start W fuel toks d
          = (toks ++ (wrem.map Prod.snd).dropLast, d', true)) ∧
      ((wrem.getD (wrem.length - 1) ([], 0)).2 ≠ eos →
        winDecode cdfOf eos bos start W fuel toks d
          = (toks ++ wrem.map Prod.snd, d', false) ∧
        SyncRel (encodeAll e wrem) d' B ∧
        StateInv (encodeAll e wrem).low (encodeAll e wrem).high) := by
  intro wrem
  induction wrem with
  | nil => exact fun hne => absurd rfl hne
  | cons p rest ih =>
    intro _ after toks e d fuel hi hv hsync hBeq hfuel hstart hlink hmidne hmidcnt hstop
    rw [List.cons_append] at hv hBeq
    have hfuel1 : 1 ≤ fuel := by
      simp only [List.length_cons] at hfuel
      omega
    obtain ⟨f, rfl⟩ : ∃ f, fuel = f + 1 := ⟨fuel - 1, by omega⟩
    obtain ⟨hc, hs⟩ := hv p (List.mem_cons_self p (rest ++ after))
    have hvrest : ValidPairs (rest ++ after) :=
      fun q hq => hv q (List.mem_cons_of_mem p hq)
    have hl0 : p.1 = cdfOf (bos :: toks.drop start) := by
      have h := hlink 0 (by simp only [List.length_cons]; omega)
      rw [List.getD_cons_zero] at h
      rw [h]
      rw [List.take_zero, List.append_nil]
    have hB' : Bits01 ((encodeAll e (p :: (rest ++ after))).encoded_data ++ [1]) := by
      rw [← hBeq]
      exact hB
    have hsync' : SyncRel e d ((encodeAll e (p :: (rest ++ after))).encoded_data ++ [1]) := by
      rw [← hBeq]
      exact hsync
    obtain ⟨hsym, hsync2, hi2, hstream⟩ :=
      decode_step e d p (rest ++ after) hi hc hs hvrest hB' hsync'
    have hsync2B : SyncRel (e.encode_symbol p.1 p.2) (d.decode_symbol p.1).2 B := by
      rw [hBeq]
      exact hsync2
    have hBeq2 : B = (encodeAll (e.encode_symbol p.1 p.2) (rest ++ after)).encoded_data
        ++ [1] := by
      rw [hBeq]
      exact hstream
    cases rest with
    | nil =>
      have hidx : (p :: ([] : List (List Nat × Nat))).length - 1 = 0 := rfl
      rw [hidx, List.getD_cons_zero] at hstop ⊢
      rcases hstop with heos | hcount
      · refine ⟨(d.decode_symbol p.1).2, fun _ => ?_, fun hne => absurd heos hne⟩
        rw [winDecode]
        rw [← hl0]
        rw [if_pos (by rw [hsym]; exact heos)]
        simp
      · have hcnt : toks.length + 1 - start = W := by
          have h2 := hcount.2
          simp only [List.length_cons, List.length_nil] at h2
          omega
        refine ⟨(d.decode_symbol p.1).2, fun heq => absurd heq hcount.1, fun _ => ?_⟩
        rw [winDecode]
        rw [← hl0]
        rw [if_neg (by rw [hsym]; exact hcount.1), if_pos hcnt, hsym]
        exact ⟨rfl, hsync2B, hi2⟩
    | cons q rest' =>
      have hpne : p.2 ≠ eos := by
        have h := hmidne 0 (by simp only [List.length_cons]; omega)
        rw [List.getD_cons_zero] at h
        exact h
      have hcnt0 : toks.length + 1 - start ≠ W :=
        hmidcnt 0 (by simp only [List.length_cons]; omega)
      have hshift : ∀ i, ((p :: q :: rest').getD (i + 1) ([], 0))
          = ((q :: rest').getD i ([], 0)) := fun i => List.getD_cons_succ
      obtain ⟨d', hE, hC⟩ := ih (by exact List.cons_ne_nil q rest') after (toks ++ [p.2])
        (e.encode_symbol p.1 p.2) (d.decode_symbol p.1).2 f hi2 hvrest hsync2B hBeq2
        (by simp only [List.length_cons] at hfuel ⊢; omega)
        (by simp only [List.length_append, List.length_cons, List.length_nil]; omega)
        (fun i hilt => by
          have h := hlink (i + 1) (by simp only [List.length_cons] at hilt ⊢; omega)
          rw [hshift i] at h
          rw [h, List.map_cons, List.take_succ_cons, List.append_cons]
        )
        (fun i hilt => by
          have h := hmidne (i + 1) (by simp only [List.length_cons] at hilt ⊢; omega)
          rw [hshift i] at h
          exact h)
        (fun i hilt => by
          have h := hmidcnt (i + 1) (by simp only [List.length_cons] at hilt ⊢; omega)
          have he : (toks ++ [p.2]).length + (i + 1) - start
              = toks.length + (i + 1 + 1) - start := by
            simp only [List.length_append, List.length_cons, List.length_nil]
            omega
          rw [he]
          exact h)
        (by
          have he : (p :: q :: rest').length - 1 = ((q :: rest').length - 1) + 1 := by
            simp only [List.length_cons]
            omega
          rw [he, hshift ((q :: rest').length - 1)] at hstop
          have he2 : (toks ++ [p.2]).length + (q :: rest').length - start
              = toks.length + (p :: q :: rest').length - start := by
            simp only [List.length_append, List.length_cons, List.length_nil]
            omega
          rw [he2]
          exact hstop)
      have hlast : (p :: q :: rest').getD ((p :: q :: rest').length - 1) ([], 0)
          = (q :: rest').getD ((q :: rest').length - 1) ([], 0) := by
        have he : (p :: q :: rest').length - 1 = ((q :: rest').length - 1) + 1 := by
          simp only [List.length_cons]
          omega
        rw [he, hshift ((q :: rest').length - 1)]
      refine ⟨d', ?_, ?_⟩
      · intro heq
        rw [hlast] at heq
        rw [winDecode]
        rw [← hl0]
        rw [if_neg (by rw [hsym]; exact hpne), if_neg hcnt0, hsym, hE heq]
        rw [show ((p :: q :: rest').map Prod.snd).dropLast
            = p.2 :: ((q :: rest').map Prod.snd).dropLast from rfl]
        rw [List.append_assoc, List.singleton_append]
      · intro hne
        rw [hlast] at hne
        obtain ⟨hrun, hsy, hsi⟩ := hC hne
        refine ⟨?_, ?_, ?_⟩
        · rw [winDecode]
          rw [← hl0]
          rw [if_neg (by rw [hsym]; exact hpne), if_neg hcnt0, hsym, hrun]
          rw [show (p :: q :: rest').map Prod.snd = p.2 :: (q :: rest').map Prod.snd
            from rfl]
          rw [List.append_assoc, List.singleton_append]
        · rw [encodeAll_cons]
          exact hsy
        · rw [encodeAll_cons]
          exact hsi

theorem getD_map_pair (l : List (List Nat × Nat)) (g : List Nat → List Nat) (i : Nat)
    (h : i < l.length) :
    (l.map (fun p => (g p.1, p.2))).getD i ([], 0)
      = (g (l.getD i ([], 0)).1, (l.getD i ([], 0)).2) := by
  rw [List.getD_eq_getElem?_getD, List.getElem?_map, List.getElem?_eq_getElem h,
    List.getD_eq_getElem?_getD, List.getElem?_eq_getElem h]
  rfl

theorem map_snd_map_pair (l : List (List Nat × Nat)) (g : List Nat → List Nat) :
    (l.map (fun p => (g p.1, p.2))).map Prod.snd = l.map Prod.snd := by
  rw [List.map_map]
  rfl

theorem tokens_getD_ne_eos (tokens0 : List Nat) (eos : Nat) (heos : eos ∉ tokens0)
    (i : Nat) (hi : i < tokens0.length) : (tokens0 ++ [eos]).getD i 0 ≠ eos := by
  rw [List.getD_eq_getElem?_getD, List.getElem?_append_left hi,
    List.getElem?_eq_getElem hi, Option.getD_some]
  intro hcon
  apply heos
  rw [← hcon]
  exact List.getElem_mem hi

theorem tokens_getD_last (tokens0 : List Nat) (eos : Nat) :
    (tokens0 ++ [eos]).getD tokens0.length 0 = eos := by
  rw [List.getD_eq_getElem?_getD, List.getElem?_append_right (le_refl tokens0.length),
    Nat.sub_self]
  rfl

/-- The outer `while not done` loop of `decompress`, run from any window
boundary `v` in sync with the encoder's remaining stream, terminates with
`done` and exactly the input tokens (EOS excluded). -/
theorem decompressLoop_sim (cdfOf : List Nat → List Nat) (W O bos eos : Nat)
    (tokens0 : List Nat) (hO : O < W) (heos : eos ∉ tokens0)
    (hval : ∀ ctx : List Nat, ValidCdf (cdfOf ctx))
    (hrange : ∀ ctx : List Nat, ∀ t ∈ tokens0 ++ [eos], t < (cdfOf ctx).length)
    (B : List Nat) (hB : Bits01 B) :
    ∀ (wfuel : Nat), ∀ (v : Nat) (e : Encoder) (d : Decoder),
    v < (tokens0 ++ [eos]).length →
    (tokens0 ++ [eos]).length - v ≤ wfuel →
    StateInv e.low e.high →
    SyncRel e d B →
    B = (encodeAll e ((windowPairs W O bos (tokens0 ++ [eos]) v).map
        (fun p => (cdfOf p.1, p.2)))).encoded_data ++ [1] →
    decompressLoop cdfOf eos bos W O wfuel ((tokens0 ++ [eos]).take v) d
      = some tokens0 := by
  intro wfuel
  induction wfuel with
  | zero =>
    intro v e d hv hle _ _ _
    omega
  | succ wfuel ih =>
    intro v e d hv hle hsi hsync hBeq
    have hN : (tokens0 ++ [eos]).length = tokens0.length + 1 := by
      rw [List.length_append, List.length_cons, List.length_nil]
    set m := winSteps W O (tokens0 ++ [eos]).length v with hmdef
    have hminOW : min v O < W := by omega
    have hm : m = min (W - min v O) ((tokens0 ++ [eos]).length - v) := by
      rw [hmdef, winSteps, if_pos hminOW]
    have hm1 : 1 ≤ m := winSteps_pos W O (tokens0 ++ [eos]).length v hv
    have hmN : m ≤ (tokens0 ++ [eos]).length - v := winSteps_le W O _ v
    have hmW : m ≤ W - min v O := by omega
    have hsplit : windowPairs W O bos (tokens0 ++ [eos]) v
        = winPairs W O bos (tokens0 ++ [eos]) v
          ++ windowPairs W O bos (tokens0 ++ [eos]) (v + m) :=
      windowPairs_eq_pos W O bos (tokens0 ++ [eos]) v hv
    set wrem := (winPairs W O bos (tokens0 ++ [eos]) v).map
      (fun p => (cdfOf p.1, p.2)) with hwremdef
    set after := (windowPairs W O bos (tokens0 ++ [eos]) (v + m)).map
      (fun p => (cdfOf p.1, p.2)) with hafterdef
    have hwlen : wrem.length = m := by
      rw [hwremdef, List.length_map, winPairs_length]
    have hBeq' : B = (encodeAll e (wrem ++ after)).encoded_data ++ [1] := by
      rw [hBeq, hsplit, List.map_append]
    have hVP : ValidPairs (wrem ++ after) := by
      intro pr hpr
      rw [hwremdef, hafterdef, ← List.map_append, ← hsplit] at hpr
      obtain ⟨p, hp, rfl⟩ := List.mem_map.mp hpr
      refine ⟨hval p.1, hrange p.1 p.2 ?_⟩
      have hmem : p.2 ∈ (windowPairs W O bos (tokens0 ++ [eos]) v).map Prod.snd :=
        List.mem_map.mpr ⟨p, hp, rfl⟩
      rw [windowPairs_snd] at hmem
      exact List.drop_subset v _ hmem
    have hwget : ∀ i, i < m → wrem.getD i ([], 0)
        = (cdfOf (bos :: (((tokens0 ++ [eos]).take (v + i)).drop (v - min v O))),
          (tokens0 ++ [eos]).getD (v + i) 0) := by
      intro i him
      rw [hwremdef, getD_map_pair _ _ _ (by rw [winPairs_length]; exact him),
        winPairs_getD W O bos (tokens0 ++ [eos]) v i him]
    have hwsnd : wrem.map Prod.snd = ((tokens0 ++ [eos]).drop v).take m := by
      rw [hwremdef, map_snd_map_pair, winPairs_snd]
    have htklen : ((tokens0 ++ [eos]).take v).length = v := by
      rw [List.length_take]
      omega
    have hwne : wrem ≠ [] := by
      apply List.ne_nil_of_length_pos
      rw [hwlen]
      omega
    obtain ⟨d', hE, hC⟩ := winDecode_window cdfOf eos bos (v - min v O) W B hB
      wrem hwne after ((tokens0 ++ [eos]).take v) e d (W + 1) hsi hVP hsync hBeq'
      (by rw [hwlen]; omega)
      (by rw [htklen]; omega)
      (fun i him' => by
        rw [hwlen] at him'
        rw [hwget i him']
        rw [hwsnd, List.take_take, min_eq_left (le_of_lt him'), ← List.take_add])
      (fun i him' => by
        rw [hwlen] at him'
        rw [hwget i (by omega)]
        apply tokens_getD_ne_eos tokens0 eos heos
        omega)
      (fun i him' => by
        rw [hwlen] at him'
        rw [htklen]
        omega)
      (by
        by_cases hcase : v + m = (tokens0 ++ [eos]).length
        · left
          rw [hwlen, hwget (m - 1) (by omega)]
          have hidx : v + (m - 1) = tokens0.length := by omega
          rw [hidx]
          exact tokens_getD_last tokens0 eos
        · right
          constructor
          · rw [hwlen, hwget (m - 1) (by omega)]
            apply tokens_getD_ne_eos tokens0 eos heos
            omega
          · rw [hwlen, htklen]
            omega)
    rw [decompressLoop]
    rw [htklen]
    by_cases hcase : v + m = (tokens0 ++ [eos]).length
    · have hlasteq : (wrem.getD (wrem.length - 1) ([], 0)).2 = eos := by
        rw [hwlen, hwget (m - 1) (by omega)]
        have hidx : v + (m - 1) = tokens0.length := by omega
        rw [hidx]
        exact tokens_getD_last tokens0 eos
      rw [hE hlasteq]
      rw [if_pos rfl]
      rw [hwsnd, List.dropLast_eq_take, List.length_take, List.length_drop]
      rw [min_eq_left (by omega), List.take_take, min_eq_left (by omega)]
      rw [← List.take_add]
      have hidx : v + (m - 1) = tokens0.length := by omega
      rw [hidx, List.take_left]
    · have hlastne : (wrem.getD (wrem.length - 1) ([], 0)).2 ≠ eos := by
        rw [hwlen, hwget (m - 1) (by omega)]
        apply tokens_getD_ne_eos tokens0 eos heos
        omega
      obtain ⟨hrun, hsy, hsi2⟩ := hC hlastne
      rw [hrun]
      rw [if_neg Bool.false_ne_true]
      rw [hwsnd, ← List.take_add]
      apply ih (v + m) (encodeAll e wrem) d' (by omega) (by omega) hsi2 hsy
      rw [hBeq', encodeAll_append]

/-- Master round trip: decompressing the compressed token stream with the
same context-to-cdf oracle, context length and overlap recovers exactly the
input tokens. -/
theorem decompress_compress (cdfOf : List Nat → List Nat) (W O bos eos : Nat)
    (tokens0 : List Nat) (hO : O < W) (heos : eos ∉ tokens0)
    (hval : ∀ ctx : List Nat, ValidCdf (cdfOf ctx))
    (hrange : ∀ ctx : List Nat, ∀ t ∈ tokens0 ++ [eos], t < (cdfOf ctx).length) :
    decompressToks cdfOf eos bos W O (tokens0.length + 1)
      (compress cdfOf W O bos eos tokens0) = some tokens0 := by
  set ps := compressPairs cdfOf W O bos eos tokens0 with hps
  set B := (encodeAll Encoder.init ps).finish.get_encoded with hBdef
  have hVP : ValidPairs ps := by
    intro pr hpr
    rw [hps, compressPairs] at hpr
    obtain ⟨p, hp, rfl⟩ := List.mem_map.mp hpr
    refine ⟨hval p.1, hrange p.1 p.2 ?_⟩
    have hmem : p.2 ∈ (windowPairs W O bos (tokens0 ++ [eos]) 0).map Prod.snd :=
      List.mem_map.mpr ⟨p, hp, rfl⟩
    rw [windowPairs_snd] at hmem
    exact List.drop_subset 0 _ hmem
  have hbits0 : Bits01 Encoder.init.encoded_data :=
    fun b hb => absurd hb (List.not_mem_nil b)
  obtain ⟨-, hbits⟩ := encodeAll_inv ps Encoder.init StateInv_init hVP
  have hB01 : Bits01 B := by
    rw [hBdef, finish_get_encoded]
    intro b hb
    rcases List.mem_append.mp hb with h1 | h2
    · exact hbits hbits0 b h1
    · rcases List.mem_cons.mp h2 with rfl | h3
      · exact le_refl 1
      · exact absurd h3 (List.not_mem_nil b)
  have hN : (tokens0 ++ [eos]).length = tokens0.length + 1 := by
    rw [List.length_append, List.length_cons, List.length_nil]
  have hcomp : compress cdfOf W O bos eos tokens0 = bits_to_base64 B := rfl
  rw [decompressToks, hcomp, base64_roundtrip_strip B hB01]
  have hd1 : DEq (Decoder.init (stripTrailingZeros B))
      (Decoder.init (stripTrailingZeros B
        ++ List.replicate ((6 - (stripTrailingZeros B).length % 6) % 6) 0)) :=
    DEq_init (stripTrailingZeros B) _
  have hd2 : DEq (Decoder.init (stripTrailingZeros B)) (Decoder.init B) := by
    have hrep := stripTrailingZeros_concat_replicate B
    have := DEq_init (stripTrailingZeros B) (B.length - (stripTrailingZeros B).length)
    rw [hrep] at this
    exact this
  rw [← decompressLoop_pad cdfOf eos bos W O (tokens0.length + 1) [] _ _ hd1]
  rw [decompressLoop_pad cdfOf eos bos W O (tokens0.length + 1) [] _ _ hd2]
  have htake0 : ([] : List Nat) = (tokens0 ++ [eos]).take 0 := rfl
  rw [htake0]
  apply decompressLoop_sim cdfOf W O bos eos tokens0 hO heos hval hrange B hB01
    (tokens0.length + 1) 0 Encoder.init (Decoder.init B) (by omega) (by omega)
    StateInv_init (SyncRel_init B)
  rw [hBdef, finish_get_encoded, hps, compressPairs]

/-! ## The interrupted run -/

theorem getD_take (l : List Nat) (k i : Nat) (h : i < k) :
    (l.take k).getD i 0 = l.getD i 0 := by
  rw [List.getD_eq_getElem?_getD, List.getD_eq_getElem?_getD, List.getElem?_take,
    if_pos h]

theorem take_eq_take_append (tokens0 : List Nat) (eos k n : Nat) (hn : n ≤ k)
    (hk : k ≤ tokens0.length) :
    (tokens0.take k ++ [eos]).take n = (tokens0 ++ [eos]).take n := by
  rw [List.take_append_of_le_length (by rw [List.length_take]; omega),
    List.take_append_of_le_length (by omega), List.take_take, min_eq_left hn]

theorem getD_eq_getD_append (tokens0 : List Nat) (eos k i : Nat) (hik : i < k)
    (hk : k ≤ tokens0.length) :
    (tokens0.take k ++ [eos]).getD i 0 = (tokens0 ++ [eos]).getD i 0 := by
  rw [List.getD_eq_getElem?_getD, List.getD_eq_getElem?_getD,
    List.getElem?_append_left (by rw [List.length_take]; omega),
    List.getElem?_append_left (by omega), List.getElem?_take, if_pos hik]

theorem windowPairsInt_eq_int (W O bos : Nat) (tokens : List Nat) (v k : Nat)
    (h : v < tokens.length)
    (hk : k < winSteps W O tokens.length v ∧ v + k < tokens.length - 1) :
    windowPairsInt W O bos tokens v k
      = ((List.range k).map (fun j =>
          (bos :: ((tokens.take (v + j)).drop (v - min v O)), tokens.getD (v + j) 0)))
        ++ [(bos :: ((tokens.take (v + k)).drop (v - min v O)),
            tokens.getD (tokens.length - 1) 0)] := by
  rw [windowPairsInt]
  rw [dif_pos h, if_pos hk]

theorem windowPairsInt_eq_full (W O bos : Nat) (tokens : List Nat) (v k : Nat)
    (h : v < tokens.length)
    (hk : ¬(k < winSteps W O tokens.length v ∧ v + k < tokens.length - 1)) :
    windowPairsInt W O bos tokens v k
      = winPairs W O bos tokens v
        ++ windowPairsInt W O bos tokens (v + winSteps W O tokens.length v)
          (k - winSteps W O tokens.length v) := by
  rw [windowPairsInt]
  rw [dif_pos h, if_neg hk]

/-- The interrupted run's encode steps are exactly the plain run's encode
steps on the truncated token list `tokens0.take k ++ [eos]`: window
boundaries before the interrupt depend only on position counts, the
contexts before step `k` slice identical prefixes, and the jumped-to EOS is
encoded against the same context as the truncated list's final EOS. -/
theorem windowPairsInt_eq_windowPairs (W O bos eos : Nat) (tokens0 : List Nat)
    (k : Nat) (hO : O < W) (hk : k < tokens0.length) :
    ∀ (r v : Nat), v ≤ k → k - v ≤ r →
    windowPairsInt W O bos (tokens0 ++ [eos]) v (k - v)
      = windowPairs W O bos (tokens0.take k ++ [eos]) v := by
  have hN1 : (tokens0 ++ [eos]).length = tokens0.length + 1 := by
    rw [List.length_append, List.length_cons, List.length_nil]
  have hN2 : (tokens0.take k ++ [eos]).length = k + 1 := by
    rw [List.length_append, List.length_take, List.length_cons, List.length_nil]
    omega
  intro r
  induction r using Nat.strong_induction_on with
  | _ r ih =>
    intro v hvk hr
    have hv1 : v < (tokens0 ++ [eos]).length := by omega
    have hv2 : v < (tokens0.take k ++ [eos]).length := by omega
    have hminOW : min v O < W := by omega
    by_cases hcase : k - v < winSteps W O (tokens0 ++ [eos]).length v
    · have hcond : k - v < winSteps W O (tokens0 ++ [eos]).length v
          ∧ v + (k - v) < (tokens0 ++ [eos]).length - 1 := ⟨hcase, by omega⟩
      rw [windowPairsInt_eq_int W O bos (tokens0 ++ [eos]) v (k - v) hv1 hcond]
      rw [winSteps, if_pos hminOW] at hcase
      have hm2v : winSteps W O (tokens0.take k ++ [eos]).length v = (k - v) + 1 := by
        rw [winSteps, if_pos hminOW, hN2]
        omega
      rw [windowPairs_eq_pos W O bos (tokens0.take k ++ [eos]) v hv2, hm2v]
      rw [windowPairs_eq_neg W O bos (tokens0.take k ++ [eos]) (v + (k - v + 1))
        (by rw [hN2]; omega)]
      rw [List.append_nil, winPairs, hm2v, List.range_succ, List.map_append]
      congr 1
      · apply List.map_congr_left
        intro j hj
        rw [List.mem_range] at hj
        have hvj : v + j < k := by omega
        rw [take_eq_take_append tokens0 eos k (v + j) (by omega) (by omega)]
        rw [getD_eq_getD_append tokens0 eos k (v + j) hvj (by omega)]
      · rw [List.map_cons, List.map_nil]
        have hsum : v + (k - v) = k := by omega
        rw [hsum]
        rw [take_eq_take_append tokens0 eos k k (le_refl k) (by omega)]
        have hL : (tokens0 ++ [eos]).getD ((tokens0 ++ [eos]).length - 1) 0 = eos := by
          have he : (tokens0 ++ [eos]).length - 1 = tokens0.length := by omega
          rw [he]
          exact tokens_getD_last tokens0 eos
        have hR : (tokens0.take k ++ [eos]).getD k 0 = eos := by
          have := tokens_getD_last (tokens0.take k) eos
          rw [List.length_take, min_eq_left (by omega)] at this
          exact this
        rw [hL, hR]
    · have hcond : ¬(k - v < winSteps W O (tokens0 ++ [eos]).length v
          ∧ v + (k - v) < (tokens0 ++ [eos]).length - 1) := by
        intro hcon
        exact hcase hcon.1
      rw [windowPairsInt_eq_full W O bos (tokens0 ++ [eos]) v (k - v) hv1 hcond]
      rw [winSteps, if_pos hminOW] at hcase
      have hm1v : winSteps W O (tokens0 ++ [eos]).length v = W - min v O := by
        rw [winSteps, if_pos hminOW]
        omega
      have hm2v : winSteps W O (tokens0.take k ++ [eos]).length v = W - min v O := by
        rw [winSteps, if_pos hminOW, hN2]
        omega
      rw [windowPairs_eq_pos W O bos (tokens0.take k ++ [eos]) v hv2]
      have hm1pos : 1 ≤ W - min v O := by omega
      congr 1
      · rw [winPairs, winPairs, hm1v, hm2v]
        apply List.map_congr_left
        intro j hj
        rw [List.mem_range] at hj
        have hvj : v + j < k := by omega
        rw [take_eq_take_append tokens0 eos k (v + j) (by omega) (by omega)]
        rw [getD_eq_getD_append tokens0 eos k (v + j) hvj (by omega)]
      · rw [hm1v, hm2v]
        have harg : k - v - (W - min v O) = k - (v + (W - min v O)) := by omega
        rw [harg]
        exact ih (k - (v + (W - min v O))) (by omega) (v + (W - min v O)) (by omega)
          (le_refl _)

/-! ## Claim theorems -/

/-- **C2.** For every finite sequence of (cdf, symbol) pairs where each cdf is
a strictly increasing sequence of positive integers with total mass at most
`2 ^ 62` and each symbol indexes a cdf entry, encoding every pair with
`Encoder.encode_symbol` followed by `Encoder.finish`, then constructing a
`Decoder` from the emitted bit list and calling `Decoder.decode_symbol` with
the same sequence of cdfs, yields back exactly the original symbols. -/
theorem claim_C2_coder_closure (ps : List (List Nat × Nat)) (hv : ValidPairs ps) :
    (decodeAll (Decoder.init ((encodeAll Encoder.init ps).finish.get_encoded))
        (ps.map Prod.fst)).1 = ps.map Prod.snd :=
  coder_closure ps hv

theorem claim_C2_witness :
    ValidPairs [([1, 2, 3], 2), ([1, 2, 3], 0), ([5, 6, 100, 4000000], 3),
        ([1, 4611686018427387904], 1), ([1, 2, 3], 1)] ∧
    (decodeAll (Decoder.init ((encodeAll Encoder.init
          [([1, 2, 3], 2), ([1, 2, 3], 0), ([5, 6, 100, 4000000], 3),
            ([1, 4611686018427387904], 1), ([1, 2, 3], 1)]).finish.get_encoded))
        ([([1, 2, 3], 2), ([1, 2, 3], 0), ([5, 6, 100, 4000000], 3),
            ([1, 4611686018427387904], 1), ([1, 2, 3], 1)].map Prod.fst)).1
      = [([1, 2, 3], 2), ([1, 2, 3], 0), ([5, 6, 100, 4000000], 3),
          ([1, 4611686018427387904], 1), ([1, 2, 3], 1)].map Prod.snd :=
  ⟨by decide, claim_C2_coder_closure _ (by decide)⟩

/-- **C3 counterexample.** At `low = QUARTER`, `high = HALF` the loop
condition `(low AND NOT high AND QUARTER) != 0` (bit 62 of `low` set, bit 62
of `high` clear) holds, yet the per-iteration assignment the claim specifies
(`underBodySpec`: `low = ((low XOR HALF) << 1) & MASK`,
`high = (((high XOR HALF) << 1) | 1) & MASK`) differs from the assignment the
code performs (`underBody`, lines 40-41). -/
theorem claim_C3_counterexample :
    (QUARTER &&& QUARTER ≠ 0 ∧ HALF &&& QUARTER = 0) ∧
    underBodySpec QUARTER HALF ≠ underBody QUARTER HALF := by
  decide

/-- **C3 (amended).** The near-convergence loop runs exactly while
`(low AND NOT high AND QUARTER) != 0`, and each iteration, after calling
`underflow()`, sets `low` to `(low << 1) XOR HALF` and `high` to
`((high XOR HALF) << 1) OR HALF OR 1` — the source's formulas, which stay
within 64 bits without masking on the reachable states
`low < HALF ≤ high < FULL`. -/
theorem claim_C3_amended (l h : Nat) (hl : l < HALF) (hh1 : HALF ≤ h) (hh2 : h < FULL) :
    ((l &&& QUARTER ≠ 0 ∧ h &&& QUARTER = 0) →
      underLoop l h
        = ((underLoop (underBody l h).1 (underBody l h).2).1,
          (underLoop (underBody l h).1 (underBody l h).2).2.1,
          ROp.underOp :: (underLoop (underBody l h).1 (underBody l h).2).2.2)) ∧
    (¬(l &&& QUARTER ≠ 0 ∧ h &&& QUARTER = 0) → underLoop l h = (l, h, [])) := by
  constructor
  · rintro ⟨ha1, ha2⟩
    have hql : QUARTER ≤ l := (and_QUARTER_low l hl).mp ha1
    have hhq : h < HALF + QUARTER := (and_QUARTER_high h hh1 hh2).mp ha2
    exact underLoop_eq_pos ⟨ha1, ha2, hql, hl, hh1, hhq⟩
  · intro hneg
    apply underLoop_eq_neg
    intro hfull
    exact hneg ⟨hfull.1, hfull.2.1⟩

theorem claim_C3_amended_witness :
    (QUARTER < HALF ∧ HALF ≤ HALF ∧ HALF < FULL) ∧
    (((QUARTER &&& QUARTER ≠ 0 ∧ HALF &&& QUARTER = 0) →
      underLoop QUARTER HALF
        = ((underLoop (underBody QUARTER HALF).1 (underBody QUARTER HALF).2).1,
          (underLoop (underBody QUARTER HALF).1 (underBody QUARTER HALF).2).2.1,
          ROp.underOp
            :: (underLoop (underBody QUARTER HALF).1 (underBody QUARTER HALF).2).2.2)) ∧
    (¬(QUARTER &&& QUARTER ≠ 0 ∧ HALF &&& QUARTER = 0) →
      underLoop QUARTER HALF = (QUARTER, HALF, []))) :=
  ⟨⟨by decide, le_refl HALF, by decide⟩,
    claim_C3_amended QUARTER HALF (by decide) (le_refl HALF) (by decide)⟩

/-- **C4.** For every probability vector (the builder's softmax output,
modelled exactly over ℚ with any rounding within 1/2 of its argument),
`compute_cdf` returns a table in which every per-symbol increment is at
least 1 (strictly increasing, first entry positive), and for vocabulary
size at most `2 ^ 30` with probabilities summing to at most 1, the total
mass is at most `QUARTER = 2 ^ 62`. -/
theorem claim_C4_cdf_builder (rnd : ℚ → ℤ) (probs : List ℚ)
    (hrnd : ∀ x : ℚ, |((rnd x : ℚ)) - x| ≤ 1 / 2)
    (hlen : probs.length ≤ 2 ^ 30) (hpos : ∀ p ∈ probs, 0 ≤ p) (hsum : probs.sum ≤ 1) :
    (∀ i : Nat, i + 1 < (compute_cdf rnd probs).length →
      (compute_cdf rnd probs).getD i 0 + 1 ≤ (compute_cdf rnd probs).getD (i + 1) 0) ∧
    (probs ≠ [] → 1 ≤ (compute_cdf rnd probs).getD 0 0) ∧
    ((compute_cdf rnd probs).getLast?).getD 0 ≤ (QUARTER : ℤ) := by
  refine ⟨?_, ?_, ?_⟩
  · intro i hi
    rw [compute_cdf, cumsum] at hi ⊢
    rw [cumsumFrom_length] at hi
    have hadj := cumsumFrom_adj (probs.map (fun p => max 1 (rnd ((FREQ_SCALE_FACTOR : ℚ) * p)))) 0 i hi
    have hmem : (probs.map (fun p => max 1 (rnd ((FREQ_SCALE_FACTOR : ℚ) * p)))).getD (i + 1) 0
        ∈ probs.map (fun p => max 1 (rnd ((FREQ_SCALE_FACTOR : ℚ) * p))) := by
      rw [List.getD_eq_getElem?_getD, List.getElem?_eq_getElem hi]
      exact List.getElem_mem _
    have hone := freqs_one_le rnd probs hmem
    rw [hadj]
    omega
  · intro hne
    cases hp : probs with
    | nil => exact absurd hp hne
    | cons p t =>
      rw [compute_cdf, List.map_cons, cumsum, cumsumFrom, List.getD_cons_zero]
      have := le_max_left (1 : ℤ) (rnd ((FREQ_SCALE_FACTOR : ℚ) * p))
      omega
  · cases hp : probs with
    | nil =>
      rw [compute_cdf]
      simp [cumsum, cumsumFrom]
    | cons p t =>
      have hne : (p :: t).map (fun p => max 1 (rnd ((FREQ_SCALE_FACTOR : ℚ) * p))) ≠ [] := by
        simp
      rw [compute_cdf, cumsum, cumsumFrom_getLast _ 0 hne, zero_add]
      have hq : (((p :: t).map (fun p => max 1 (rnd ((FREQ_SCALE_FACTOR : ℚ) * p)))).sum : ℚ)
          ≤ (p :: t).length + (FREQ_SCALE_FACTOR : ℚ) * (p :: t).sum :=
        freqs_sum_le rnd hrnd (p :: t) (hp ▸ hpos)
      have hS : ((FREQ_SCALE_FACTOR : Nat) : ℚ) = 4294967296 := by
        rw [FREQ_SCALE_FACTOR_eq]
        norm_num
      have hlenq : (((p :: t).length : ℕ) : ℚ) ≤ 1073741824 := by
        rw [← hp]
        exact_mod_cast hlen
      have hsumq : (p :: t).sum ≤ 1 := hp ▸ hsum
      have hsum0 : (0 : ℚ) ≤ (p :: t).sum := List.sum_nonneg (hp ▸ hpos)
      have hQq : ((QUARTER : Nat) : ℚ) = 4611686018427387904 := by
        rw [QUARTER_eq]
        norm_num
      have hfinal : (((p :: t).map (fun p => max 1 (rnd ((FREQ_SCALE_FACTOR : ℚ) * p)))).sum : ℚ)
          ≤ ((QUARTER : Nat) : ℚ) := by
        rw [hQq]
        have hSp : (FREQ_SCALE_FACTOR : ℚ) * (p :: t).sum ≤ 4294967296 := by
          rw [hS]
          nlinarith
        linarith
      exact_mod_cast hfinal

theorem claim_C4_witness :
    (∀ x : ℚ, |((round x : ℚ)) - x| ≤ 1 / 2) ∧
    ([(1 : ℚ), 0].length ≤ 2 ^ 30) ∧ (∀ p ∈ [(1 : ℚ), 0], 0 ≤ p) ∧
    ([(1 : ℚ), 0].sum ≤ 1) ∧
    ((∀ i : Nat, i + 1 < (compute_cdf round [(1 : ℚ), 0]).length →
      (compute_cdf round [(1 : ℚ), 0]).getD i 0 + 1
        ≤ (compute_cdf round [(1 : ℚ), 0]).getD (i + 1) 0) ∧
    (([(1 : ℚ), 0] : List ℚ) ≠ [] → 1 ≤ (compute_cdf round [(1 : ℚ), 0]).getD 0 0) ∧
    ((compute_cdf round [(1 : ℚ), 0]).getLast?).getD 0 ≤ (QUARTER : ℤ)) :=
  ⟨fun x => abs_sub_comm x ((round x : ℚ)) ▸ abs_sub_round x, by decide, by decide, by simp,
    claim_C4_cdf_builder round [(1 : ℚ), 0]
      (fun x => abs_sub_comm x ((round x : ℚ)) ▸ abs_sub_round x)
      (by decide) (by decide) (by simp)⟩

/-- **C5.** Starting from the initial coder state (`low = 0`,
`high = 2 ^ 64 - 1`) and applying any sequence of `update` calls whose cdf
arguments are strictly increasing positive-integer tables with total mass at
most `2 ^ 62` and whose symbols are in range, after every update
`high >= low` and `high - low + 1 >= QUARTER / 2` (and a fortiori
`>= 2 ^ 60`); for the decoder, `low <= code <= high` also holds after every
update.  (The claim's aside `QUARTER / 2 = 2 ^ 60` misstates the value —
`QUARTER / 2 = 2 ^ 61` — but both bounds hold.) -/
theorem claim_C5_range_invariants (ps : List (List Nat × Nat)) (hv : ValidPairs ps)
    (cs : List (List Nat)) (hcs : ∀ c ∈ cs, ValidCdf c)
    (bits : List Nat) (hbits : Bits01 bits) :
    ((encodeAll Encoder.init ps).low ≤ (encodeAll Encoder.init ps).high ∧
      QUARTER / 2 ≤ (encodeAll Encoder.init ps).high - (encodeAll Encoder.init ps).low + 1 ∧
      2 ^ 60 ≤ (encodeAll Encoder.init ps).high - (encodeAll Encoder.init ps).low + 1) ∧
    ((decodeAll (Decoder.init bits) cs).2.low ≤ (decodeAll (Decoder.init bits) cs).2.code ∧
      (decodeAll (Decoder.init bits) cs).2.code ≤ (decodeAll (Decoder.init bits) cs).2.high ∧
      QUARTER / 2 ≤ (decodeAll (Decoder.init bits) cs).2.high
        - (decodeAll (Decoder.init bits) cs).2.low + 1 ∧
      2 ^ 60 ≤ (decodeAll (Decoder.init bits) cs).2.high
        - (decodeAll (Decoder.init bits) cs).2.low + 1) := by
  obtain ⟨hinv, -⟩ := encodeAll_inv ps Encoder.init StateInv_init hv
  obtain ⟨hdinv, hdlc, hdch, -⟩ :=
    decodeAll_DecInv cs (Decoder.init bits) (DecInv_init bits hbits) hcs
  have hr := hinv.range_gt
  have hle := hinv.low_le_high
  have hdr := hdinv.range_gt
  have hdle := hdinv.low_le_high
  have hQ := QUARTER_eq
  refine ⟨⟨hle, ?_, ?_⟩, hdlc, hdch, ?_, ?_⟩ <;> omega

/-- **C5 counterexample.** The claim's aside misidentifies the bound:
`QUARTER / 2` is `2 ^ 61`, not `2 ^ 60`. -/
theorem claim_C5_counterexample : QUARTER / 2 = 2 ^ 61 ∧ QUARTER / 2 ≠ 2 ^ 60 := by
  decide

theorem claim_C5_witness :
    ValidPairs [([1, 2], 1), ([3, 7, 9], 0)] ∧
    (∀ c ∈ [[1, 2], [5, 6, 100]], ValidCdf c) ∧
    Bits01 [1, 0, 1, 1] ∧
    (((encodeAll Encoder.init [([1, 2], 1), ([3, 7, 9], 0)]).low
        ≤ (encodeAll Encoder.init [([1, 2], 1), ([3, 7, 9], 0)]).high ∧
      QUARTER / 2 ≤ (encodeAll Encoder.init [([1, 2], 1), ([3, 7, 9], 0)]).high
        - (encodeAll Encoder.init [([1, 2], 1), ([3, 7, 9], 0)]).low + 1 ∧
      2 ^ 60 ≤ (encodeAll Encoder.init [([1, 2], 1), ([3, 7, 9], 0)]).high
        - (encodeAll Encoder.init [([1, 2], 1), ([3, 7, 9], 0)]).low + 1) ∧
    ((decodeAll (Decoder.init [1, 0, 1, 1]) [[1, 2], [5, 6, 100]]).2.low
        ≤ (decodeAll (Decoder.init [1, 0, 1, 1]) [[1, 2], [5, 6, 100]]).2.code ∧
      (decodeAll (Decoder.init [1, 0, 1, 1]) [[1, 2], [5, 6, 100]]).2.code
        ≤ (decodeAll (Decoder.init [1, 0, 1, 1]) [[1, 2], [5, 6, 100]]).2.high ∧
      QUARTER / 2 ≤ (decodeAll (Decoder.init [1, 0, 1, 1]) [[1, 2], [5, 6, 100]]).2.high
        - (decodeAll (Decoder.init [1, 0, 1, 1]) [[1, 2], [5, 6, 100]]).2.low + 1 ∧
      2 ^ 60 ≤ (decodeAll (Decoder.init [1, 0, 1, 1]) [[1, 2], [5, 6, 100]]).2.high
        - (decodeAll (Decoder.init [1, 0, 1, 1]) [[1, 2], [5, 6, 100]]).2.low + 1)) :=
  ⟨by decide, by decide, by decide,
    claim_C5_range_invariants [([1, 2], 1), ([3, 7, 9], 0)] (by decide)
      [[1, 2], [5, 6, 100]] (by decide) [1, 0, 1, 1] (by decide)⟩

/-- **C6 counterexample.** The string `"BA"` is over the 64-symbol alphabet
and its unpacked bits, after stripping trailing zeros, end in a 1 bit — the
claim's hypothesis — yet `bits_to_base64 (base64_to_bits "BA")` is `"B"`,
not `"BA"`: the final all-zero group `'A'` is destroyed by the stripping. -/
theorem claim_C6_counterexample :
    (∀ c ∈ ['B', 'A'], c ∈ BASE64) ∧
    (stripTrailingZeros (base64_to_bits ['B', 'A'])).getLast? = some 1 ∧
    bits_to_base64 (base64_to_bits ['B', 'A']) ≠ ['B', 'A'] := by
  decide

/-- **C6 (amended).** `bits_to_base64` strips trailing zero bits, zero-pads
to a multiple of six and maps 6-bit groups MSB-first into the 64-symbol
alphabet; and for every alphabet string whose final character is not `'A'`
(equivalently, whose final 6-bit group contains a 1 bit),
`bits_to_base64 (base64_to_bits x) = x`. -/
theorem claim_C6_packing_roundtrip :
    (∀ bits : List Nat, bits_to_base64 bits
      = encodeChunks (padToSix (stripTrailingZeros bits))) ∧
    (∀ s : List Char, (∀ c ∈ s, c ∈ BASE64) → s.getLast? ≠ some 'A' →
      bits_to_base64 (base64_to_bits s) = s) := by
  refine ⟨fun _ => rfl, ?_⟩
  intro s hall hlast
  rcases List.eq_nil_or_concat s with rfl | ⟨L, c, rfl⟩
  · rfl
  · rw [List.concat_eq_append] at hall hlast ⊢
    have hc : c ∈ BASE64 := hall c (List.mem_append_right L (List.mem_singleton_self c))
    have hcA : c ≠ 'A' := by
      intro h
      subst h
      apply hlast
      simp
    have hchunk : base64_to_bits [c] = bitsOfIdx (List.indexOf c BASE64) := by
      rw [base64_to_bits_cons, base64_to_bits_nil, List.append_nil]
    rw [base64_to_bits_append, bits_to_base64, hchunk,
      padToSix_strip_chunk (base64_to_bits L) (bitsOfIdx (List.indexOf c BASE64))
        (by rw [base64_to_bits_length]; omega) (bitsOfIdx_length _)
        (bitsOfIdx_any_of_ne c hc hcA),
      ← hchunk, ← base64_to_bits_append]
    exact encodeChunks_base64 (L ++ [c]) hall

theorem claim_C6_witness :
    (∀ c ∈ ['u', 'w'], c ∈ BASE64) ∧ (['u', 'w'].getLast? ≠ some 'A') ∧
    bits_to_base64 (base64_to_bits ['u', 'w']) = ['u', 'w'] :=
  ⟨by decide, by decide, claim_C6_packing_roundtrip.2 ['u', 'w'] (by decide) (by decide)⟩

/-- **C8.** Overlap parsing: a percentage is accepted iff it lies in
`[0, 100]`; a negative integer `z` is normalized to `z + W` (`W` the context
length); an integer parse succeeds iff the normalized value lies in
`[0, W)`; and every successfully parsed overlap lies in `[0, W)`. -/
theorem claim_C8_overlap (W : ℤ) (hW : 1 ≤ W) :
    (∀ q : ℚ, (∃ O, parseOverlap W (OverlapArg.percentArg q) = Except.ok O)
      ↔ 0 ≤ q ∧ q ≤ 100) ∧
    (∀ z : ℤ, z < 0 →
      ∀ O, parseOverlap W (OverlapArg.intArg z) = Except.ok O → O = z + W) ∧
    (∀ z : ℤ, (∃ O, parseOverlap W (OverlapArg.intArg z) = Except.ok O)
      ↔ (0 ≤ (if z < 0 then z + W else z) ∧ (if z < 0 then z + W else z) < W)) ∧
    (∀ a O, parseOverlap W a = Except.ok O → 0 ≤ O ∧ O < W) := by
  refine ⟨?_, ?_, ?_, ?_⟩
  · intro q
    constructor
    · rintro ⟨O, hO⟩
      rw [parseOverlap] at hO
      by_cases h : 0 ≤ q ∧ q ≤ 100
      · exact h
      · rw [if_neg h] at hO
        simp at hO
    · intro h
      exact ⟨_, by rw [parseOverlap, if_pos h]⟩
  · intro z hz O hO
    rw [parseOverlap] at hO
    by_cases hcond : 0 ≤ (if z < 0 then z + W else z) ∧ (if z < 0 then z + W else z) < W
    · rw [if_pos hcond] at hO
      injection hO with h
      rw [← h, if_pos hz]
    · rw [if_neg hcond] at hO
      simp at hO
  · intro z
    constructor
    · rintro ⟨O, hO⟩
      rw [parseOverlap] at hO
      by_cases hcond : 0 ≤ (if z < 0 then z + W else z) ∧ (if z < 0 then z + W else z) < W
      · exact hcond
      · rw [if_neg hcond] at hO
        simp at hO
    · intro hcond
      exact ⟨_, by rw [parseOverlap, if_pos hcond]⟩
  · intro a O hO
    cases a with
    | percentArg q =>
      rw [parseOverlap] at hO
      by_cases h : 0 ≤ q ∧ q ≤ 100
      · rw [if_pos h] at hO
        injection hO with hinj
        subst hinj
        have hW1 : (1 : ℚ) ≤ (W : ℚ) := by exact_mod_cast hW
        constructor
        · refine Int.le_floor.mpr ?_
          have h1 : (0 : ℚ) ≤ q / 100 * ((W : ℚ) - 1) :=
            mul_nonneg (div_nonneg h.1 (by norm_num)) (by linarith)
          exact_mod_cast h1
        · have hq1 : q / 100 ≤ 1 := by
            rw [div_le_one (by norm_num)]
            exact h.2
          have h2 : q / 100 * ((W : ℚ) - 1) ≤ (W : ℚ) - 1 := by
            nlinarith [div_nonneg h.1 (show (0 : ℚ) ≤ 100 by norm_num)]
          have h3 : (⌊q / 100 * ((W : ℚ) - 1)⌋ : ℚ) ≤ (W : ℚ) - 1 :=
            le_trans (Int.floor_le _) h2
          have h4 : ⌊q / 100 * ((W : ℚ) - 1)⌋ ≤ W - 1 := by exact_mod_cast h3
          omega
      · rw [if_neg h] at hO
        simp at hO
    | intArg z =>
      rw [parseOverlap] at hO
      by_cases hcond : 0 ≤ (if z < 0 then z + W else z) ∧ (if z < 0 then z + W else z) < W
      · rw [if_pos hcond] at hO
        injection hO with hinj
        rw [← hinj]
        exact hcond
      · rw [if_neg hcond] at hO
        simp at hO
    | malformed =>
      rw [parseOverlap] at hO
      simp at hO

theorem claim_C8_witness :
    (1 : ℤ) ≤ 10 ∧
    ((∀ q : ℚ, (∃ O, parseOverlap 10 (OverlapArg.percentArg q) = Except.ok O)
        ↔ 0 ≤ q ∧ q ≤ 100) ∧
      (∀ z : ℤ, z < 0 →
        ∀ O, parseOverlap 10 (OverlapArg.intArg z) = Except.ok O → O = z + 10) ∧
      (∀ z : ℤ, (∃ O, parseOverlap 10 (OverlapArg.intArg z) = Except.ok O)
        ↔ (0 ≤ (if z < 0 then z + 10 else z) ∧ (if z < 0 then z + 10 else z) < 10)) ∧
      (∀ a O, parseOverlap 10 a = Except.ok O → 0 ≤ O ∧ O < 10)) :=
  ⟨by decide, claim_C8_overlap 10 (by decide)⟩

/-- **C10.** In interactive mode a line is decompressed exactly when it is
non-empty and consists solely of 64-symbol-alphabet characters, and is
compressed exactly when it is empty or contains a character outside the
alphabet — so alphabet-only plain text cannot be compressed interactively. -/
theorem claim_C10_interactive (line : List Char) :
    (interactiveAction line = IAction.doDecompress
      ↔ line ≠ [] ∧ ∀ ch ∈ line, ch ∈ BASE64) ∧
    (interactiveAction line = IAction.doCompress
      ↔ (line = [] ∨ ∃ ch ∈ line, ch ∉ BASE64)) := by
  rw [interactiveAction]
  by_cases h : line ≠ [] ∧ ∀ ch ∈ line, ch ∈ BASE64
  · rw [if_pos h]
    refine ⟨⟨fun _ => h, fun _ => rfl⟩, ?_, ?_⟩
    · intro hcon
      exact absurd hcon (by decide)
    · intro hcon
      rcases hcon with rfl | ⟨ch, hch, hnot⟩
      · exact absurd rfl h.1
      · exact absurd (h.2 ch hch) hnot
  · rw [if_neg h]
    refine ⟨⟨?_, ?_⟩, ?_, fun _ => rfl⟩
    · intro hcon
      exact absurd hcon (by decide)
    · intro hcon
      exact absurd hcon h
    · intro hcon2
      by_cases hnil : line = []
      · exact Or.inl hnil
      · right
        by_contra hno
        push_neg at hno
        exact h ⟨hnil, hno⟩

theorem claim_C10_witness :
    (interactiveAction ['A'] = IAction.doDecompress
      ↔ (['A'] ≠ [] ∧ ∀ ch ∈ ['A'], ch ∈ BASE64)) ∧
    (interactiveAction ['A'] = IAction.doCompress
      ↔ (['A'] = [] ∨ ∃ ch ∈ ['A'], ch ∉ BASE64)) :=
  claim_C10_interactive ['A']

/-- **C1.** For every UTF-8 string `s` (its tokenization `tokens0`, rendered
back to bytes by the tokenizer round trip `hrender`) and every window
overlap `O` with `0 ≤ O < W`, decompressing the result of compressing with
overlap `O` under the same deterministic model (the same context-to-cdf
oracle `cdfOf`, i.e. bit-identical logits at each corresponding step)
returns exactly `s`. -/
theorem claim_C1_roundtrip
    (cdfOf : List Nat → List Nat) (detok : Nat → List Nat) (spacePrefix : Bool)
    (W O bos eos : Nat) (tokens0 s : List Nat)
    (hval : ∀ ctx : List Nat, ValidCdf (cdfOf ctx))
    (hrange : ∀ ctx : List Nat, ∀ t ∈ tokens0 ++ [eos], t < (cdfOf ctx).length)
    (hO : O < W)
    (heos : eos ∉ tokens0)
    (hrender : renderBytes detok spacePrefix tokens0 = s) :
    (decompressToks cdfOf eos bos W O (tokens0.length + 1)
        (compress cdfOf W O bos eos tokens0)).map (renderBytes detok spacePrefix)
      = some s := by
  rw [decompress_compress cdfOf W O bos eos tokens0 hO heos hval hrange]
  rw [Option.map_some']
  rw [hrender]

theorem claim_C1_witness :
    (∀ ctx : List Nat, ValidCdf (((fun _ => [1, 2, 3]) : List Nat → List Nat) ctx)) ∧
    (∀ ctx : List Nat, ∀ t ∈ ([1, 0, 1] ++ [2] : List Nat),
      t < (((fun _ => [1, 2, 3]) : List Nat → List Nat) ctx).length) ∧
    1 < 3 ∧ (2 ∉ ([1, 0, 1] : List Nat)) ∧
    renderBytes (fun t => [t + 65]) false [1, 0, 1] = [66, 65, 66] ∧
    (decompressToks (fun _ => [1, 2, 3]) 2 0 3 1 (([1, 0, 1] : List Nat).length + 1)
        (compress (fun _ => [1, 2, 3]) 3 1 0 2 [1, 0, 1])).map
        (renderBytes (fun t => [t + 65]) false)
      = some [66, 65, 66] :=
  ⟨fun _ => (by decide : ValidCdf [1, 2, 3]),
    fun _ => (by decide : ∀ t ∈ ([1, 0, 1] ++ [2] : List Nat),
      t < ([1, 2, 3] : List Nat).length),
    by decide, by decide, by decide,
    claim_C1_roundtrip (fun _ => [1, 2, 3]) (fun t => [t + 65]) false 3 1 0 2
      [1, 0, 1] [66, 65, 66] (fun _ => (by decide : ValidCdf [1, 2, 3]))
      (fun _ => (by decide : ∀ t ∈ ([1, 0, 1] ++ [2] : List Nat),
        t < ([1, 2, 3] : List Nat).length))
      (by decide) (by decide) (by decide)⟩

/-- **C7.** If the cooperative interrupt flag is observed during compression
at encode step `k` while more than one input token remains unencoded
(`k < tokens0.length`), the symbols passed to `encode_symbol` are the proper
prefix `tokens0.take k` followed immediately by EOS, `finish()` is still
called, and decompressing the emitted output yields exactly the text of that
encoded prefix. -/
theorem claim_C7_interrupt
    (cdfOf : List Nat → List Nat) (detok : Nat → List Nat) (spacePrefix : Bool)
    (W O bos eos : Nat) (tokens0 : List Nat) (k : Nat)
    (hval : ∀ ctx : List Nat, ValidCdf (cdfOf ctx))
    (hrange : ∀ ctx : List Nat, ∀ t ∈ tokens0 ++ [eos], t < (cdfOf ctx).length)
    (hO : O < W) (heos : eos ∉ tokens0) (hk : k < tokens0.length) :
    (windowPairsInt W O bos (tokens0 ++ [eos]) 0 k).map Prod.snd
        = tokens0.take k ++ [eos] ∧
    (tokens0.take k).length < tokens0.length ∧
    (decompressToks cdfOf eos bos W O ((tokens0.take k).length + 1)
        (bits_to_base64
          ((encodeAll Encoder.init
              ((windowPairsInt W O bos (tokens0 ++ [eos]) 0 k).map
                (fun p => (cdfOf p.1, p.2)))).finish.get_encoded))).map
        (renderBytes detok spacePrefix)
      = some (renderBytes detok spacePrefix (tokens0.take k)) := by
  have heq : windowPairsInt W O bos (tokens0 ++ [eos]) 0 k
      = windowPairs W O bos (tokens0.take k ++ [eos]) 0 := by
    have h := windowPairsInt_eq_windowPairs W O bos eos tokens0 k hO hk k 0
      (by omega) (by omega)
    rw [Nat.sub_zero] at h
    exact h
  refine ⟨?_, ?_, ?_⟩
  · rw [heq, windowPairs_snd, List.drop_zero]
  · rw [List.length_take]
    omega
  · rw [heq]
    have hcompress : bits_to_base64 ((encodeAll Encoder.init
        ((windowPairs W O bos (tokens0.take k ++ [eos]) 0).map
          (fun p => (cdfOf p.1, p.2)))).finish.get_encoded)
        = compress cdfOf W O bos eos (tokens0.take k) := rfl
    rw [hcompress]
    rw [decompress_compress cdfOf W O bos eos (tokens0.take k) hO
      (fun hmem => heos (List.mem_of_mem_take hmem)) hval
      (fun ctx t ht => hrange ctx t (by
        rcases List.mem_append.mp ht with h | h
        · exact List.mem_append_left _ (List.mem_of_mem_take h)
        · exact List.mem_append_right _ h))]
    rw [Option.map_some']

theorem claim_C7_witness :
    (∀ ctx : List Nat, ValidCdf (((fun _ => [1, 2, 3]) : List Nat → List Nat) ctx)) ∧
    (∀ ctx : List Nat, ∀ t ∈ ([1, 0, 1] ++ [2] : List Nat),
      t < (((fun _ => [1, 2, 3]) : List Nat → List Nat) ctx).length) ∧
    1 < 3 ∧ (2 ∉ ([1, 0, 1] : List Nat)) ∧ 1 < ([1, 0, 1] : List Nat).length ∧
    ((windowPairsInt 3 1 0 ([1, 0, 1] ++ [2]) 0 1).map Prod.snd
        = ([1, 0, 1] : List Nat).take 1 ++ [2] ∧
      (([1, 0, 1] : List Nat).take 1).length < ([1, 0, 1] : List Nat).length ∧
      (decompressToks (fun _ => [1, 2, 3]) 2 0 3 1
          ((([1, 0, 1] : List Nat).take 1).length + 1)
          (bits_to_base64
            ((encodeAll Encoder.init
                ((windowPairsInt 3 1 0 ([1, 0, 1] ++ [2]) 0 1).map
                  (fun p => ((fun _ => [1, 2, 3] : List Nat → List Nat) p.1,
                    p.2)))).finish.get_encoded))).map
          (renderBytes (fun t => [t + 65]) false)
        = some (renderBytes (fun t => [t + 65]) false (([1, 0, 1] : List Nat).take 1))) :=
  ⟨fun _ => (by decide : ValidCdf [1, 2, 3]),
    fun _ => (by decide : ∀ t ∈ ([1, 0, 1] ++ [2] : List Nat),
      t < ([1, 2, 3] : List Nat).length),
    by decide, by decide, by decide,
    claim_C7_interrupt (fun _ => [1, 2, 3]) (fun t => [t + 65]) false 3 1 0 2
      [1, 0, 1] 1 (fun _ => (by decide : ValidCdf [1, 2, 3]))
      (fun _ => (by decide : ∀ t ∈ ([1, 0, 1] ++ [2] : List Nat),
        t < ([1, 2, 3] : List Nat).length))
      (by decide) (by decide) (by decide)⟩

/-- **C9.** For every input token list and every `window_overlap` with
`0 ≤ O < n_ctx`, the outer while loop of `compress` terminates: every
`generate` call runs the logits processor at least once before the stopping
criterion is consulted (`winSteps ≥ 1`), so `next_token_idx` strictly
increases on each outer-loop iteration, and the loop encodes exactly the
full token list including the appended EOS. -/
theorem claim_C9_termination (W O bos eos : Nat) (tokens0 : List Nat) (hO : O < W) :
    (∀ v, v < (tokens0 ++ [eos]).length →
      v < v + winSteps W O (tokens0 ++ [eos]).length v) ∧
    (windowPairs W O bos (tokens0 ++ [eos]) 0).map Prod.snd = tokens0 ++ [eos] := by
  constructor
  · intro v hv
    have h := winSteps_pos W O (tokens0 ++ [eos]).length v hv
    omega
  · rw [windowPairs_snd, List.drop_zero]

theorem claim_C9_witness :
    (0 : Nat) < 2 ∧
    ((∀ v, v < (([5] : List Nat) ++ [7]).length →
        v < v + winSteps 2 0 (([5] : List Nat) ++ [7]).length v) ∧
      (windowPairs 2 0 9 (([5] : List Nat) ++ [7]) 0).map Prod.snd
        = ([5] : List Nat) ++ [7]) :=
  ⟨by decide, claim_C9_termination 2 0 9 7 [5] (by decide)⟩

end LlamaZip
